import Mathlib

/-!
# PascalLexer: a shallow embedding of `src/main.cpp`

The C++ `Lexer` class is embedded as pure functions over an explicit state record.

* A C++ `char` is represented by its code, a natural number (`'\n'` is `10`, `'\0'` is `0`),
  and a `std::string` by the list of the codes of its characters.  Every byte string is such
  a list, so a statement proved for all lists holds for all byte strings.
* `std::isspace`, `std::isdigit`, `std::isalpha`, `std::isalnum` are the classifications of
  the "C" locale, in which a character outside ASCII belongs to none of these classes.
* The `int` counters `line` and `column` are integers in the range of a 32-bit `int`.
  C++ leaves the overflow of `line++` and `column++` at `INT_MAX` undefined; the embedding
  takes the two's complement result that the usual targets produce, so the increment of
  `INT_MAX` is `INT_MIN` (`wrapInt`).  The cursor `pos` is a `size_t`, which no buffer in
  memory can overflow, and is a natural number.
* Every `while` loop and the recursion of `nextToken` is a structurally recursive function
  on a fuel argument; running out of fuel is the result `none`, distinct from every result
  of the program.  The theorems show that a fuel above the buffer length always suffices.
-/

namespace PascalLexer

/-! ## Data model (`main.cpp` lines 8-60) -/

/-- The token kinds, `enum class Lexeme`. -/
inductive Lexeme where
  | ARRAY | BEGIN | ELSE | END | IF | OF | OR | PROGRAM | PROCEDURE | THEN | TYPE | VAR
  | MULTIPLICATION | PLUS | MINUS | DIVIDE | SEMICOLON | COMMA
  | LEFT_PAREN | RIGHT_PAREN | LEFT_BRACKET | RIGHT_BRACKET
  | EQ | GREATER | LESS | LESS_EQ | GREATER_EQ | NOT_EQ | COLON | ASSIGN | DOT
  | IDENTIFIER | STRING | INTEGER | FLOAT | LINE_COMMENT | BLOCK_COMMENT | BAD | END_OF_FILE
  deriving DecidableEq

/-- The record `struct Position`. -/
structure Position where
  line : Int
  column : Int
  deriving DecidableEq

/-- The record `struct Token`. -/
structure Token where
  type : Lexeme
  lexeme : List Nat
  position : Position
  deriving DecidableEq

/-- The private fields of `class Lexer`. -/
structure Lexer where
  text : List Nat
  pos : Nat
  currentChar : Nat
  line : Int
  column : Int
  deriving DecidableEq

/-- The codes of the characters of an ASCII string literal of the source. -/
def bytes (s : String) : List Nat := s.toList.map Char.toNat

/-! ## Character classes of `<cctype>` in the "C" locale -/

/-- The class `std::isspace`: space, `\t`, `\n`, `\v`, `\f`, `\r`. -/
def isspace (c : Nat) : Bool := c == 32 || (9 ≤ c && c ≤ 13)

/-- The class `std::isdigit`: `'0'`..`'9'`. -/
def isdigit (c : Nat) : Bool := 48 ≤ c && c ≤ 57

/-- The class `std::isalpha`: `'A'`..`'Z'` and `'a'`..`'z'`. -/
def isalpha (c : Nat) : Bool := (65 ≤ c && c ≤ 90) || (97 ≤ c && c ≤ 122)

/-- The class `std::isalnum`. -/
def isalnum (c : Nat) : Bool := isalpha c || isdigit c

/-! ## The scanner (`main.cpp` lines 62-272) -/

/-- The read `text[i]` of a `std::string`, which is `'\0'` at `i = text.size()`. -/
def charAt (text : List Nat) (i : Nat) : Nat := text.getD i 0

/-- The constructor `Lexer::Lexer` (lines 221-223), with the member initialisers of lines 65-68. -/
def Lexer.init (input : List Nat) : Lexer :=
  { text := input, pos := 0, currentChar := if !input.isEmpty then charAt input 0 else 0,
    line := 1, column := 0 }

/-- The result of 32-bit `int` arithmetic for the integer `x`: the value in the range from
`INT_MIN = -2147483648` to `INT_MAX = 2147483647` that differs from `x` by a multiple of
`2^32`. -/
@[irreducible]
def wrapInt (x : Int) : Int := (x + 2147483648) % 4294967296 - 2147483648

/-- The method `Lexer::advance` (lines 70-79); `line++` and `column++` are increments of an
`int`. -/
def advance (s : Lexer) : Lexer :=
  let line := if s.currentChar = 10 then wrapInt (s.line + 1) else s.line
  let column := if s.currentChar = 10 then 0 else wrapInt (s.column + 1)
  let pos := s.pos + 1
  { text := s.text, pos := pos,
    currentChar := if pos < s.text.length then charAt s.text pos else 0,
    line := line, column := column }

/-- The method `Lexer::peek` (lines 81-83). -/
def peek (s : Lexer) : Nat :=
  if s.pos + 1 < s.text.length then charAt s.text (s.pos + 1) else 0

/-- The `while` loop of `skipLineComment` (lines 86-88). -/
def skipLineCommentLoop : Nat → Lexer → Option Lexer
  | 0, _ => none
  | fuel + 1, s =>
    if s.pos < s.text.length ∧ charAt s.text s.pos ≠ 10 then
      skipLineCommentLoop fuel (advance s)
    else some s

/-- The method `Lexer::skipLineComment` (lines 85-92). -/
def skipLineComment (fuel : Nat) (s : Lexer) : Option Lexer :=
  match skipLineCommentLoop fuel s with
  | none => none
  | some s1 => if s1.pos < s1.text.length then some (advance s1) else some s1

/-- The `while` loop of `skipBlockComment` (lines 96-103), with the value it returns. -/
def skipBlockCommentLoop : Nat → Lexer → Option (Bool × Lexer)
  | 0, _ => none
  | fuel + 1, s =>
    if s.pos < s.text.length then
      if charAt s.text s.pos = 125 then some (true, advance s)
      else skipBlockCommentLoop fuel (advance s)
    else some (false, s)

/-- The method `Lexer::skipBlockComment` (lines 94-104). -/
def skipBlockComment (fuel : Nat) (s : Lexer) : Option (Bool × Lexer) :=
  skipBlockCommentLoop fuel (advance s)

/-- The method `Lexer::skipWhitespace` (lines 107-111). -/
def skipWhitespace : Nat → Lexer → Option Lexer
  | 0, _ => none
  | fuel + 1, s =>
    if isspace s.currentChar then skipWhitespace fuel (advance s) else some s

/-- The loop `while (cond(currentChar)) { result += currentChar; advance(); }`, which occurs
with `cond = isdigit` twice in `number` (lines 117-120, 125-128), with
`cond = isalnum or '_'` in `identifier` (lines 139-142) and with
`cond = not '\'', '\n', '\0'` in `stringLiteral` (lines 164-167). -/
def accumulateWhile (cond : Nat → Bool) : Nat → Lexer → List Nat → Option (List Nat × Lexer)
  | 0, _, _ => none
  | fuel + 1, s, result =>
    if cond s.currentChar then
      accumulateWhile cond fuel (advance s) (result ++ [s.currentChar])
    else some (result, s)

/-- The method `Lexer::number` (lines 113-133). -/
def number (fuel : Nat) (s : Lexer) : Option (Token × Lexer) :=
  let start : Position := ⟨s.line, s.column⟩
  match accumulateWhile isdigit fuel s [] with
  | none => none
  | some (result, s1) =>
    if s1.currentChar = 46 then
      match accumulateWhile isdigit fuel (advance s1) (result ++ [s1.currentChar]) with
      | none => none
      | some (result2, s2) => some (⟨Lexeme.FLOAT, result2, start⟩, s2)
    else some (⟨Lexeme.INTEGER, result, start⟩, s1)

/-- The table `keywords` of `identifier` (lines 144-149). -/
def keywords : List (List Nat × Lexeme) :=
  [(bytes "ARRAY", Lexeme.ARRAY), (bytes "BEGIN", Lexeme.BEGIN), (bytes "ELSE", Lexeme.ELSE),
   (bytes "END", Lexeme.END), (bytes "IF", Lexeme.IF), (bytes "OF", Lexeme.OF),
   (bytes "OR", Lexeme.OR), (bytes "PROGRAM", Lexeme.PROGRAM),
   (bytes "PROCEDURE", Lexeme.PROCEDURE),
   (bytes "THEN", Lexeme.THEN), (bytes "TYPE", Lexeme.TYPE), (bytes "VAR", Lexeme.VAR)]

/-- The loop condition of `identifier` (line 139). -/
def isIdentChar (c : Nat) : Bool := isalnum c || c == 95

/-- The method `Lexer::identifier` (lines 135-157); `keywords.find` is the lookup of the key. -/
def identifier (fuel : Nat) (s : Lexer) : Option (Token × Lexer) :=
  let start : Position := ⟨s.line, s.column⟩
  match accumulateWhile isIdentChar fuel s [] with
  | none => none
  | some (result, s1) =>
    match keywords.lookup result with
    | some kind => some (⟨kind, result, start⟩, s1)
    | none => some (⟨Lexeme.IDENTIFIER, result, start⟩, s1)

/-- The loop condition of `stringLiteral` (line 164). -/
def isStringChar (c : Nat) : Bool := c != 39 && c != 10 && c != 0

/-- The method `Lexer::stringLiteral` (lines 159-175). -/
def stringLiteral (fuel : Nat) (s : Lexer) : Option (Token × Lexer) :=
  let start : Position := ⟨s.line, s.column⟩
  match accumulateWhile isStringChar fuel (advance s) [] with
  | none => none
  | some (result, s1) =>
    if s1.currentChar = 39 then some (⟨Lexeme.STRING, result, start⟩, advance s1)
    else some (⟨Lexeme.BAD, result, start⟩, s1)

/-- The method `Lexer::operatorOrPunctuation` (lines 177-218). -/
def operatorOrPunctuation (s : Lexer) : Token × Lexer :=
  let start : Position := ⟨s.line, s.column⟩
  let ch := s.currentChar
  let s1 := advance s
  if ch = 42 then (⟨Lexeme.MULTIPLICATION, bytes "*", start⟩, s1)
  else if ch = 43 then (⟨Lexeme.PLUS, bytes "+", start⟩, s1)
  else if ch = 45 then (⟨Lexeme.MINUS, bytes "-", start⟩, s1)
  else if ch = 47 then (⟨Lexeme.DIVIDE, bytes "/", start⟩, s1)
  else if ch = 59 then (⟨Lexeme.SEMICOLON, bytes ";", start⟩, s1)
  else if ch = 44 then (⟨Lexeme.COMMA, bytes ",", start⟩, s1)
  else if ch = 40 then (⟨Lexeme.LEFT_PAREN, bytes "(", start⟩, s1)
  else if ch = 41 then (⟨Lexeme.RIGHT_PAREN, bytes ")", start⟩, s1)
  else if ch = 91 then (⟨Lexeme.LEFT_BRACKET, bytes "[", start⟩, s1)
  else if ch = 93 then (⟨Lexeme.RIGHT_BRACKET, bytes "]", start⟩, s1)
  else if ch = 61 then (⟨Lexeme.EQ, bytes "=", start⟩, s1)
  else if ch = 62 then
    if s1.currentChar = 61 then (⟨Lexeme.GREATER_EQ, bytes ">=", start⟩, advance s1)
    else (⟨Lexeme.GREATER, bytes ">", start⟩, s1)
  else if ch = 60 then
    if s1.currentChar = 61 then (⟨Lexeme.LESS_EQ, bytes "<=", start⟩, advance s1)
    else if s1.currentChar = 62 then (⟨Lexeme.NOT_EQ, bytes "<>", start⟩, advance s1)
    else (⟨Lexeme.LESS, bytes "<", start⟩, s1)
  else if ch = 58 then
    if s1.currentChar = 61 then (⟨Lexeme.ASSIGN, bytes ":=", start⟩, advance s1)
    else (⟨Lexeme.COLON, bytes ":", start⟩, s1)
  else if ch = 46 then (⟨Lexeme.DOT, bytes ".", start⟩, s1)
  else (⟨Lexeme.BAD, [ch], start⟩, s1)

/-- The method `Lexer::nextToken` (lines 225-261).  An iteration of its `while` loop that
ends in `continue`, and each recursive call, is a recursive call on the remaining fuel. -/
def nextToken : Nat → Lexer → Option (Token × Lexer)
  | 0, _ => none
  | fuel + 1, s =>
    if s.currentChar ≠ 0 then
      if isspace s.currentChar then
        match skipWhitespace fuel s with
        | none => none
        | some s1 => nextToken fuel s1
      else if isdigit s.currentChar then number fuel s
      else if isalpha s.currentChar ∨ s.currentChar = 95 then identifier fuel s
      else if s.currentChar = 39 then stringLiteral fuel s
      else if s.currentChar = 47 ∧ peek s = 47 then
        match skipLineComment fuel s with
        | none => none
        | some s1 => nextToken fuel s1
      else if s.currentChar = 123 then
        match skipBlockComment fuel s with
        | none => none
        | some (true, s1) => nextToken fuel s1
        | some (false, s1) => some (⟨Lexeme.BAD, bytes "\x7b", ⟨s1.line, s1.column⟩⟩, s1)
      else some (operatorOrPunctuation s)
    else some (⟨Lexeme.END_OF_FILE, [], ⟨s.line, s.column⟩⟩, s)

/-- The `do ... while` loop of `tokenize` (lines 266-269). -/
def tokenizeLoop : Nat → Lexer → List Token → Option (List Token)
  | 0, _, _ => none
  | fuel + 1, s, tokens =>
    match nextToken fuel s with
    | none => none
    | some (token, s1) =>
      if token.type ≠ Lexeme.END_OF_FILE then tokenizeLoop fuel s1 (tokens ++ [token])
      else some (tokens ++ [token])

/-- The method `Lexer::tokenize` (lines 263-271), run on a fresh `Lexer` over `input`,
as `main` does (lines 338-339). -/
def tokenize (fuel : Nat) (input : List Nat) : Option (List Token) :=
  tokenizeLoop fuel (Lexer.init input) []

/-! ## Vocabulary of the specification -/

/-- The 1-based line of the character at cursor `p`: one more than the number of newline
characters of `text` before `p`. -/
def lineAt (text : List Nat) (p : Nat) : Nat := 1 + (text.take p).count 10

/-- The 0-based column of the character at cursor `p`: the number of characters between the
last newline before `p` (or the start of the buffer) and `p`. -/
def colAt (text : List Nat) (p : Nat) : Nat :=
  ((text.take p).reverse.takeWhile (fun c => c != 10)).length

/-- The characters of `text` from cursor `p` (included) to cursor `q` (excluded). -/
def slice (text : List Nat) (p q : Nat) : List Nat := (text.drop p).take (q - p)

/-- The lexer over `text` whose cursor is `p`, with the current character and the tracked
line and column that belong to that cursor: the line and the column of `p`, as `int`s. -/
def stateAt (text : List Nat) (p : Nat) : Lexer :=
  { text := text, pos := p, currentChar := charAt text p,
    line := wrapInt (lineAt text p), column := wrapInt (colAt text p) }

/-- The cursor reached from `p` by passing over the longest run of characters that satisfy
`cond`. -/
def scanEnd (cond : Nat → Bool) (text : List Nat) (p : Nat) : Nat :=
  p + ((text.drop p).takeWhile cond).length

/-- The loop condition of `skipLineComment` on the character read (line 86). -/
def notNewline (c : Nat) : Bool := c != 10

/-- The negated exit test of the loop of `skipBlockComment` on the character read (line 97). -/
def notCloseBrace (c : Nat) : Bool := c != 125

/-- The lexer states that calls of `nextToken` reach from the constructor on `input`. -/
inductive Reachable (input : List Nat) : Lexer → Prop where
  | init : Reachable input (Lexer.init input)
  | next (fuel : Nat) (s s1 : Lexer) (t : Token) :
      Reachable input s → nextToken fuel s = some (t, s1) → Reachable input s1

/-- No skipping branch of `nextToken` applies in state `s`: the current character is not
whitespace and opens no comment, so that `nextToken` returns from its number, identifier,
string, operator or end-of-input branch with the token that begins at the cursor of `s`. -/
def atTokenStart (s : Lexer) : Prop :=
  isspace s.currentChar = false ∧ ¬ (s.currentChar = 47 ∧ peek s = 47) ∧ s.currentChar ≠ 123

instance (s : Lexer) : Decidable (atTokenStart s) := by
  unfold atTokenStart
  infer_instance

/-- The block comment that opens at cursor `p` is never closed: the character at `p` is
`'{'` and no `'}'` follows it in `text`. -/
def unterminatedAt (text : List Nat) (p : Nat) : Prop :=
  charAt text p = 123 ∧ text.length ≤ scanEnd notCloseBrace text (p + 1)

instance (text : List Nat) (p : Nat) : Decidable (unterminatedAt text p) := by
  unfold unterminatedAt
  infer_instance

/-- The position that belongs to cursor `p` of `text`: its line and column, as `int`s. -/
def locAt (text : List Nat) (p : Nat) : Position :=
  ⟨wrapInt (lineAt text p), wrapInt (colAt text p)⟩

/-- With enough fuel, `nextToken` called with the cursor at `p` returns the token `t` and
leaves the cursor at `q`. -/
def Scanned (text : List Nat) (p : Nat) (t : Token) (q : Nat) : Prop :=
  p ≤ q ∧ q ≤ text.length ∧
  ∀ fuel, text.length - p + 2 ≤ fuel → nextToken fuel (stateAt text p) = some (t, stateAt text q)

/-- The token sequences that repeated calls of `nextToken` produce from cursor `p` up to and
including the first `END_OF_FILE` token. -/
inductive Run (text : List Nat) : Nat → List Token → Prop where
  | last (p q : Nat) (t : Token) :
      Scanned text p t q → t.type = Lexeme.END_OF_FILE → Run text p [t]
  | more (p q : Nat) (t : Token) (ts : List Token) :
      Scanned text p t q → t.type ≠ Lexeme.END_OF_FILE → Run text q ts → Run text p (t :: ts)

/-- The cursor `p0` is where the skipping branches of `nextToken` (lines 227-256), entered
with the cursor at `p`, stop: whitespace runs, line comments and closed block comments
are passed over one after the other, up to the first cursor at which no skipping branch
applies or at which a block comment opens that is never closed. -/
inductive SkipsTo (text : List Nat) : Nat → Nat → Prop where
  | here (p : Nat) :
      atTokenStart (stateAt text p) ∨ unterminatedAt text p → SkipsTo text p p
  | space (p p0 : Nat) :
      isspace (charAt text p) = true → SkipsTo text (scanEnd isspace text p) p0 →
      SkipsTo text p p0
  | lineComment (p p0 : Nat) :
      charAt text p = 47 → charAt text (p + 1) = 47 →
      SkipsTo text (min (scanEnd notNewline text p + 1) text.length) p0 → SkipsTo text p p0
  | blockComment (p p0 : Nat) :
      charAt text p = 123 → scanEnd notCloseBrace text (p + 1) < text.length →
      SkipsTo text (scanEnd notCloseBrace text (p + 1) + 1) p0 → SkipsTo text p p0

/-- The words of claim C9: an ASCII letter or underscore followed by any number of ASCII
letters, digits and underscores. -/
def isWord : List Nat → Bool
  | [] => false
  | c :: cs => (isalpha c || c == 95) && cs.all (fun d => isalpha d || isdigit d || d == 95)


/-- The lexer `s2` is the lexer `s1` moved behind the prefix `pre`: its buffer is `pre`
followed by the buffer of `s1`, its cursor is shifted by the length of `pre`, the current
character is the same, and the tracked positions are related by `rel`. -/
def Shifted (pre : List Nat) (rel : Position → Position → Prop) (s1 s2 : Lexer) : Prop :=
  s2.text = pre ++ s1.text ∧ s2.pos = pre.length + s1.pos ∧
  s2.currentChar = s1.currentChar ∧ rel ⟨s1.line, s1.column⟩ ⟨s2.line, s2.column⟩

/-- The relation `rel` between positions is kept by both updates of `advance`: the start of a
new line, and one more column. -/
def StepClosed (rel : Position → Position → Prop) : Prop :=
  ∀ l c l2 c2, rel ⟨l, c⟩ ⟨l2, c2⟩ →
    rel ⟨wrapInt (l + 1), 0⟩ ⟨wrapInt (l2 + 1), 0⟩ ∧
    rel ⟨l, wrapInt (c + 1)⟩ ⟨l2, wrapInt (c2 + 1)⟩

/-- The token `t2` has the kind and the lexeme of `t1`, and their positions are related by
`rel`. -/
def TokenShifted (rel : Position → Position → Prop) (t1 t2 : Token) : Prop :=
  t2.type = t1.type ∧ t2.lexeme = t1.lexeme ∧ rel t1.position t2.position


/-! ## Rendering (`main.cpp` lines 274-323) -/

/-- The function `lexemeToString` (lines 274-317).  Its `default` arm, which returns
`"UNKNOWN"`, is taken for no member of the enumeration and so has no counterpart here. -/
def lexemeToString : Lexeme → String
  | Lexeme.BAD => "BAD"
  | Lexeme.IDENTIFIER => "IDENTIFIER"
  | Lexeme.STRING => "STRING"
  | Lexeme.INTEGER => "INTEGER"
  | Lexeme.FLOAT => "FLOAT"
  | Lexeme.LINE_COMMENT => "LINE_COMMENT"
  | Lexeme.BLOCK_COMMENT => "BLOCK_COMMENT"
  | Lexeme.ARRAY => "ARRAY"
  | Lexeme.BEGIN => "BEGIN"
  | Lexeme.ELSE => "ELSE"
  | Lexeme.END => "END"
  | Lexeme.IF => "IF"
  | Lexeme.OF => "OF"
  | Lexeme.OR => "OR"
  | Lexeme.PROGRAM => "PROGRAM"
  | Lexeme.PROCEDURE => "PROCEDURE"
  | Lexeme.THEN => "THEN"
  | Lexeme.TYPE => "TYPE"
  | Lexeme.VAR => "VAR"
  | Lexeme.MULTIPLICATION => "MULTIPLICATION"
  | Lexeme.PLUS => "PLUS"
  | Lexeme.MINUS => "MINUS"
  | Lexeme.DIVIDE => "DIVIDE"
  | Lexeme.SEMICOLON => "SEMICOLON"
  | Lexeme.COMMA => "COMMA"
  | Lexeme.LEFT_PAREN => "LEFT_PAREN"
  | Lexeme.RIGHT_PAREN => "RIGHT_PAREN"
  | Lexeme.LEFT_BRACKET => "LEFT_BRACKET"
  | Lexeme.RIGHT_BRACKET => "RIGHT_BRACKET"
  | Lexeme.EQ => "EQ"
  | Lexeme.GREATER => "GREATER"
  | Lexeme.LESS => "LESS"
  | Lexeme.LESS_EQ => "LESS_EQ"
  | Lexeme.GREATER_EQ => "GREATER_EQ"
  | Lexeme.NOT_EQ => "NOT_EQ"
  | Lexeme.COLON => "COLON"
  | Lexeme.ASSIGN => "ASSIGN"
  | Lexeme.DOT => "DOT"
  | Lexeme.END_OF_FILE => "EOF"

/-- The characters that the body of the loop of `printTokens` (line 321) sends to
`std::cout` for one token, before `std::endl`: each `<<` appends its operand, an `int` in
decimal; the code 34 is the double quote. -/
def renderToken (token : Token) : List Nat :=
  bytes (lexemeToString token.type) ++ bytes " (" ++ bytes (Int.repr token.position.line)
    ++ bytes ", " ++ bytes (Int.repr token.position.column) ++ bytes ") " ++ [34]
    ++ token.lexeme ++ [34]

/-- The function `printTokens` (lines 319-323): the characters written to `std::cout`, where
`std::endl` writes the newline, code 10. -/
def printTokens (tokens : List Token) : List Nat :=
  tokens.foldl (fun out token => out ++ renderToken token ++ [10]) []

/-- The members of the enumeration `Lexeme`, in the order of their declaration. -/
def allKinds : List Lexeme :=
  [Lexeme.ARRAY, Lexeme.BEGIN, Lexeme.ELSE, Lexeme.END, Lexeme.IF, Lexeme.OF, Lexeme.OR,
   Lexeme.PROGRAM, Lexeme.PROCEDURE, Lexeme.THEN, Lexeme.TYPE, Lexeme.VAR,
   Lexeme.MULTIPLICATION, Lexeme.PLUS, Lexeme.MINUS, Lexeme.DIVIDE, Lexeme.SEMICOLON,
   Lexeme.COMMA, Lexeme.LEFT_PAREN, Lexeme.RIGHT_PAREN, Lexeme.LEFT_BRACKET,
   Lexeme.RIGHT_BRACKET, Lexeme.EQ, Lexeme.GREATER, Lexeme.LESS, Lexeme.LESS_EQ,
   Lexeme.GREATER_EQ, Lexeme.NOT_EQ, Lexeme.COLON, Lexeme.ASSIGN, Lexeme.DOT,
   Lexeme.IDENTIFIER, Lexeme.STRING, Lexeme.INTEGER, Lexeme.FLOAT, Lexeme.LINE_COMMENT,
   Lexeme.BLOCK_COMMENT, Lexeme.BAD, Lexeme.END_OF_FILE]

/-- The line of the specification for a token: the name of the kind, the line and the column
in parentheses, and the lexeme in double quotes. -/
def specLine (name : String) (line column : Int) (lexeme : List Nat) : List Nat :=
  bytes name ++ bytes " (" ++ bytes (Int.repr line) ++ bytes ", " ++ bytes (Int.repr column)
    ++ bytes ") \"" ++ lexeme ++ bytes "\""


/-! ## The scanner with its accesses checked

The methods of `Lexer` once more, line for line, where `advance` fails when the cursor is at
or past the end of the buffer and a read `text[pos]` fails when `pos` is out of bounds.  The
result `none` is a failed check or the end of the fuel. -/

/-- The invariant of the cursor and the cached character: the cursor is inside the buffer or
at its end, and `currentChar` is `text[pos]`, which is code 0 at the end. -/
def InBounds (s : Lexer) : Prop :=
  s.pos ≤ s.text.length ∧ s.currentChar = charAt s.text s.pos

namespace Checked

/-- The method `Lexer::advance`, called with the cursor before the end of the buffer. -/
def advance (s : Lexer) : Option Lexer :=
  if s.pos < s.text.length then some (PascalLexer.advance s) else none

/-- The read `text[pos]`, in bounds. -/
def readAt (s : Lexer) : Option Nat :=
  if s.pos < s.text.length then some (charAt s.text s.pos) else none

/-- The `while` loop of `skipLineComment` (lines 86-88), checked. -/
def skipLineCommentLoop : Nat → Lexer → Option Lexer
  | 0, _ => none
  | fuel + 1, s =>
    if s.pos < s.text.length then
      match readAt s with
      | none => none
      | some c =>
        if c ≠ 10 then
          match advance s with
          | none => none
          | some s1 => skipLineCommentLoop fuel s1
        else some s
    else some s

/-- The method `Lexer::skipLineComment` (lines 85-92), checked. -/
def skipLineComment (fuel : Nat) (s : Lexer) : Option Lexer :=
  match skipLineCommentLoop fuel s with
  | none => none
  | some s1 => if s1.pos < s1.text.length then advance s1 else some s1

/-- The `while` loop of `skipBlockComment` (lines 96-103), checked. -/
def skipBlockCommentLoop : Nat → Lexer → Option (Bool × Lexer)
  | 0, _ => none
  | fuel + 1, s =>
    if s.pos < s.text.length then
      match readAt s with
      | none => none
      | some c =>
        if c = 125 then
          match advance s with
          | none => none
          | some s1 => some (true, s1)
        else
          match advance s with
          | none => none
          | some s1 => skipBlockCommentLoop fuel s1
    else some (false, s)

/-- The method `Lexer::skipBlockComment` (lines 94-104), checked. -/
def skipBlockComment (fuel : Nat) (s : Lexer) : Option (Bool × Lexer) :=
  match advance s with
  | none => none
  | some s1 => skipBlockCommentLoop fuel s1

/-- The method `Lexer::skipWhitespace` (lines 107-111), checked. -/
def skipWhitespace : Nat → Lexer → Option Lexer
  | 0, _ => none
  | fuel + 1, s =>
    if isspace s.currentChar then
      match advance s with
      | none => none
      | some s1 => skipWhitespace fuel s1
    else some s

/-- The accumulating loop of `number`, `identifier` and `stringLiteral`, checked. -/
def accumulateWhile (cond : Nat → Bool) : Nat → Lexer → List Nat → Option (List Nat × Lexer)
  | 0, _, _ => none
  | fuel + 1, s, result =>
    if cond s.currentChar then
      match advance s with
      | none => none
      | some s1 => accumulateWhile cond fuel s1 (result ++ [s.currentChar])
    else some (result, s)

/-- The method `Lexer::number` (lines 113-133), checked. -/
def number (fuel : Nat) (s : Lexer) : Option (Token × Lexer) :=
  let start : Position := ⟨s.line, s.column⟩
  match accumulateWhile isdigit fuel s [] with
  | none => none
  | some (result, s1) =>
    if s1.currentChar = 46 then
      match advance s1 with
      | none => none
      | some s2 =>
        match accumulateWhile isdigit fuel s2 (result ++ [s1.currentChar]) with
        | none => none
        | some (result2, s3) => some (⟨Lexeme.FLOAT, result2, start⟩, s3)
    else some (⟨Lexeme.INTEGER, result, start⟩, s1)

/-- The method `Lexer::identifier` (lines 135-157), checked. -/
def identifier (fuel : Nat) (s : Lexer) : Option (Token × Lexer) :=
  let start : Position := ⟨s.line, s.column⟩
  match accumulateWhile isIdentChar fuel s [] with
  | none => none
  | some (result, s1) =>
    match keywords.lookup result with
    | some kind => some (⟨kind, result, start⟩, s1)
    | none => some (⟨Lexeme.IDENTIFIER, result, start⟩, s1)

/-- The method `Lexer::stringLiteral` (lines 159-175), checked. -/
def stringLiteral (fuel : Nat) (s : Lexer) : Option (Token × Lexer) :=
  let start : Position := ⟨s.line, s.column⟩
  match advance s with
  | none => none
  | some s0 =>
    match accumulateWhile isStringChar fuel s0 [] with
    | none => none
    | some (result, s1) =>
      if s1.currentChar = 39 then
        match advance s1 with
        | none => none
        | some s2 => some (⟨Lexeme.STRING, result, start⟩, s2)
      else some (⟨Lexeme.BAD, result, start⟩, s1)

/-- The method `Lexer::operatorOrPunctuation` (lines 177-218), checked. -/
def operatorOrPunctuation (s : Lexer) : Option (Token × Lexer) :=
  let start : Position := ⟨s.line, s.column⟩
  let ch := s.currentChar
  match advance s with
  | none => none
  | some s1 =>
    if ch = 42 then some (⟨Lexeme.MULTIPLICATION, bytes "*", start⟩, s1)
    else if ch = 43 then some (⟨Lexeme.PLUS, bytes "+", start⟩, s1)
    else if ch = 45 then some (⟨Lexeme.MINUS, bytes "-", start⟩, s1)
    else if ch = 47 then some (⟨Lexeme.DIVIDE, bytes "/", start⟩, s1)
    else if ch = 59 then some (⟨Lexeme.SEMICOLON, bytes ";", start⟩, s1)
    else if ch = 44 then some (⟨Lexeme.COMMA, bytes ",", start⟩, s1)
    else if ch = 40 then some (⟨Lexeme.LEFT_PAREN, bytes "(", start⟩, s1)
    else if ch = 41 then some (⟨Lexeme.RIGHT_PAREN, bytes ")", start⟩, s1)
    else if ch = 91 then some (⟨Lexeme.LEFT_BRACKET, bytes "[", start⟩, s1)
    else if ch = 93 then some (⟨Lexeme.RIGHT_BRACKET, bytes "]", start⟩, s1)
    else if ch = 61 then some (⟨Lexeme.EQ, bytes "=", start⟩, s1)
    else if ch = 62 then
      if s1.currentChar = 61 then
        (advance s1).map (fun s2 => (⟨Lexeme.GREATER_EQ, bytes ">=", start⟩, s2))
      else some (⟨Lexeme.GREATER, bytes ">", start⟩, s1)
    else if ch = 60 then
      if s1.currentChar = 61 then
        (advance s1).map (fun s2 => (⟨Lexeme.LESS_EQ, bytes "<=", start⟩, s2))
      else if s1.currentChar = 62 then
        (advance s1).map (fun s2 => (⟨Lexeme.NOT_EQ, bytes "<>", start⟩, s2))
      else some (⟨Lexeme.LESS, bytes "<", start⟩, s1)
    else if ch = 58 then
      if s1.currentChar = 61 then
        (advance s1).map (fun s2 => (⟨Lexeme.ASSIGN, bytes ":=", start⟩, s2))
      else some (⟨Lexeme.COLON, bytes ":", start⟩, s1)
    else if ch = 46 then some (⟨Lexeme.DOT, bytes ".", start⟩, s1)
    else some (⟨Lexeme.BAD, [ch], start⟩, s1)

/-- The method `Lexer::nextToken` (lines 225-261), checked. -/
def nextToken : Nat → Lexer → Option (Token × Lexer)
  | 0, _ => none
  | fuel + 1, s =>
    if s.currentChar ≠ 0 then
      if isspace s.currentChar then
        match skipWhitespace fuel s with
        | none => none
        | some s1 => nextToken fuel s1
      else if isdigit s.currentChar then number fuel s
      else if isalpha s.currentChar ∨ s.currentChar = 95 then identifier fuel s
      else if s.currentChar = 39 then stringLiteral fuel s
      else if s.currentChar = 47 ∧ peek s = 47 then
        match skipLineComment fuel s with
        | none => none
        | some s1 => nextToken fuel s1
      else if s.currentChar = 123 then
        match skipBlockComment fuel s with
        | none => none
        | some (true, s1) => nextToken fuel s1
        | some (false, s1) => some (⟨Lexeme.BAD, bytes "\x7b", ⟨s1.line, s1.column⟩⟩, s1)
      else operatorOrPunctuation s
    else some (⟨Lexeme.END_OF_FILE, [], ⟨s.line, s.column⟩⟩, s)

end Checked

/-! ## Cursor arithmetic -/

theorem charAt_of_le {text : List Nat} {p : Nat} (h : text.length ≤ p) : charAt text p = 0 := by
  unfold charAt
  exact List.getD_eq_default _ _ h

theorem lt_of_charAt_ne_zero {text : List Nat} {p : Nat} (h : charAt text p ≠ 0) :
    p < text.length := by
  by_contra hlt
  exact h (charAt_of_le (Nat.le_of_not_lt hlt))

theorem take_succ_charAt {text : List Nat} {p : Nat} (h : p < text.length) :
    text.take (p + 1) = text.take p ++ [charAt text p] := by
  unfold charAt
  rw [List.take_succ, List.getD_eq_getElem _ _ h, List.getElem?_eq_getElem h]
  rfl

theorem drop_eq_charAt_cons {text : List Nat} {p : Nat} (h : p < text.length) :
    text.drop p = charAt text p :: text.drop (p + 1) := by
  unfold charAt
  rw [List.getD_eq_getElem _ _ h]
  exact List.drop_eq_getElem_cons h

theorem lineAt_succ {text : List Nat} {p : Nat} (h : p < text.length) :
    lineAt text (p + 1) = if charAt text p = 10 then lineAt text p + 1 else lineAt text p := by
  unfold lineAt
  rw [take_succ_charAt h, List.count_append]
  by_cases hc : charAt text p = 10
  · simp [hc]; omega
  · have hb : (charAt text p == 10) = false := by simpa using hc
    simp [hc, List.count_cons, hb]

theorem colAt_succ {text : List Nat} {p : Nat} (h : p < text.length) :
    colAt text (p + 1) = if charAt text p = 10 then 0 else colAt text p + 1 := by
  unfold colAt
  rw [take_succ_charAt h, List.reverse_append]
  by_cases hc : charAt text p = 10
  · simp [hc, List.takeWhile_cons]
  · simp [hc, List.takeWhile_cons]

theorem wrapInt_succ (x : Int) : wrapInt (wrapInt x + 1) = wrapInt (x + 1) := by
  unfold wrapInt
  omega

theorem wrapInt_of_range {x : Int} (h1 : -2147483648 ≤ x) (h2 : x < 2147483648) :
    wrapInt x = x := by
  unfold wrapInt
  omega

theorem wrapInt_of_lt {n : Nat} (h : n < 2147483648) : wrapInt n = n := by
  apply wrapInt_of_range <;> omega

theorem lineAt_le (text : List Nat) (p : Nat) : lineAt text p ≤ 1 + text.length := by
  unfold lineAt
  have h1 := @List.count_le_length _ _ 10 (text.take p)
  have h2 : (text.take p).length ≤ text.length := by
    rw [List.length_take]
    exact Nat.min_le_right _ _
  omega

theorem colAt_le (text : List Nat) (p : Nat) : colAt text p ≤ text.length := by
  unfold colAt
  have h1 := (List.takeWhile_prefix (fun c => c != 10) : List.IsPrefix
    ((text.take p).reverse.takeWhile (fun c => c != 10)) (text.take p).reverse).length_le
  have h2 : (text.take p).length ≤ text.length := by
    rw [List.length_take]
    exact Nat.min_le_right _ _
  rw [List.length_reverse] at h1
  omega

theorem colAt_of_no_newline {text : List Nat} {p : Nat} (hno : 10 ∉ text.take p)
    (hp : p ≤ text.length) : colAt text p = p := by
  unfold colAt
  have hall : (text.take p).reverse.takeWhile (fun c => c != 10) = (text.take p).reverse := by
    rw [List.takeWhile_eq_self_iff]
    intro x hx
    have hx2 : x ∈ text.take p := List.mem_reverse.mp hx
    have : x ≠ 10 := fun e => hno (e ▸ hx2)
    simpa using this
  rw [hall, List.length_reverse, List.length_take]
  omega

theorem wrapInt_overflow : wrapInt ((2147483648 : Nat) : Int) = -2147483648 := by
  unfold wrapInt
  omega

theorem lineAt_zero (text : List Nat) : lineAt text 0 = 1 := by simp [lineAt]

theorem colAt_zero (text : List Nat) : colAt text 0 = 0 := by simp [colAt]

theorem wrapInt_one : wrapInt 1 = 1 := wrapInt_of_range (by decide) (by decide)

theorem wrapInt_zero : wrapInt 0 = 0 := wrapInt_of_range (by decide) (by decide)

theorem init_eq_stateAt (input : List Nat) : Lexer.init input = stateAt input 0 := by
  cases input <;>
    simp [Lexer.init, stateAt, lineAt_zero, colAt_zero, charAt, wrapInt_one, wrapInt_zero]

theorem advance_stateAt {text : List Nat} {p : Nat} (h : p < text.length) :
    advance (stateAt text p) = stateAt text (p + 1) := by
  simp only [advance, stateAt, lineAt_succ h, colAt_succ h]
  have hl : (if charAt text p = 10 then wrapInt (wrapInt (lineAt text p : Int) + 1)
        else wrapInt (lineAt text p : Int))
      = wrapInt ((if charAt text p = 10 then lineAt text p + 1 else lineAt text p : Nat) : Int) := by
    by_cases hc : charAt text p = 10
    · simp only [if_pos hc, wrapInt_succ, Nat.cast_add, Nat.cast_one]
    · simp only [if_neg hc]
  have hcl : (if charAt text p = 10 then 0 else wrapInt (wrapInt (colAt text p : Int) + 1))
      = wrapInt ((if charAt text p = 10 then 0 else colAt text p + 1 : Nat) : Int) := by
    by_cases hc : charAt text p = 10
    · simp only [if_pos hc, Nat.cast_zero, wrapInt_zero]
    · simp only [if_neg hc, wrapInt_succ, Nat.cast_add, Nat.cast_one]
  rw [hl, hcl]
  by_cases hlt : p + 1 < text.length
  · simp [hlt]
  · simp [hlt, charAt_of_le (Nat.le_of_not_lt hlt)]

theorem peek_stateAt (text : List Nat) (p : Nat) : peek (stateAt text p) = charAt text (p + 1) := by
  simp only [peek, stateAt]
  by_cases hlt : p + 1 < text.length
  · simp [hlt]
  · simp [hlt, charAt_of_le (Nat.le_of_not_lt hlt)]

/-! ## Runs of characters -/

theorem scanEnd_of_le (cond : Nat → Bool) {text : List Nat} {p : Nat} (h : text.length ≤ p) :
    scanEnd cond text p = p := by
  simp [scanEnd, List.drop_eq_nil_of_le h]

theorem scanEnd_stop {cond : Nat → Bool} {text : List Nat} {p : Nat}
    (hc : cond (charAt text p) = false) (h : p < text.length) : scanEnd cond text p = p := by
  simp [scanEnd, drop_eq_charAt_cons h, List.takeWhile_cons, hc]

theorem scanEnd_step {cond : Nat → Bool} {text : List Nat} {p : Nat}
    (hc : cond (charAt text p) = true) (h : p < text.length) :
    scanEnd cond text p = scanEnd cond text (p + 1) := by
  simp [scanEnd, drop_eq_charAt_cons h, List.takeWhile_cons, hc]
  omega

theorem run_stop {cond : Nat → Bool} {text : List Nat} {p : Nat}
    (hc : cond (charAt text p) = false) : (text.drop p).takeWhile cond = [] := by
  by_cases h : p < text.length
  · simp [drop_eq_charAt_cons h, List.takeWhile_cons, hc]
  · simp [List.drop_eq_nil_of_le (Nat.le_of_not_lt h)]

theorem run_step {cond : Nat → Bool} {text : List Nat} {p : Nat}
    (hc : cond (charAt text p) = true) (h : p < text.length) :
    (text.drop p).takeWhile cond = charAt text p :: (text.drop (p + 1)).takeWhile cond := by
  simp [drop_eq_charAt_cons h, List.takeWhile_cons, hc]

theorem le_scanEnd (cond : Nat → Bool) (text : List Nat) (p : Nat) : p ≤ scanEnd cond text p := by
  simp [scanEnd]

theorem scanEnd_le (cond : Nat → Bool) {text : List Nat} {p : Nat} (h : p ≤ text.length) :
    scanEnd cond text p ≤ text.length := by
  have h1 : ((text.drop p).takeWhile cond).length ≤ (text.drop p).length :=
    (List.takeWhile_sublist cond).length_le
  simp only [List.length_drop] at h1
  unfold scanEnd
  omega

theorem run_eq_slice (cond : Nat → Bool) (text : List Nat) (p : Nat) :
    (text.drop p).takeWhile cond = slice text p (scanEnd cond text p) := by
  unfold slice scanEnd
  rw [Nat.add_sub_cancel_left]
  generalize text.drop p = l
  induction l with
  | nil => rfl
  | cons a l ih =>
    cases hc : cond a with
    | false => simp [List.takeWhile_cons, hc]
    | true => simpa [List.takeWhile_cons, hc] using ih

theorem scanEnd_not (cond : Nat → Bool) (text : List Nat) (p : Nat) :
    text.length ≤ scanEnd cond text p ∨ cond (charAt text (scanEnd cond text p)) = false := by
  generalize hn : text.length - p = n
  induction n generalizing p with
  | zero => left; have := le_scanEnd cond text p; omega
  | succ n ih =>
    have h : p < text.length := by omega
    cases hc : cond (charAt text p) with
    | false => right; rw [scanEnd_stop hc h]; exact hc
    | true => rw [scanEnd_step hc h]; exact ih (p + 1) (by omega)

theorem scanEnd_cond_false {cond : Nat → Bool} (h0 : cond 0 = false) (text : List Nat) (p : Nat) :
    cond (charAt text (scanEnd cond text p)) = false := by
  rcases scanEnd_not cond text p with h | h
  · rw [charAt_of_le h]; exact h0
  · exact h

theorem slice_self (text : List Nat) (p : Nat) : slice text p p = [] := by simp [slice]

theorem slice_succ {text : List Nat} {p : Nat} (h : p < text.length) :
    slice text p (p + 1) = [charAt text p] := by
  simp [slice, drop_eq_charAt_cons h]

theorem slice_append (text : List Nat) {p m q : Nat} (h1 : p ≤ m) (h2 : m ≤ q) :
    slice text p m ++ slice text m q = slice text p q := by
  unfold slice
  have e : q - p = (m - p) + (q - m) := by omega
  rw [e, List.take_add, List.drop_drop]
  have e2 : p + (m - p) = m := by omega
  rw [e2]

theorem length_slice {text : List Nat} {p q : Nat} (h2 : q ≤ text.length) :
    (slice text p q).length = q - p := by
  simp [slice]; omega

/-! ## The loops on a lexer at a cursor -/

theorem accumulateWhile_stateAt {cond : Nat → Bool} (h0 : cond 0 = false) (text : List Nat) :
    ∀ (fuel p : Nat) (acc : List Nat), text.length - p < fuel →
      accumulateWhile cond fuel (stateAt text p) acc
        = some (acc ++ slice text p (scanEnd cond text p), stateAt text (scanEnd cond text p)) := by
  intro fuel
  induction fuel with
  | zero => intro p acc h; omega
  | succ fuel ih =>
    intro p acc hf
    rw [← run_eq_slice]
    cases hc : cond (charAt text p) with
    | false =>
      have hrun := @run_stop _ text p hc
      have hq : scanEnd cond text p = p := by simp [scanEnd, hrun]
      simp [accumulateWhile, stateAt, hc, hrun, hq]
    | true =>
      have hlt : p < text.length := by
        apply lt_of_charAt_ne_zero
        intro hz
        rw [hz, h0] at hc
        exact Bool.noConfusion hc
      have hadv := advance_stateAt hlt
      have hcc : cond (stateAt text p).currentChar = true := hc
      rw [accumulateWhile, if_pos hcc, hadv, ih (p + 1) _ (by omega), ← run_eq_slice,
        run_step hc hlt, scanEnd_step hc hlt]
      simp [stateAt]

theorem skipWhitespace_stateAt (text : List Nat) :
    ∀ (fuel p : Nat), text.length - p < fuel →
      skipWhitespace fuel (stateAt text p) = some (stateAt text (scanEnd isspace text p)) := by
  intro fuel
  induction fuel with
  | zero => intro p h; omega
  | succ fuel ih =>
    intro p hf
    cases hc : isspace (charAt text p) with
    | false =>
      have hrun := @run_stop _ text p hc
      have hq : scanEnd isspace text p = p := by simp [scanEnd, hrun]
      simp [skipWhitespace, stateAt, hc, hq]
    | true =>
      have hlt : p < text.length := by
        apply lt_of_charAt_ne_zero
        intro hz
        rw [hz] at hc
        exact Bool.noConfusion hc
      have hcc : isspace (stateAt text p).currentChar = true := hc
      rw [skipWhitespace, if_pos hcc, advance_stateAt hlt, ih (p + 1) (by omega),
        scanEnd_step hc hlt]

theorem skipLineCommentLoop_stateAt (text : List Nat) :
    ∀ (fuel p : Nat), text.length - p < fuel →
      skipLineCommentLoop fuel (stateAt text p)
        = some (stateAt text (scanEnd notNewline text p)) := by
  intro fuel
  induction fuel with
  | zero => intro p h; omega
  | succ fuel ih =>
    intro p hf
    by_cases hlt : p < text.length
    · cases hc : notNewline (charAt text p) with
      | false =>
        have hc2 : charAt text p = 10 := by simpa [notNewline] using hc
        simp [skipLineCommentLoop, stateAt, hc2, scanEnd_stop hc hlt]
      | true =>
        have hc2 : charAt text p ≠ 10 := by simpa [notNewline] using hc
        have hcc : (stateAt text p).pos < (stateAt text p).text.length ∧
            charAt (stateAt text p).text (stateAt text p).pos ≠ 10 := ⟨hlt, hc2⟩
        rw [skipLineCommentLoop, if_pos hcc, advance_stateAt hlt, ih (p + 1) (by omega),
          scanEnd_step hc hlt]
    · have hq := scanEnd_of_le notNewline (Nat.le_of_not_lt hlt)
      simp [skipLineCommentLoop, stateAt, hlt, hq]

theorem skipLineComment_stateAt (text : List Nat) (fuel p : Nat) (hf : text.length - p < fuel) :
    skipLineComment fuel (stateAt text p)
      = some (stateAt text (min (scanEnd notNewline text p + 1) (max p text.length))) := by
  have hle := le_scanEnd notNewline text p
  rw [skipLineComment, skipLineCommentLoop_stateAt text fuel p hf]
  by_cases hlt : scanEnd notNewline text p < text.length
  · have e : min (scanEnd notNewline text p + 1) (max p text.length)
        = scanEnd notNewline text p + 1 := by omega
    have hcc : (stateAt text (scanEnd notNewline text p)).pos
        < (stateAt text (scanEnd notNewline text p)).text.length := hlt
    simp only [if_pos hcc, advance_stateAt hlt, e]
  · have hcc : ¬ (stateAt text (scanEnd notNewline text p)).pos
        < (stateAt text (scanEnd notNewline text p)).text.length := hlt
    simp only [if_neg hcc]
    by_cases hp : p ≤ text.length
    · have := scanEnd_le notNewline hp
      have e : min (scanEnd notNewline text p + 1) (max p text.length)
          = scanEnd notNewline text p := by omega
      rw [e]
    · have := scanEnd_of_le notNewline (Nat.le_of_lt (Nat.lt_of_not_le hp))
      have e : min (scanEnd notNewline text p + 1) (max p text.length)
          = scanEnd notNewline text p := by omega
      rw [e]

theorem skipBlockCommentLoop_stateAt (text : List Nat) :
    ∀ (fuel p : Nat), text.length - p < fuel →
      skipBlockCommentLoop fuel (stateAt text p)
        = if scanEnd notCloseBrace text p < text.length
          then some (true, stateAt text (scanEnd notCloseBrace text p + 1))
          else some (false, stateAt text (scanEnd notCloseBrace text p)) := by
  intro fuel
  induction fuel with
  | zero => intro p h; omega
  | succ fuel ih =>
    intro p hf
    by_cases hlt : p < text.length
    · have hcc : (stateAt text p).pos < (stateAt text p).text.length := hlt
      cases hc : notCloseBrace (charAt text p) with
      | false =>
        have hc2 : charAt (stateAt text p).text (stateAt text p).pos = 125 := by
          simpa [notCloseBrace] using hc
        rw [skipBlockCommentLoop, if_pos hcc, if_pos hc2, scanEnd_stop hc hlt, if_pos hlt,
          advance_stateAt hlt]
      | true =>
        have hc2 : ¬ charAt (stateAt text p).text (stateAt text p).pos = 125 := by
          simpa [notCloseBrace] using hc
        rw [skipBlockCommentLoop, if_pos hcc, if_neg hc2, advance_stateAt hlt,
          ih (p + 1) (by omega), scanEnd_step hc hlt]
    · have hq := scanEnd_of_le notCloseBrace (Nat.le_of_not_lt hlt)
      have hcc : ¬ (stateAt text p).pos < (stateAt text p).text.length := hlt
      rw [skipBlockCommentLoop, if_neg hcc, hq, if_neg hlt]

/-! ## The token branches on a lexer at a cursor -/

theorem slice_two {text : List Nat} {p : Nat} (h : p + 1 < text.length) :
    slice text p (p + 2) = [charAt text p, charAt text (p + 1)] := by
  rw [← slice_append text (Nat.le_succ p) (Nat.le_succ (p + 1)), slice_succ (by omega),
    slice_succ h]
  rfl

theorem number_stateAt (text : List Nat) (fuel p : Nat) (hf : text.length - p < fuel) :
    number fuel (stateAt text p)
      = if charAt text (scanEnd isdigit text p) = 46 then
          some (⟨Lexeme.FLOAT, slice text p (scanEnd isdigit text (scanEnd isdigit text p + 1)),
                 locAt text p⟩,
                stateAt text (scanEnd isdigit text (scanEnd isdigit text p + 1)))
        else
          some (⟨Lexeme.INTEGER, slice text p (scanEnd isdigit text p),
                 locAt text p⟩, stateAt text (scanEnd isdigit text p)) := by
  have hd0 : isdigit 0 = false := by decide
  have hq := le_scanEnd isdigit text p
  simp only [number]
  rw [accumulateWhile_stateAt hd0 text fuel p [] hf]
  by_cases hdot : charAt text (scanEnd isdigit text p) = 46
  · have hlt : scanEnd isdigit text p < text.length :=
      lt_of_charAt_ne_zero (by rw [hdot]; decide)
    have hcc : (stateAt text (scanEnd isdigit text p)).currentChar = 46 := hdot
    simp only [if_pos hcc, if_pos hdot, advance_stateAt hlt]
    rw [accumulateWhile_stateAt hd0 text fuel _ _ (by omega)]
    have e : ([] ++ slice text p (scanEnd isdigit text p) ++ [46])
        ++ slice text (scanEnd isdigit text p + 1)
            (scanEnd isdigit text (scanEnd isdigit text p + 1))
        = slice text p (scanEnd isdigit text (scanEnd isdigit text p + 1)) := by
      rw [← hdot, ← slice_succ hlt, List.nil_append, slice_append text hq (Nat.le_succ _),
        slice_append text (by omega) (le_scanEnd isdigit text _)]
    rw [hcc, e]
    rfl
  · have hcc : ¬ (stateAt text (scanEnd isdigit text p)).currentChar = 46 := hdot
    simp only [if_neg hcc, if_neg hdot, List.nil_append]
    rfl

theorem identifier_stateAt (text : List Nat) (fuel p : Nat) (hf : text.length - p < fuel) :
    identifier fuel (stateAt text p)
      = some (⟨(keywords.lookup (slice text p (scanEnd isIdentChar text p))).getD
                  Lexeme.IDENTIFIER,
               slice text p (scanEnd isIdentChar text p), locAt text p⟩,
              stateAt text (scanEnd isIdentChar text p)) := by
  have hd0 : isIdentChar 0 = false := by decide
  simp only [identifier]
  rw [accumulateWhile_stateAt hd0 text fuel p [] hf]
  simp only [List.nil_append]
  cases hk : List.lookup (slice text p (scanEnd isIdentChar text p)) keywords <;> rfl

theorem stringLiteral_stateAt (text : List Nat) (fuel p : Nat) (hp : p < text.length)
    (hf : text.length - p ≤ fuel) :
    stringLiteral fuel (stateAt text p)
      = if charAt text (scanEnd isStringChar text (p + 1)) = 39 then
          some (⟨Lexeme.STRING, slice text (p + 1) (scanEnd isStringChar text (p + 1)),
                 locAt text p⟩,
                stateAt text (scanEnd isStringChar text (p + 1) + 1))
        else
          some (⟨Lexeme.BAD, slice text (p + 1) (scanEnd isStringChar text (p + 1)),
                 locAt text p⟩,
                stateAt text (scanEnd isStringChar text (p + 1))) := by
  have hd0 : isStringChar 0 = false := by decide
  simp only [stringLiteral, advance_stateAt hp]
  rw [accumulateWhile_stateAt hd0 text fuel (p + 1) [] (by omega)]
  simp only [List.nil_append]
  by_cases hq : charAt text (scanEnd isStringChar text (p + 1)) = 39
  · have hlt : scanEnd isStringChar text (p + 1) < text.length :=
      lt_of_charAt_ne_zero (by rw [hq]; decide)
    have hcc : (stateAt text (scanEnd isStringChar text (p + 1))).currentChar = 39 := hq
    simp only [if_pos hcc, if_pos hq, advance_stateAt hlt]
    rfl
  · have hcc : ¬ (stateAt text (scanEnd isStringChar text (p + 1))).currentChar = 39 := hq
    simp only [if_neg hcc, if_neg hq]
    rfl


theorem operatorOrPunctuation_single (s : Lexer)
    (h1 : s.currentChar ≠ 62) (h2 : s.currentChar ≠ 60) (h3 : s.currentChar ≠ 58) :
    (operatorOrPunctuation s).2 = advance s ∧
    (operatorOrPunctuation s).1.position = ⟨s.line, s.column⟩ ∧
    (operatorOrPunctuation s).1.type ≠ Lexeme.END_OF_FILE ∧
    (operatorOrPunctuation s).1.type ≠ Lexeme.STRING ∧
    ((operatorOrPunctuation s).1.type ≠ Lexeme.BAD →
      (operatorOrPunctuation s).1.lexeme = [s.currentChar]) := by
  by_cases hm : s.currentChar ∈ [42, 43, 45, 47, 59, 44, 40, 41, 91, 93, 61, 46]
  · simp only [List.mem_cons, List.mem_singleton, List.not_mem_nil, or_false] at hm
    rcases hm with h | h | h | h | h | h | h | h | h | h | h | h <;>
      simp [operatorOrPunctuation, h, bytes]
  · simp only [List.mem_cons, List.mem_singleton, List.not_mem_nil, or_false, not_or] at hm
    simp [operatorOrPunctuation, hm, h1, h2, h3]

theorem operatorOrPunctuation_stateAt (text : List Nat) (p : Nat) (hp : p < text.length) :
    ∃ t q, operatorOrPunctuation (stateAt text p) = (t, stateAt text q) ∧ p < q ∧
      q ≤ text.length ∧ t.position = locAt text p ∧
      t.type ≠ Lexeme.END_OF_FILE ∧ t.type ≠ Lexeme.STRING ∧
      (t.type ≠ Lexeme.BAD → t.lexeme = slice text p q) := by
  have hc : (stateAt text p).currentChar = charAt text p := rfl
  have hc1 : (stateAt text (p + 1)).currentChar = charAt text (p + 1) := rfl
  have h2 : ∀ c, charAt text (p + 1) = c → c ≠ 0 →
      advance (stateAt text (p + 1)) = stateAt text (p + 2) ∧ p + 2 ≤ text.length ∧
      slice text p (p + 2) = [charAt text p, c] := by
    intro c hcc hne
    have hlt : p + 1 < text.length := lt_of_charAt_ne_zero (by rw [hcc]; exact hne)
    exact ⟨advance_stateAt hlt, hlt, by rw [slice_two hlt, hcc]⟩
  by_cases hm : charAt text p ∈ [62, 60, 58]
  · simp only [List.mem_cons, List.mem_singleton, List.not_mem_nil, or_false] at hm
    rcases hm with h | h | h
    · by_cases e : charAt text (p + 1) = 61
      · obtain ⟨ha, hb, hs⟩ := h2 61 e (by decide)
        refine ⟨⟨Lexeme.GREATER_EQ, bytes ">=", locAt text p⟩, p + 2, ?_,
          by omega, hb, rfl, by simp, by simp, ?_⟩
        · simp [operatorOrPunctuation, hc, hc1, advance_stateAt hp, h, e, ha]
          rfl
        · intro _; rw [hs, h]; rfl
      · refine ⟨⟨Lexeme.GREATER, bytes ">", locAt text p⟩, p + 1, ?_,
          by omega, hp, rfl, by simp, by simp, ?_⟩
        · simp [operatorOrPunctuation, hc, hc1, advance_stateAt hp, h, e]
          rfl
        · intro _; rw [slice_succ hp, h]; rfl
    · by_cases e : charAt text (p + 1) = 61
      · obtain ⟨ha, hb, hs⟩ := h2 61 e (by decide)
        refine ⟨⟨Lexeme.LESS_EQ, bytes "<=", locAt text p⟩, p + 2, ?_,
          by omega, hb, rfl, by simp, by simp, ?_⟩
        · simp [operatorOrPunctuation, hc, hc1, advance_stateAt hp, h, e, ha]
          rfl
        · intro _; rw [hs, h]; rfl
      · by_cases e2 : charAt text (p + 1) = 62
        · obtain ⟨ha, hb, hs⟩ := h2 62 e2 (by decide)
          refine ⟨⟨Lexeme.NOT_EQ, bytes "<>", locAt text p⟩, p + 2, ?_,
            by omega, hb, rfl, by simp, by simp, ?_⟩
          · simp [operatorOrPunctuation, hc, hc1, advance_stateAt hp, h, e2, ha]
            rfl
          · intro _; rw [hs, h]; rfl
        · refine ⟨⟨Lexeme.LESS, bytes "<", locAt text p⟩, p + 1, ?_,
            by omega, hp, rfl, by simp, by simp, ?_⟩
          · simp [operatorOrPunctuation, hc, hc1, advance_stateAt hp, h, e, e2]
            rfl
          · intro _; rw [slice_succ hp, h]; rfl
    · by_cases e : charAt text (p + 1) = 61
      · obtain ⟨ha, hb, hs⟩ := h2 61 e (by decide)
        refine ⟨⟨Lexeme.ASSIGN, bytes ":=", locAt text p⟩, p + 2, ?_,
          by omega, hb, rfl, by simp, by simp, ?_⟩
        · simp [operatorOrPunctuation, hc, hc1, advance_stateAt hp, h, e, ha]
          rfl
        · intro _; rw [hs, h]; rfl
      · refine ⟨⟨Lexeme.COLON, bytes ":", locAt text p⟩, p + 1, ?_,
          by omega, hp, rfl, by simp, by simp, ?_⟩
        · simp [operatorOrPunctuation, hc, hc1, advance_stateAt hp, h, e]
          rfl
        · intro _; rw [slice_succ hp, h]; rfl
  · simp only [List.mem_cons, List.mem_singleton, List.not_mem_nil, or_false, not_or] at hm
    obtain ⟨g1, g2, g3, g4, g5⟩ :=
      operatorOrPunctuation_single (stateAt text p) hm.1 hm.2.1 hm.2.2
    refine ⟨(operatorOrPunctuation (stateAt text p)).1, p + 1, ?_, by omega, hp, g2, g3, g4, ?_⟩
    · rw [← advance_stateAt hp, ← g1]
    · intro hb; rw [g5 hb, slice_succ hp]; rfl

/-! ## More fuel does not change a result -/

theorem accumulateWhile_succ (cond : Nat → Bool) :
    ∀ (fuel : Nat) (s : Lexer) (acc : List Nat) (r : List Nat × Lexer),
      accumulateWhile cond fuel s acc = some r →
      accumulateWhile cond (fuel + 1) s acc = some r := by
  intro fuel
  induction fuel with
  | zero => intro s acc r h; simp [accumulateWhile] at h
  | succ n ih =>
    intro s acc r h
    rw [accumulateWhile] at h
    rw [accumulateWhile]
    split_ifs at h ⊢ with hc
    · exact ih _ _ _ h
    · exact h

theorem skipWhitespace_succ :
    ∀ (fuel : Nat) (s r : Lexer),
      skipWhitespace fuel s = some r → skipWhitespace (fuel + 1) s = some r := by
  intro fuel
  induction fuel with
  | zero => intro s r h; simp [skipWhitespace] at h
  | succ n ih =>
    intro s r h
    rw [skipWhitespace] at h
    rw [skipWhitespace]
    split_ifs at h ⊢ with hc
    · exact ih _ _ h
    · exact h

theorem skipLineCommentLoop_succ :
    ∀ (fuel : Nat) (s r : Lexer),
      skipLineCommentLoop fuel s = some r → skipLineCommentLoop (fuel + 1) s = some r := by
  intro fuel
  induction fuel with
  | zero => intro s r h; simp [skipLineCommentLoop] at h
  | succ n ih =>
    intro s r h
    rw [skipLineCommentLoop] at h
    rw [skipLineCommentLoop]
    split_ifs at h ⊢ with hc
    · exact ih _ _ h
    · exact h

theorem skipLineComment_succ (fuel : Nat) (s r : Lexer)
    (h : skipLineComment fuel s = some r) : skipLineComment (fuel + 1) s = some r := by
  unfold skipLineComment at h ⊢
  cases hl : skipLineCommentLoop fuel s with
  | none => simp [hl] at h
  | some s1 =>
    rw [skipLineCommentLoop_succ fuel s s1 hl]
    rw [hl] at h
    exact h

theorem skipBlockCommentLoop_succ :
    ∀ (fuel : Nat) (s : Lexer) (r : Bool × Lexer),
      skipBlockCommentLoop fuel s = some r → skipBlockCommentLoop (fuel + 1) s = some r := by
  intro fuel
  induction fuel with
  | zero => intro s r h; simp [skipBlockCommentLoop] at h
  | succ n ih =>
    intro s r h
    rw [skipBlockCommentLoop] at h
    rw [skipBlockCommentLoop]
    split_ifs at h ⊢ with hc hc2
    · exact h
    · exact ih _ _ h
    · exact h

theorem skipBlockComment_succ (fuel : Nat) (s : Lexer) (r : Bool × Lexer)
    (h : skipBlockComment fuel s = some r) : skipBlockComment (fuel + 1) s = some r :=
  skipBlockCommentLoop_succ fuel (advance s) r h

theorem number_succ (fuel : Nat) (s : Lexer) (r : Token × Lexer)
    (h : number fuel s = some r) : number (fuel + 1) s = some r := by
  simp only [number] at h ⊢
  cases h1 : accumulateWhile isdigit fuel s [] with
  | none => simp [h1] at h
  | some r1 =>
    obtain ⟨result, s1⟩ := r1
    rw [accumulateWhile_succ isdigit fuel s [] _ h1]
    rw [h1] at h
    simp only at h ⊢
    split_ifs at h ⊢ with hc
    · cases h2 : accumulateWhile isdigit fuel (advance s1) (result ++ [s1.currentChar]) with
      | none => simp [h2] at h
      | some r2 =>
        rw [accumulateWhile_succ isdigit fuel _ _ _ h2]
        rw [h2] at h
        exact h
    · exact h

theorem identifier_succ (fuel : Nat) (s : Lexer) (r : Token × Lexer)
    (h : identifier fuel s = some r) : identifier (fuel + 1) s = some r := by
  simp only [identifier] at h ⊢
  cases h1 : accumulateWhile isIdentChar fuel s [] with
  | none => simp [h1] at h
  | some r1 =>
    rw [accumulateWhile_succ isIdentChar fuel s [] _ h1]
    rw [h1] at h
    exact h

theorem stringLiteral_succ (fuel : Nat) (s : Lexer) (r : Token × Lexer)
    (h : stringLiteral fuel s = some r) : stringLiteral (fuel + 1) s = some r := by
  simp only [stringLiteral] at h ⊢
  cases h1 : accumulateWhile isStringChar fuel (advance s) [] with
  | none => simp [h1] at h
  | some r1 =>
    rw [accumulateWhile_succ isStringChar fuel _ [] _ h1]
    rw [h1] at h
    exact h

theorem nextToken_succ :
    ∀ (fuel : Nat) (s : Lexer) (r : Token × Lexer),
      nextToken fuel s = some r → nextToken (fuel + 1) s = some r := by
  intro fuel
  induction fuel with
  | zero => intro s r h; simp [nextToken] at h
  | succ n ih =>
    intro s r h
    rw [nextToken] at h
    rw [nextToken]
    split_ifs at h ⊢ with c0 c1 c2 c3 c4 c5 c6
    · cases h1 : skipWhitespace n s with
      | none => simp [h1] at h
      | some s1 =>
        rw [skipWhitespace_succ n s s1 h1]
        rw [h1] at h
        exact ih _ _ h
    · exact number_succ _ _ _ h
    · exact identifier_succ _ _ _ h
    · exact stringLiteral_succ _ _ _ h
    · cases h1 : skipLineComment n s with
      | none => simp [h1] at h
      | some s1 =>
        rw [skipLineComment_succ n s s1 h1]
        rw [h1] at h
        exact ih _ _ h
    · cases h1 : skipBlockComment n s with
      | none => simp [h1] at h
      | some r1 =>
        obtain ⟨b, s1⟩ := r1
        rw [skipBlockComment_succ n s _ h1]
        rw [h1] at h
        cases b with
        | true => exact ih _ _ h
        | false => exact h
    · exact h
    · exact h

theorem nextToken_mono {fuel fuel2 : Nat} {s : Lexer} {r : Token × Lexer}
    (hle : fuel ≤ fuel2) (h : nextToken fuel s = some r) : nextToken fuel2 s = some r := by
  induction hle with
  | refl => exact h
  | step _ ih => exact nextToken_succ _ _ _ ih

/-! ## `nextToken` at a cursor where a token begins -/

theorem lookup_mem_values {α β : Type} [BEq α] (l : List (α × β)) (a : α) (b : β)
    (h : l.lookup a = some b) : b ∈ l.map Prod.snd := by
  induction l with
  | nil => simp [List.lookup] at h
  | cons x l ih =>
    obtain ⟨k, v⟩ := x
    rw [List.lookup] at h
    cases hk : (a == k) with
    | true =>
      rw [hk] at h
      simp only [Option.some.injEq] at h
      simp [h]
    | false =>
      rw [hk] at h
      simp [ih h]

theorem keyword_kind (w : List Nat) :
    (keywords.lookup w).getD Lexeme.IDENTIFIER ≠ Lexeme.END_OF_FILE ∧
    (keywords.lookup w).getD Lexeme.IDENTIFIER ≠ Lexeme.STRING ∧
    (keywords.lookup w).getD Lexeme.IDENTIFIER ≠ Lexeme.BAD := by
  cases h : keywords.lookup w with
  | none => simp
  | some k =>
    have hm := lookup_mem_values keywords w k h
    have hall : ∀ k ∈ keywords.map Prod.snd,
        k ≠ Lexeme.END_OF_FILE ∧ k ≠ Lexeme.STRING ∧ k ≠ Lexeme.BAD := by decide
    exact hall k hm

theorem nextToken_eof (text : List Nat) (p fuel : Nat) (h0 : charAt text p = 0) :
    nextToken (fuel + 1) (stateAt text p)
      = some (⟨Lexeme.END_OF_FILE, [], locAt text p⟩, stateAt text p) := by
  have hc : ¬ (stateAt text p).currentChar ≠ 0 := fun h => h h0
  rw [nextToken, if_neg hc]
  rfl

theorem nextToken_tokenStart (text : List Nat) (p fuel : Nat)
    (hs : atTokenStart (stateAt text p)) (h0 : charAt text p ≠ 0) :
    nextToken (fuel + 1) (stateAt text p)
      = if isdigit (charAt text p) then number fuel (stateAt text p)
        else if isalpha (charAt text p) ∨ charAt text p = 95 then
          identifier fuel (stateAt text p)
        else if charAt text p = 39 then stringLiteral fuel (stateAt text p)
        else some (operatorOrPunctuation (stateAt text p)) := by
  obtain ⟨h1, h2, h3⟩ := hs
  have hc : (stateAt text p).currentChar = charAt text p := rfl
  rw [nextToken]
  rw [hc] at h1 h2 h3
  simp only [hc, h0, h1, h2, h3, ne_eq, not_false_eq_true, if_true, if_false,
    Bool.false_eq_true]

theorem lt_scanEnd {cond : Nat → Bool} {text : List Nat} {p : Nat}
    (hc : cond (charAt text p) = true) (h : p < text.length) : p < scanEnd cond text p := by
  rw [scanEnd_step hc h]
  exact le_scanEnd cond text (p + 1)

theorem scanned_tokenStart (text : List Nat) (p : Nat) (hp : p ≤ text.length)
    (hs : atTokenStart (stateAt text p)) :
    ∃ t q, Scanned text p t q ∧ t.position = locAt text p ∧
      (t.type = Lexeme.END_OF_FILE → q = p ∧ charAt text p = 0 ∧ t.lexeme = []) ∧
      (t.type ≠ Lexeme.END_OF_FILE → p < q ∧ charAt text p ≠ 0) ∧
      (t.type ≠ Lexeme.BAD → t.type ≠ Lexeme.END_OF_FILE → t.type ≠ Lexeme.STRING →
        t.lexeme = slice text p q) ∧
      (t.type = Lexeme.STRING → charAt text p = 39 ∧ p + 2 ≤ q ∧ charAt text (q - 1) = 39 ∧
        t.lexeme = slice text (p + 1) (q - 1)) := by
  by_cases h0 : charAt text p = 0
  · refine ⟨⟨Lexeme.END_OF_FILE, [], locAt text p⟩, p, ⟨le_refl p, hp, ?_⟩, rfl,
      fun _ => ⟨rfl, h0, rfl⟩, fun h => absurd rfl h, fun _ h => absurd rfl h, ?_⟩
    · intro fuel hf
      obtain ⟨f, rfl⟩ : ∃ f, fuel = f + 1 := ⟨fuel - 1, by omega⟩
      exact nextToken_eof text p f h0
    · intro h; exact Lexeme.noConfusion h
  have hlt : p < text.length := lt_of_charAt_ne_zero h0
  by_cases hd : isdigit (charAt text p) = true
  · have hq := lt_scanEnd hd hlt
    have hq2 := scanEnd_le isdigit hp
    by_cases hdot : charAt text (scanEnd isdigit text p) = 46
    · have hlt2 : scanEnd isdigit text p < text.length :=
        lt_of_charAt_ne_zero (by rw [hdot]; decide)
      have hq3 := le_scanEnd isdigit text (scanEnd isdigit text p + 1)
      have hq4 := scanEnd_le isdigit (Nat.succ_le_of_lt hlt2)
      refine ⟨⟨Lexeme.FLOAT, slice text p (scanEnd isdigit text (scanEnd isdigit text p + 1)),
        locAt text p⟩, scanEnd isdigit text (scanEnd isdigit text p + 1),
        ⟨by omega, hq4, ?_⟩, rfl, fun h => Lexeme.noConfusion h, fun _ => ⟨by omega, h0⟩,
        fun _ _ _ => rfl, fun h => Lexeme.noConfusion h⟩
      intro fuel hf
      obtain ⟨f, rfl⟩ : ∃ f, fuel = f + 1 := ⟨fuel - 1, by omega⟩
      rw [nextToken_tokenStart text p f hs h0, if_pos hd, number_stateAt text f p (by omega),
        if_pos hdot]
    · refine ⟨⟨Lexeme.INTEGER, slice text p (scanEnd isdigit text p), locAt text p⟩,
        scanEnd isdigit text p, ⟨by omega, hq2, ?_⟩, rfl, fun h => Lexeme.noConfusion h,
        fun _ => ⟨hq, h0⟩, fun _ _ _ => rfl, fun h => Lexeme.noConfusion h⟩
      intro fuel hf
      obtain ⟨f, rfl⟩ : ∃ f, fuel = f + 1 := ⟨fuel - 1, by omega⟩
      rw [nextToken_tokenStart text p f hs h0, if_pos hd, number_stateAt text f p (by omega),
        if_neg hdot]
  by_cases ha : isalpha (charAt text p) = true ∨ charAt text p = 95
  · have hic : isIdentChar (charAt text p) = true := by
      rcases ha with ha | ha
      · simp [isIdentChar, isalnum, ha]
      · simp [isIdentChar, ha]
    have hq := lt_scanEnd hic hlt
    have hq2 := scanEnd_le isIdentChar hp
    obtain ⟨k1, k2, k3⟩ := keyword_kind (slice text p (scanEnd isIdentChar text p))
    refine ⟨⟨(keywords.lookup (slice text p (scanEnd isIdentChar text p))).getD
        Lexeme.IDENTIFIER, slice text p (scanEnd isIdentChar text p), locAt text p⟩,
        scanEnd isIdentChar text p, ⟨by omega, hq2, ?_⟩, rfl, fun h => absurd h k1,
        fun _ => ⟨hq, h0⟩, fun _ _ _ => rfl, fun h => absurd h k2⟩
    intro fuel hf
    obtain ⟨f, rfl⟩ : ∃ f, fuel = f + 1 := ⟨fuel - 1, by omega⟩
    rw [nextToken_tokenStart text p f hs h0, if_neg hd, if_pos ha,
      identifier_stateAt text f p (by omega)]
  by_cases hquote : charAt text p = 39
  · have hq := le_scanEnd isStringChar text (p + 1)
    have hq2 := scanEnd_le isStringChar (Nat.succ_le_of_lt hlt)
    by_cases hclose : charAt text (scanEnd isStringChar text (p + 1)) = 39
    · have hlt2 : scanEnd isStringChar text (p + 1) < text.length :=
        lt_of_charAt_ne_zero (by rw [hclose]; decide)
      refine ⟨⟨Lexeme.STRING, slice text (p + 1) (scanEnd isStringChar text (p + 1)),
        locAt text p⟩, scanEnd isStringChar text (p + 1) + 1,
        ⟨by omega, hlt2, ?_⟩, rfl, fun h => Lexeme.noConfusion h, fun _ => ⟨by omega, h0⟩,
        fun _ _ h => absurd rfl h, fun _ => ⟨hquote, by omega, ?_, ?_⟩⟩
      · intro fuel hf
        obtain ⟨f, rfl⟩ : ∃ f, fuel = f + 1 := ⟨fuel - 1, by omega⟩
        rw [nextToken_tokenStart text p f hs h0, if_neg hd, if_neg ha, if_pos hquote,
          stringLiteral_stateAt text f p hlt (by omega), if_pos hclose]
      · rw [Nat.add_sub_cancel]; exact hclose
      · rw [Nat.add_sub_cancel]
    · refine ⟨⟨Lexeme.BAD, slice text (p + 1) (scanEnd isStringChar text (p + 1)),
        locAt text p⟩, scanEnd isStringChar text (p + 1),
        ⟨by omega, hq2, ?_⟩, rfl, fun h => Lexeme.noConfusion h, fun _ => ⟨by omega, h0⟩,
        fun h => absurd rfl h, fun h => Lexeme.noConfusion h⟩
      intro fuel hf
      obtain ⟨f, rfl⟩ : ∃ f, fuel = f + 1 := ⟨fuel - 1, by omega⟩
      rw [nextToken_tokenStart text p f hs h0, if_neg hd, if_neg ha, if_pos hquote,
        stringLiteral_stateAt text f p hlt (by omega), if_neg hclose]
  · obtain ⟨t, q, he, hpq, hql, hpos, hne, hns, hlex⟩ := operatorOrPunctuation_stateAt text p hlt
    refine ⟨t, q, ⟨by omega, hql, ?_⟩, hpos, fun h => absurd h hne, fun _ => ⟨hpq, h0⟩,
      fun h _ _ => hlex h, fun h => absurd h hns⟩
    intro fuel hf
    obtain ⟨f, rfl⟩ : ∃ f, fuel = f + 1 := ⟨fuel - 1, by omega⟩
    rw [nextToken_tokenStart text p f hs h0, if_neg hd, if_neg ha, if_neg hquote, he]

/-! ## `nextToken` over whitespace and comments -/

theorem nextToken_space (text : List Nat) (p f : Nat) (hc : isspace (charAt text p) = true)
    (hf : text.length - p < f) :
    nextToken (f + 1) (stateAt text p) = nextToken f (stateAt text (scanEnd isspace text p)) := by
  have h0 : (stateAt text p).currentChar ≠ 0 := by
    intro h
    have hcc : (stateAt text p).currentChar = charAt text p := rfl
    rw [← hcc, h] at hc
    exact Bool.noConfusion hc
  have hcc : isspace (stateAt text p).currentChar = true := hc
  rw [nextToken, if_pos h0, if_pos hcc, skipWhitespace_stateAt text f p hf]

theorem nextToken_lineComment (text : List Nat) (p f : Nat) (hc : charAt text p = 47)
    (hc1 : charAt text (p + 1) = 47) (hf : text.length - p < f) :
    nextToken (f + 1) (stateAt text p)
      = nextToken f (stateAt text (min (scanEnd notNewline text p + 1) (max p text.length))) := by
  have hcc : (stateAt text p).currentChar = 47 := hc
  have hpk : peek (stateAt text p) = 47 := by rw [peek_stateAt]; exact hc1
  rw [nextToken]
  simp only [hcc, hpk, isspace, isdigit, isalpha]
  simp only [skipLineComment_stateAt text f p hf]
  simp

theorem nextToken_brace (text : List Nat) (p f : Nat) (hc : charAt text p = 123) :
    nextToken (f + 1) (stateAt text p)
      = match skipBlockComment f (stateAt text p) with
        | none => none
        | some (true, s1) => nextToken f s1
        | some (false, s1) => some (⟨Lexeme.BAD, bytes "\x7b", ⟨s1.line, s1.column⟩⟩, s1) := by
  have hcc : (stateAt text p).currentChar = 123 := hc
  rw [nextToken]
  simp only [hcc, isspace, isdigit, isalpha]
  simp

theorem skipBlockComment_stateAt (text : List Nat) (p f : Nat) (hp : p < text.length)
    (hf : text.length - p ≤ f) :
    skipBlockComment f (stateAt text p)
      = if scanEnd notCloseBrace text (p + 1) < text.length
        then some (true, stateAt text (scanEnd notCloseBrace text (p + 1) + 1))
        else some (false, stateAt text (scanEnd notCloseBrace text (p + 1))) := by
  rw [skipBlockComment, advance_stateAt hp, skipBlockCommentLoop_stateAt text f (p + 1) (by omega)]

theorem scanned_unterminated (text : List Nat) (p : Nat) (hu : unterminatedAt text p) :
    Scanned text p ⟨Lexeme.BAD, bytes "\x7b", locAt text text.length⟩ text.length := by
  obtain ⟨hc, hq⟩ := hu
  have hlt : p < text.length := lt_of_charAt_ne_zero (by rw [hc]; decide)
  have hq2 := scanEnd_le notCloseBrace (Nat.succ_le_of_lt hlt)
  have hq3 : scanEnd notCloseBrace text (p + 1) = text.length := Nat.le_antisymm hq2 hq
  refine ⟨Nat.le_of_lt hlt, le_refl _, ?_⟩
  intro fuel hf
  obtain ⟨f, rfl⟩ : ∃ f, fuel = f + 1 := ⟨fuel - 1, by omega⟩
  rw [nextToken_brace text p f hc, skipBlockComment_stateAt text p f hlt (by omega), hq3,
    if_neg (Nat.lt_irrefl _)]
  rfl

theorem scanned_of_step {text : List Nat} {p p1 q : Nat} {t : Token} (h1 : p < p1)
    (hstep : ∀ f, text.length - p < f →
      nextToken (f + 1) (stateAt text p) = nextToken f (stateAt text p1))
    (h : Scanned text p1 t q) : Scanned text p t q := by
  obtain ⟨ha, hb, hc⟩ := h
  refine ⟨by omega, hb, ?_⟩
  intro fuel hf
  obtain ⟨f, rfl⟩ : ∃ f, fuel = f + 1 := ⟨fuel - 1, by omega⟩
  rw [hstep f (by omega)]
  exact hc f (by omega)

theorem skipsTo_exists (text : List Nat) :
    ∀ (n p : Nat), text.length - p = n → p ≤ text.length →
      ∃ p0, SkipsTo text p p0 ∧ p ≤ p0 ∧ p0 ≤ text.length ∧
        ∀ t q, Scanned text p0 t q → Scanned text p t q := by
  intro n
  induction n using Nat.strong_induction_on with
  | _ n ih =>
    intro p hn hp
    have hcc : (stateAt text p).currentChar = charAt text p := rfl
    by_cases hsp : isspace (charAt text p) = true
    · have hlt : p < text.length := by
        apply lt_of_charAt_ne_zero
        intro hz
        rw [hz] at hsp
        exact Bool.noConfusion hsp
      have h1 := lt_scanEnd hsp hlt
      have h2 := scanEnd_le isspace hp
      obtain ⟨p0, hk, ha, hb, hs⟩ :=
        ih (text.length - scanEnd isspace text p) (by omega) (scanEnd isspace text p) rfl h2
      exact ⟨p0, SkipsTo.space p p0 hsp hk, by omega, hb, fun t q h =>
        scanned_of_step h1 (fun f hf => nextToken_space text p f hsp hf) (hs t q h)⟩
    by_cases hlc : charAt text p = 47 ∧ charAt text (p + 1) = 47
    · have hlt : p < text.length := lt_of_charAt_ne_zero (by rw [hlc.1]; decide)
      have hnn : notNewline (charAt text p) = true := by rw [hlc.1]; decide
      have h1 := lt_scanEnd hnn hlt
      have hmax : max p text.length = text.length := Nat.max_eq_right hp
      have h2 : p < min (scanEnd notNewline text p + 1) text.length := by omega
      have h3 : min (scanEnd notNewline text p + 1) text.length ≤ text.length := by
        omega
      obtain ⟨p0, hk, ha, hb, hs⟩ :=
        ih (text.length - min (scanEnd notNewline text p + 1) text.length) (by omega)
          _ rfl h3
      exact ⟨p0, SkipsTo.lineComment p p0 hlc.1 hlc.2 hk, by omega, hb, fun t q h =>
        scanned_of_step h2
          (fun f hf => by rw [nextToken_lineComment text p f hlc.1 hlc.2 hf, hmax])
          (hs t q h)⟩
    by_cases hbr : charAt text p = 123
    · have hlt : p < text.length := lt_of_charAt_ne_zero (by rw [hbr]; decide)
      by_cases hcl : scanEnd notCloseBrace text (p + 1) < text.length
      · have h1 := le_scanEnd notCloseBrace text (p + 1)
        obtain ⟨p0, hk, ha, hb, hs⟩ :=
          ih (text.length - (scanEnd notCloseBrace text (p + 1) + 1)) (by omega)
            (scanEnd notCloseBrace text (p + 1) + 1) rfl hcl
        refine ⟨p0, SkipsTo.blockComment p p0 hbr hcl hk, by omega, hb, fun t q h =>
          @scanned_of_step text p (scanEnd notCloseBrace text (p + 1) + 1) q t (by omega) ?_
            (hs t q h)⟩
        intro f hf
        rw [nextToken_brace text p f hbr, skipBlockComment_stateAt text p f hlt (by omega),
          if_pos hcl]
      · exact ⟨p, SkipsTo.here p (Or.inr ⟨hbr, Nat.le_of_not_lt hcl⟩), le_refl p, hp,
          fun t q h => h⟩
    · refine ⟨p, SkipsTo.here p (Or.inl ⟨?_, ?_, ?_⟩), le_refl p, hp, fun t q h => h⟩
      · rw [hcc]; simpa using hsp
      · rw [hcc, peek_stateAt]; exact hlc
      · rw [hcc]; exact hbr

theorem skipsTo_end {text : List Nat} {p p0 : Nat} (h : SkipsTo text p p0) :
    atTokenStart (stateAt text p0) ∨ unterminatedAt text p0 := by
  induction h with
  | here p hd => exact hd
  | space _ _ _ _ ih => exact ih
  | lineComment _ _ _ _ _ ih => exact ih
  | blockComment _ _ _ _ _ ih => exact ih

theorem skip_exists (text : List Nat) :
    ∀ (n p : Nat), text.length - p = n → p ≤ text.length →
      ∃ p0, p ≤ p0 ∧ p0 ≤ text.length ∧
        (atTokenStart (stateAt text p0) ∨ unterminatedAt text p0) ∧
        ∀ t q, Scanned text p0 t q → Scanned text p t q := by
  intro n p hn hp
  obtain ⟨p0, hk, ha, hb, hs⟩ := skipsTo_exists text n p hn hp
  exact ⟨p0, ha, hb, skipsTo_end hk, hs⟩

theorem no_skip_of_end {text : List Nat} {p : Nat}
    (hd : atTokenStart (stateAt text p) ∨ unterminatedAt text p) :
    isspace (charAt text p) = false ∧ ¬ (charAt text p = 47 ∧ charAt text (p + 1) = 47) ∧
      ¬ (charAt text p = 123 ∧ scanEnd notCloseBrace text (p + 1) < text.length) := by
  have hcc : (stateAt text p).currentChar = charAt text p := rfl
  rcases hd with ⟨h1, h2, h3⟩ | ⟨h1, h2⟩
  · rw [hcc] at h1 h3
    rw [hcc, peek_stateAt] at h2
    exact ⟨h1, h2, fun h => h3 h.1⟩
  · refine ⟨by rw [h1]; decide, fun h => ?_, fun h => ?_⟩
    · rw [h1] at h
      exact absurd h.1 (by decide)
    · omega

theorem skipsTo_unique {text : List Nat} {p a b : Nat} (h1 : SkipsTo text p a)
    (h2 : SkipsTo text p b) : a = b := by
  induction h1 generalizing b with
  | here p hd =>
    obtain ⟨n1, n2, n3⟩ := no_skip_of_end hd
    cases h2 with
    | here _ _ => rfl
    | space _ _ hsp _ => rw [n1] at hsp; exact Bool.noConfusion hsp
    | lineComment _ _ hc1 hc2 _ => exact absurd ⟨hc1, hc2⟩ n2
    | blockComment _ _ hc1 hc2 _ => exact absurd ⟨hc1, hc2⟩ n3
  | space p p0 hsp _ ih =>
    cases h2 with
    | here _ hd => rw [(no_skip_of_end hd).1] at hsp; exact Bool.noConfusion hsp
    | space _ _ _ hk => exact ih hk
    | lineComment _ _ hc1 _ _ => rw [hc1] at hsp; exact absurd hsp (by decide)
    | blockComment _ _ hc1 _ _ => rw [hc1] at hsp; exact absurd hsp (by decide)
  | lineComment p p0 hc1 hc2 _ ih =>
    cases h2 with
    | here _ hd => exact absurd ⟨hc1, hc2⟩ (no_skip_of_end hd).2.1
    | space _ _ hsp _ => rw [hc1] at hsp; exact absurd hsp (by decide)
    | lineComment _ _ _ _ hk => exact ih hk
    | blockComment _ _ hb _ _ => rw [hc1] at hb; exact absurd hb (by decide)
  | blockComment p p0 hc1 hc2 _ ih =>
    cases h2 with
    | here _ hd => exact absurd ⟨hc1, hc2⟩ (no_skip_of_end hd).2.2
    | space _ _ hsp _ => rw [hc1] at hsp; exact absurd hsp (by decide)
    | lineComment _ _ hb _ _ => rw [hc1] at hb; exact absurd hb (by decide)
    | blockComment _ _ _ _ hk => exact ih hk

/-! ## Every call of `nextToken` at a cursor -/

theorem stateAt_pos_inj {text : List Nat} {p q : Nat} (h : stateAt text p = stateAt text q) :
    p = q := congrArg Lexer.pos h

theorem scanned_unique {text : List Nat} {p q1 q2 : Nat} {t1 t2 : Token}
    (h1 : Scanned text p t1 q1) (h2 : Scanned text p t2 q2) : t1 = t2 ∧ q1 = q2 := by
  have e1 := h1.2.2 (text.length - p + 2) (le_refl _)
  have e2 := h2.2.2 (text.length - p + 2) (le_refl _)
  rw [e1] at e2
  simp only [Option.some.injEq, Prod.mk.injEq] at e2
  exact ⟨e2.1, stateAt_pos_inj e2.2⟩

theorem scanned_total (text : List Nat) (p : Nat) (hp : p ≤ text.length) :
    ∃ t q p0, Scanned text p t q ∧ p ≤ p0 ∧ p0 ≤ q ∧ Scanned text p0 t q ∧
      (t.type ≠ Lexeme.END_OF_FILE → p0 < q) ∧
      (t.type = Lexeme.END_OF_FILE →
        charAt text q = 0 ∧ t = ⟨Lexeme.END_OF_FILE, [], locAt text q⟩) ∧
      ((atTokenStart (stateAt text p0) ∧ t.position = locAt text p0 ∧
          (t.type = Lexeme.END_OF_FILE → q = p0) ∧
          (t.type ≠ Lexeme.END_OF_FILE → charAt text p0 ≠ 0) ∧
          (t.type ≠ Lexeme.BAD → t.type ≠ Lexeme.END_OF_FILE → t.type ≠ Lexeme.STRING →
            t.lexeme = slice text p0 q) ∧
          (t.type = Lexeme.STRING → charAt text p0 = 39 ∧ p0 + 2 ≤ q ∧
            charAt text (q - 1) = 39 ∧ t.lexeme = slice text (p0 + 1) (q - 1))) ∨
        (unterminatedAt text p0 ∧ q = text.length ∧
          t = ⟨Lexeme.BAD, bytes "\x7b", locAt text text.length⟩)) := by
  obtain ⟨p0, ha, hb, hd, hs⟩ := skip_exists text (text.length - p) p rfl hp
  rcases hd with hd | hd
  · obtain ⟨t, q, hsc, hpos, he, hne, hlex, hstr⟩ := scanned_tokenStart text p0 hb hd
    refine ⟨t, q, p0, hs t q hsc, ha, hsc.1, hsc, fun h => (hne h).1, ?_,
      Or.inl ⟨hd, hpos, fun h => (he h).1, fun h => (hne h).2, hlex, hstr⟩⟩
    intro h
    obtain ⟨e1, e2, e3⟩ := he h
    refine ⟨by rw [e1]; exact e2, ?_⟩
    cases t with
    | mk ty lx ps =>
      simp only at h e3 hpos
      rw [h, e3, hpos, e1]
  · have hsc := scanned_unterminated text p0 hd
    have hlt : p0 < text.length := lt_of_charAt_ne_zero (by rw [hd.1]; decide)
    exact ⟨_, text.length, p0, hs _ _ hsc, ha, hb, hsc, fun _ => hlt,
      fun h => Lexeme.noConfusion h, Or.inr ⟨hd, rfl, rfl⟩⟩

theorem nextToken_result {text : List Nat} {p fuel : Nat} {t : Token} {s1 : Lexer}
    (hp : p ≤ text.length) (h : nextToken fuel (stateAt text p) = some (t, s1)) :
    ∃ q, Scanned text p t q ∧ s1 = stateAt text q := by
  obtain ⟨t2, q, _, hsc, _⟩ := scanned_total text p hp
  have e1 := hsc.2.2 (max fuel (text.length - p + 2)) (le_max_right _ _)
  have e2 := nextToken_mono (le_max_left fuel (text.length - p + 2)) h
  rw [e1] at e2
  simp only [Option.some.injEq, Prod.mk.injEq] at e2
  refine ⟨q, ?_, e2.2.symm⟩
  rw [← e2.1]
  exact hsc

theorem reachable_stateAt {input : List Nat} {s : Lexer} (h : Reachable input s) :
    ∃ p, p ≤ input.length ∧ s = stateAt input p := by
  induction h with
  | init => exact ⟨0, Nat.zero_le _, init_eq_stateAt input⟩
  | next fuel s s1 t _ hn ih =>
    obtain ⟨p, hp, rfl⟩ := ih
    obtain ⟨q, hsc, rfl⟩ := nextToken_result hp hn
    exact ⟨q, hsc.2.1, rfl⟩

/-! ## The loop of `tokenize` -/

theorem tokenizeLoop_run (text : List Nat) :
    ∀ (n p : Nat), text.length - p = n → p ≤ text.length →
      ∃ ts, Run text p ts ∧ ts.length ≤ text.length - p + 1 ∧
        ∀ fuel acc, text.length - p + 3 ≤ fuel →
          tokenizeLoop fuel (stateAt text p) acc = some (acc ++ ts) := by
  intro n
  induction n using Nat.strong_induction_on with
  | _ n ih =>
    intro p hn hp
    obtain ⟨t, q, p0, hsc, h1, h2, _, hlt, _⟩ := scanned_total text p hp
    by_cases hty : t.type = Lexeme.END_OF_FILE
    · refine ⟨[t], Run.last p q t hsc hty, by simp, ?_⟩
      intro fuel acc hf
      obtain ⟨f, rfl⟩ : ∃ f, fuel = f + 1 := ⟨fuel - 1, by omega⟩
      rw [tokenizeLoop, hsc.2.2 f (by omega)]
      simp [hty]
    · have hpq : p < q := Nat.lt_of_le_of_lt h1 (hlt hty)
      have hql : q ≤ text.length := hsc.2.1
      obtain ⟨ts, hrun, hlen, hloop⟩ := ih (text.length - q) (by omega) q rfl hql
      refine ⟨t :: ts, Run.more p q t ts hsc hty hrun, by simp; omega, ?_⟩
      intro fuel acc hf
      obtain ⟨f, rfl⟩ : ∃ f, fuel = f + 1 := ⟨fuel - 1, by omega⟩
      rw [tokenizeLoop, hsc.2.2 f (by omega)]
      simp only [hty, ne_eq, not_false_eq_true, if_true]
      rw [hloop f _ (by omega)]
      simp

theorem tokenize_run (input : List Nat) :
    ∃ ts, Run input 0 ts ∧ ts.length ≤ input.length + 1 ∧
      ∀ k, tokenize (input.length + 3 + k) input = some ts := by
  obtain ⟨ts, hrun, hlen, hloop⟩ := tokenizeLoop_run input input.length 0 rfl (Nat.zero_le _)
  refine ⟨ts, hrun, hlen, ?_⟩
  intro k
  rw [tokenize, init_eq_stateAt, hloop _ [] (by omega)]
  rfl

theorem run_shape {text : List Nat} {p : Nat} {ts : List Token} (h : Run text p ts) :
    ts ≠ [] ∧ (∃ t, ts.getLast? = some t ∧ t.type = Lexeme.END_OF_FILE) ∧
      ∀ t ∈ ts.dropLast, t.type ≠ Lexeme.END_OF_FILE := by
  induction h with
  | last p q t _ hty => exact ⟨by simp, ⟨t, rfl, hty⟩, by simp⟩
  | more p q t ts _ hty hrun ih =>
    obtain ⟨hne, ⟨u, hu, hut⟩, hall⟩ := ih
    refine ⟨by simp, ⟨u, ?_, hut⟩, ?_⟩
    · cases ts with
      | nil => exact absurd rfl hne
      | cons a l => rw [List.getLast?_cons_cons]; exact hu
    · intro x hx
      rw [List.dropLast_cons_of_ne_nil hne] at hx
      rcases List.mem_cons.mp hx with rfl | hx
      · exact hty
      · exact hall x hx

theorem run_mem {text : List Nat} {p : Nat} {ts : List Token} (h : Run text p ts)
    (hp : p ≤ text.length) :
    ∀ t ∈ ts, ∃ p1 q, p ≤ p1 ∧ p1 ≤ text.length ∧ Scanned text p1 t q := by
  induction h with
  | last p q t hsc _ =>
    intro x hx
    rw [List.mem_singleton] at hx
    exact ⟨p, q, le_refl p, hp, hx ▸ hsc⟩
  | more p q t ts hsc _ _ ih =>
    intro x hx
    rcases List.mem_cons.mp hx with rfl | hx
    · exact ⟨p, q, le_refl p, hp, hsc⟩
    · obtain ⟨p1, q1, h1, h2, h3⟩ := ih hsc.2.1 x hx
      exact ⟨p1, q1, Nat.le_trans hsc.1 h1, h2, h3⟩

/-! ## Explicit results at a cursor -/

theorem scanned_eof (text : List Nat) (p : Nat) (hp : p ≤ text.length)
    (h0 : charAt text p = 0) : Scanned text p ⟨Lexeme.END_OF_FILE, [], locAt text p⟩ p := by
  refine ⟨le_refl p, hp, ?_⟩
  intro fuel hf
  obtain ⟨f, rfl⟩ : ∃ f, fuel = f + 1 := ⟨fuel - 1, by omega⟩
  exact nextToken_eof text p f h0

theorem scanned_number (text : List Nat) (p : Nat) (hp : p ≤ text.length)
    (hd : isdigit (charAt text p) = true) :
    Scanned text p
      (if charAt text (scanEnd isdigit text p) = 46 then
        ⟨Lexeme.FLOAT, slice text p (scanEnd isdigit text (scanEnd isdigit text p + 1)),
          locAt text p⟩
       else ⟨Lexeme.INTEGER, slice text p (scanEnd isdigit text p), locAt text p⟩)
      (if charAt text (scanEnd isdigit text p) = 46 then
        scanEnd isdigit text (scanEnd isdigit text p + 1)
       else scanEnd isdigit text p) := by
  have hcc : (stateAt text p).currentChar = charAt text p := rfl
  have h0 : charAt text p ≠ 0 := by
    intro h; rw [h] at hd; exact Bool.noConfusion hd
  have hs : atTokenStart (stateAt text p) := by
    refine ⟨?_, ?_, ?_⟩ <;> rw [hcc] <;> revert hd <;> generalize charAt text p = c <;>
      intro hd
    · simp only [isdigit, isspace, Bool.and_eq_true, decide_eq_true_eq] at hd ⊢
      have : c ≠ 32 := by omega
      simp [this]
      omega
    · simp only [isdigit, Bool.and_eq_true, decide_eq_true_eq] at hd
      omega
    · simp only [isdigit, Bool.and_eq_true, decide_eq_true_eq] at hd
      omega
  have hlt : p < text.length := lt_of_charAt_ne_zero h0
  have hq := lt_scanEnd hd hlt
  have hq2 := scanEnd_le isdigit hp
  have key : ∀ fuel, text.length - p + 2 ≤ fuel →
      nextToken fuel (stateAt text p) = number (fuel - 1) (stateAt text p) := by
    intro fuel hf
    obtain ⟨f, rfl⟩ : ∃ f, fuel = f + 1 := ⟨fuel - 1, by omega⟩
    rw [nextToken_tokenStart text p f hs h0, if_pos hd]
    rfl
  by_cases hdot : charAt text (scanEnd isdigit text p) = 46
  · have hlt2 : scanEnd isdigit text p < text.length :=
      lt_of_charAt_ne_zero (by rw [hdot]; decide)
    have hq3 := le_scanEnd isdigit text (scanEnd isdigit text p + 1)
    have hq4 := scanEnd_le isdigit (Nat.succ_le_of_lt hlt2)
    simp only [if_pos hdot]
    refine ⟨by omega, hq4, ?_⟩
    intro fuel hf
    rw [key fuel hf, number_stateAt text (fuel - 1) p (by omega), if_pos hdot]
  · simp only [if_neg hdot]
    refine ⟨by omega, hq2, ?_⟩
    intro fuel hf
    rw [key fuel hf, number_stateAt text (fuel - 1) p (by omega), if_neg hdot]

theorem scanned_identifier (text : List Nat) (p : Nat) (hp : p ≤ text.length)
    (ha : isalpha (charAt text p) = true ∨ charAt text p = 95) :
    Scanned text p
      ⟨(keywords.lookup (slice text p (scanEnd isIdentChar text p))).getD Lexeme.IDENTIFIER,
        slice text p (scanEnd isIdentChar text p), locAt text p⟩
      (scanEnd isIdentChar text p) := by
  have hcc : (stateAt text p).currentChar = charAt text p := rfl
  have hfacts : charAt text p ≠ 0 ∧ isspace (charAt text p) = false ∧
      isdigit (charAt text p) = false ∧ charAt text p ≠ 47 ∧ charAt text p ≠ 123 := by
    revert ha
    generalize charAt text p = c
    intro ha
    simp only [isalpha, isspace, isdigit, Bool.or_eq_true, Bool.and_eq_true,
      decide_eq_true_eq] at ha
    have h1 : c ≠ 32 := by omega
    have h2 : ¬ (9 ≤ c ∧ c ≤ 13) := by omega
    have h3 : ¬ (48 ≤ c ∧ c ≤ 57) := by omega
    refine ⟨by omega, ?_, ?_, by omega, by omega⟩
    · simp [isspace, h1]; omega
    · simp [isdigit]; omega
  obtain ⟨h0, hsp, hnd, h47, h123⟩ := hfacts
  have hs : atTokenStart (stateAt text p) := by
    refine ⟨?_, ?_, ?_⟩ <;> rw [hcc]
    · exact hsp
    · exact fun h => h47 h.1
    · exact h123
  have hlt : p < text.length := lt_of_charAt_ne_zero h0
  have hic : isIdentChar (charAt text p) = true := by
    rcases ha with ha | ha
    · simp [isIdentChar, isalnum, ha]
    · simp [isIdentChar, ha]
  have hq := lt_scanEnd hic hlt
  refine ⟨by omega, scanEnd_le isIdentChar hp, ?_⟩
  intro fuel hf
  obtain ⟨f, rfl⟩ : ∃ f, fuel = f + 1 := ⟨fuel - 1, by omega⟩
  rw [nextToken_tokenStart text p f hs h0, if_neg (by rw [hnd]; exact Bool.false_ne_true),
    if_pos ha, identifier_stateAt text f p (by omega)]

theorem run_eof {text : List Nat} {p : Nat} {ts : List Token} (hp : p ≤ text.length)
    (h0 : charAt text p = 0) (h : Run text p ts) :
    ts = [⟨Lexeme.END_OF_FILE, [], locAt text p⟩] := by
  have hsc := scanned_eof text p hp h0
  cases h with
  | last _ q t h1 _ =>
    obtain ⟨rfl, _⟩ := scanned_unique h1 hsc
    rfl
  | more _ q t ts h1 hty _ =>
    obtain ⟨rfl, _⟩ := scanned_unique h1 hsc
    exact absurd rfl hty

theorem run_cons {text : List Nat} {p q : Nat} {t : Token} {ts : List Token}
    (hsc : Scanned text p t q) (hty : t.type ≠ Lexeme.END_OF_FILE) (h : Run text p ts) :
    ∃ ts1, ts = t :: ts1 ∧ Run text q ts1 := by
  cases h with
  | last _ q2 t2 h1 hty2 =>
    obtain ⟨rfl, _⟩ := scanned_unique h1 hsc
    exact absurd hty2 hty
  | more _ q2 t2 ts2 h1 _ hrun =>
    obtain ⟨rfl, rfl⟩ := scanned_unique h1 hsc
    exact ⟨ts2, rfl, hrun⟩

/-! ## The kind `END_OF_FILE` comes from the last line of `nextToken` only -/

theorem number_type {fuel : Nat} {s s1 : Lexer} {t : Token}
    (h : number fuel s = some (t, s1)) : t.type ≠ Lexeme.END_OF_FILE := by
  simp only [number] at h
  cases h1 : accumulateWhile isdigit fuel s [] with
  | none => simp [h1] at h
  | some r1 =>
    obtain ⟨result, s2⟩ := r1
    rw [h1] at h
    simp only at h
    split_ifs at h with hc
    · cases h2 : accumulateWhile isdigit fuel (advance s2) (result ++ [s2.currentChar]) with
      | none => simp [h2] at h
      | some r2 =>
        rw [h2] at h
        simp only [Option.some.injEq, Prod.mk.injEq] at h
        rw [← h.1]
        exact fun e => Lexeme.noConfusion e
    · simp only [Option.some.injEq, Prod.mk.injEq] at h
      rw [← h.1]
      exact fun e => Lexeme.noConfusion e

theorem identifier_type {fuel : Nat} {s s1 : Lexer} {t : Token}
    (h : identifier fuel s = some (t, s1)) : t.type ≠ Lexeme.END_OF_FILE := by
  simp only [identifier] at h
  cases h1 : accumulateWhile isIdentChar fuel s [] with
  | none => simp [h1] at h
  | some r1 =>
    obtain ⟨result, s2⟩ := r1
    rw [h1] at h
    simp only at h
    have hk := (keyword_kind result).1
    cases h2 : keywords.lookup result with
    | none =>
      rw [h2] at h
      simp only [Option.some.injEq, Prod.mk.injEq] at h
      rw [← h.1]
      exact fun e => Lexeme.noConfusion e
    | some kind =>
      rw [h2] at h hk
      simp only [Option.some.injEq, Prod.mk.injEq] at h
      rw [← h.1]
      exact hk

theorem stringLiteral_type {fuel : Nat} {s s1 : Lexer} {t : Token}
    (h : stringLiteral fuel s = some (t, s1)) : t.type ≠ Lexeme.END_OF_FILE := by
  simp only [stringLiteral] at h
  cases h1 : accumulateWhile isStringChar fuel (advance s) [] with
  | none => simp [h1] at h
  | some r1 =>
    obtain ⟨result, s2⟩ := r1
    rw [h1] at h
    simp only at h
    split_ifs at h with hc <;>
    · simp only [Option.some.injEq, Prod.mk.injEq] at h
      rw [← h.1]
      exact fun e => Lexeme.noConfusion e

theorem operatorOrPunctuation_type (s : Lexer) :
    (operatorOrPunctuation s).1.type ≠ Lexeme.END_OF_FILE := by
  by_cases hm : s.currentChar ∈ [62, 60, 58]
  · simp only [List.mem_cons, List.mem_singleton, List.not_mem_nil, or_false] at hm
    rcases hm with h | h | h
    · by_cases e : (advance s).currentChar = 61 <;> simp [operatorOrPunctuation, h, e]
    · by_cases e : (advance s).currentChar = 61
      · simp [operatorOrPunctuation, h, e]
      · by_cases e2 : (advance s).currentChar = 62 <;> simp [operatorOrPunctuation, h, e, e2]
    · by_cases e : (advance s).currentChar = 61 <;> simp [operatorOrPunctuation, h, e]
  · simp only [List.mem_cons, List.mem_singleton, List.not_mem_nil, or_false, not_or] at hm
    exact (operatorOrPunctuation_single s hm.1 hm.2.1 hm.2.2).2.2.1

theorem nextToken_end_of_file :
    ∀ (fuel : Nat) (s s1 : Lexer) (t : Token), nextToken fuel s = some (t, s1) →
      t.type = Lexeme.END_OF_FILE →
      s1.currentChar = 0 ∧ t = ⟨Lexeme.END_OF_FILE, [], ⟨s1.line, s1.column⟩⟩ := by
  intro fuel
  induction fuel with
  | zero => intro s s1 t h; simp [nextToken] at h
  | succ n ih =>
    intro s s1 t h hty
    rw [nextToken] at h
    split_ifs at h with c0 c1 c2 c3 c4 c5 c6
    · cases h1 : skipWhitespace n s with
      | none => simp [h1] at h
      | some s2 =>
        rw [h1] at h
        exact ih _ _ _ h hty
    · exact absurd hty (number_type h)
    · exact absurd hty (identifier_type h)
    · exact absurd hty (stringLiteral_type h)
    · cases h1 : skipLineComment n s with
      | none => simp [h1] at h
      | some s2 =>
        rw [h1] at h
        exact ih _ _ _ h hty
    · cases h1 : skipBlockComment n s with
      | none => simp [h1] at h
      | some r1 =>
        obtain ⟨b, s2⟩ := r1
        rw [h1] at h
        cases b with
        | true => exact ih _ _ _ h hty
        | false =>
          simp only [Option.some.injEq, Prod.mk.injEq] at h
          rw [← h.1] at hty
          exact Lexeme.noConfusion hty
    · simp only [Option.some.injEq] at h
      have := operatorOrPunctuation_type s
      rw [h] at this
      exact absurd hty this
    · simp only [Option.some.injEq, Prod.mk.injEq] at h
      obtain ⟨h1, h2⟩ := h
      subst h2
      exact ⟨not_not.mp c0, h1.symm⟩

/-! ## Runs from the start of the buffer -/

theorem charAt_eq_head_drop (text : List Nat) (p : Nat) :
    charAt text p = ((text.drop p).head?).getD 0 := by
  by_cases h : p < text.length
  · rw [drop_eq_charAt_cons h]; rfl
  · rw [List.drop_eq_nil_of_le (Nat.le_of_not_lt h), charAt_of_le (Nat.le_of_not_lt h)]; rfl

theorem drop_length_takeWhile (cond : Nat → Bool) (l : List Nat) :
    l.drop (l.takeWhile cond).length = l.dropWhile cond := by
  induction l with
  | nil => rfl
  | cons a l ih =>
    cases hc : cond a with
    | false => simp [List.takeWhile_cons, List.dropWhile_cons, hc]
    | true => simpa [List.takeWhile_cons, List.dropWhile_cons, hc] using ih

theorem scanEnd_zero (cond : Nat → Bool) (text : List Nat) :
    scanEnd cond text 0 = (text.takeWhile cond).length := by
  simp [scanEnd]

theorem slice_zero_scanEnd (cond : Nat → Bool) (text : List Nat) :
    slice text 0 (scanEnd cond text 0) = text.takeWhile cond := by
  rw [← run_eq_slice]; rfl

theorem slice_zero_length (text : List Nat) : slice text 0 text.length = text := by
  simp [slice]

theorem locAt_zero (text : List Nat) : locAt text 0 = ⟨1, 0⟩ := by
  simp [locAt, lineAt_zero, colAt_zero, wrapInt_one, wrapInt_zero]

theorem lookup_eq_none {α β : Type} [BEq α] (l : List (α × β)) (a : α)
    (h : ∀ x ∈ l.map Prod.fst, (a == x) = false) : l.lookup a = none := by
  induction l with
  | nil => rfl
  | cons x l ih =>
    obtain ⟨k, v⟩ := x
    have hk : (a == k) = false := h k (by simp)
    rw [List.lookup, hk]
    exact ih (fun y hy => h y (by simp at hy ⊢; exact Or.inr hy))

/-! ## The claims -/

/-- C1: for every input, `tokenize` (given fuel above the input length) returns a non-empty
token list whose last token has kind `END_OF_FILE` and in which no earlier token has kind
`END_OF_FILE`. -/
theorem tokenize_ends_with_end_of_file (input : List Nat) (k : Nat) :
    ∃ toks, tokenize (input.length + 3 + k) input = some toks ∧ toks ≠ [] ∧
      (∃ t, toks.getLast? = some t ∧ t.type = Lexeme.END_OF_FILE) ∧
      ∀ t ∈ toks.dropLast, t.type ≠ Lexeme.END_OF_FILE := by
  obtain ⟨ts, hrun, _, htok⟩ := tokenize_run input
  exact ⟨ts, htok k, run_shape hrun⟩

/-- C2: in every lexer state reachable from the constructor, a call of `nextToken` that
returns a token of kind other than `END_OF_FILE` leaves the cursor strictly greater than
before; such a call returns whenever the fuel exceeds the input length by two; and
`tokenize` returns, with at most `n + 1` tokens on an input of `n` characters. -/
theorem nextToken_progress_and_bound (input : List Nat) :
    (∀ s fuel t s1, Reachable input s → nextToken fuel s = some (t, s1) →
      t.type ≠ Lexeme.END_OF_FILE → s.pos < s1.pos) ∧
    (∀ s k, Reachable input s → ∃ r, nextToken (input.length + 2 + k) s = some r) ∧
    (∃ toks, toks.length ≤ input.length + 1 ∧
      ∀ k, tokenize (input.length + 3 + k) input = some toks) := by
  refine ⟨?_, ?_, ?_⟩
  · intro s fuel t s1 hr hn hne
    obtain ⟨p, hp, rfl⟩ := reachable_stateAt hr
    obtain ⟨q, hsc, rfl⟩ := nextToken_result hp hn
    obtain ⟨t2, q2, p0, hsc2, h1, _, _, hlt, _⟩ := scanned_total input p hp
    obtain ⟨rfl, rfl⟩ := scanned_unique hsc hsc2
    exact Nat.lt_of_le_of_lt h1 (hlt hne)
  · intro s k hr
    obtain ⟨p, hp, rfl⟩ := reachable_stateAt hr
    obtain ⟨t, q, _, hsc, _⟩ := scanned_total input p hp
    exact ⟨_, hsc.2.2 _ (by omega)⟩
  · obtain ⟨ts, _, hlen, htok⟩ := tokenize_run input
    exact ⟨ts, hlen, htok⟩

/-- Witness of C2 on the input `"x;"`: the first call returns the identifier `x` and moves
the cursor from 0 to 1. -/
theorem nextToken_progress_and_bound_witness :
    (Lexer.init (bytes "x;")).pos < (stateAt (bytes "x;") 1).pos :=
  (nextToken_progress_and_bound (bytes "x;")).1 (Lexer.init (bytes "x;")) 5
    ⟨Lexeme.IDENTIFIER, bytes "x", ⟨1, 0⟩⟩ (stateAt (bytes "x;") 1)
    Reachable.init (by decide!) (by decide)

/-- C3 (amended): a call of `nextToken` in a reachable state passes over whitespace and
comments up to the one cursor `p0` that `SkipsTo` gives for the cursor of the call
(`skipsTo_unique`), and returns the token scanned at `p0`. Unless a block comment that is
never closed opens at `p0` (then the token is `BAD "{"` with the position of the end of the
buffer), the token comes from the number, identifier, string, operator or end-of-input branch
taken at `p0`, `p0` is the cursor of its first character (the cursor itself for
end-of-input), and its recorded line and column are the `int` values of one more than the
number of newlines before `p0` and of the number of characters between the last newline
before `p0` (or the start of the buffer) and `p0`: the counts themselves whenever these are
below 2147483648. -/
theorem token_position (input : List Nat) (s : Lexer) (fuel : Nat) (t : Token) (s1 : Lexer)
    (hr : Reachable input s) (hn : nextToken fuel s = some (t, s1)) :
    ∃ p0, SkipsTo input s.pos p0 ∧ s.pos ≤ p0 ∧ p0 ≤ s1.pos ∧ Scanned input p0 t s1.pos ∧
      (unterminatedAt input p0 →
        t = ⟨Lexeme.BAD, bytes "\x7b", locAt input input.length⟩ ∧ s1.pos = input.length) ∧
      (¬ unterminatedAt input p0 →
        atTokenStart (stateAt input p0) ∧
        (t.type = Lexeme.END_OF_FILE → p0 = s1.pos) ∧
        (t.type ≠ Lexeme.END_OF_FILE → p0 < s1.pos ∧ charAt input p0 ≠ 0) ∧
        t.position.line = wrapInt ((1 + (input.take p0).count 10 : Nat) : Int) ∧
        t.position.column
          = wrapInt ((((input.take p0).reverse.takeWhile (fun c => c != 10)).length : Nat) : Int) ∧
        (1 + (input.take p0).count 10 < 2147483648 →
          t.position.line = ((1 + (input.take p0).count 10 : Nat) : Int)) ∧
        (((input.take p0).reverse.takeWhile (fun c => c != 10)).length < 2147483648 →
          t.position.column
            = ((((input.take p0).reverse.takeWhile (fun c => c != 10)).length : Nat) : Int))) := by
  obtain ⟨p, hp, rfl⟩ := reachable_stateAt hr
  obtain ⟨q, hsc, rfl⟩ := nextToken_result hp hn
  obtain ⟨p0, hk, ha, hb, hs⟩ := skipsTo_exists input (input.length - p) p rfl hp
  by_cases hu : unterminatedAt input p0
  · have hsc0 := scanned_unterminated input p0 hu
    obtain ⟨rfl, rfl⟩ := scanned_unique hsc (hs _ _ hsc0)
    exact ⟨p0, hk, ha, hb, hsc0, fun _ => ⟨rfl, rfl⟩, fun h => absurd hu h⟩
  · have hd : atTokenStart (stateAt input p0) := (skipsTo_end hk).resolve_right hu
    obtain ⟨t2, q2, hsc0, hpos, he, hne, _, _⟩ := scanned_tokenStart input p0 hb hd
    obtain ⟨rfl, rfl⟩ := scanned_unique hsc (hs _ _ hsc0)
    refine ⟨p0, hk, ha, hsc0.1, hsc0, fun h => absurd h hu, fun _ =>
      ⟨hd, fun h => (he h).1.symm, fun h => ⟨(hne h).1, (hne h).2⟩, ?_, ?_, ?_, ?_⟩⟩
    · rw [hpos]; rfl
    · rw [hpos]; rfl
    · intro h
      rw [hpos]
      exact wrapInt_of_lt h
    · intro h
      rw [hpos]
      exact wrapInt_of_lt h

/-- Witness of C3 (amended) on the input `"a\n b"`: the second call, made with the cursor at 1, skips
the newline and the space and returns the identifier `b` recorded at line 2, column 1. -/
theorem token_position_witness :
    ∃ p0, SkipsTo (bytes "a\n b") (stateAt (bytes "a\n b") 1).pos p0 ∧
      (stateAt (bytes "a\n b") 1).pos ≤ p0 ∧ p0 ≤ (stateAt (bytes "a\n b") 4).pos ∧
      Scanned (bytes "a\n b") p0 ⟨Lexeme.IDENTIFIER, bytes "b", ⟨2, 1⟩⟩
        (stateAt (bytes "a\n b") 4).pos ∧
      (unterminatedAt (bytes "a\n b") p0 →
        (⟨Lexeme.IDENTIFIER, bytes "b", ⟨2, 1⟩⟩ : Token)
          = ⟨Lexeme.BAD, bytes "\x7b", locAt (bytes "a\n b") (bytes "a\n b").length⟩ ∧
        (stateAt (bytes "a\n b") 4).pos = (bytes "a\n b").length) ∧
      (¬ unterminatedAt (bytes "a\n b") p0 →
        atTokenStart (stateAt (bytes "a\n b") p0) ∧
        ((⟨Lexeme.IDENTIFIER, bytes "b", ⟨2, 1⟩⟩ : Token).type = Lexeme.END_OF_FILE →
          p0 = (stateAt (bytes "a\n b") 4).pos) ∧
        ((⟨Lexeme.IDENTIFIER, bytes "b", ⟨2, 1⟩⟩ : Token).type ≠ Lexeme.END_OF_FILE →
          p0 < (stateAt (bytes "a\n b") 4).pos ∧ charAt (bytes "a\n b") p0 ≠ 0) ∧
        (⟨Lexeme.IDENTIFIER, bytes "b", ⟨2, 1⟩⟩ : Token).position.line
          = wrapInt ((1 + ((bytes "a\n b").take p0).count 10 : Nat) : Int) ∧
        (⟨Lexeme.IDENTIFIER, bytes "b", ⟨2, 1⟩⟩ : Token).position.column
          = wrapInt (((((bytes "a\n b").take p0).reverse.takeWhile
              (fun c => c != 10)).length : Nat) : Int) ∧
        (1 + ((bytes "a\n b").take p0).count 10 < 2147483648 →
          (⟨Lexeme.IDENTIFIER, bytes "b", ⟨2, 1⟩⟩ : Token).position.line
            = ((1 + ((bytes "a\n b").take p0).count 10 : Nat) : Int)) ∧
        ((((bytes "a\n b").take p0).reverse.takeWhile (fun c => c != 10)).length
            < 2147483648 →
          (⟨Lexeme.IDENTIFIER, bytes "b", ⟨2, 1⟩⟩ : Token).position.column
            = (((((bytes "a\n b").take p0).reverse.takeWhile
                (fun c => c != 10)).length : Nat) : Int))) :=
  token_position (bytes "a\n b") (stateAt (bytes "a\n b") 1) 6
    ⟨Lexeme.IDENTIFIER, bytes "b", ⟨2, 1⟩⟩ (stateAt (bytes "a\n b") 4)
    (Reachable.next 6 (Lexer.init (bytes "a\n b")) (stateAt (bytes "a\n b") 1)
      ⟨Lexeme.IDENTIFIER, bytes "a", ⟨1, 0⟩⟩ Reachable.init (by decide!))
    (by decide!)

/-- C4 (what the code does): on the input `"{ab\nc"`, whose block comment is never closed,
the `BAD` token carries line 2, column 1, the position of the end of the buffer, although the
opening brace is at line 1, column 0. -/
theorem unterminated_comment_position_is_end :
    tokenize 10 (bytes "\x7bab\nc")
      = some [⟨Lexeme.BAD, bytes "\x7b", ⟨2, 1⟩⟩, ⟨Lexeme.END_OF_FILE, [], ⟨2, 1⟩⟩] ∧
    locAt (bytes "\x7bab\nc") 0 = ⟨1, 0⟩ ∧
    locAt (bytes "\x7bab\nc") (bytes "\x7bab\nc").length = ⟨2, 1⟩ := by
  decide!

/-- C5: for every string `c` without `'}'`, `tokenize` of `"{" ++ c` is exactly the `BAD`
token with lexeme `"{"` followed by `END_OF_FILE` (both carry the position of the end of the
buffer). -/
theorem unterminated_comment_tokens (c : List Nat) (hc : 125 ∉ c) (k : Nat) :
    tokenize ((123 :: c).length + 3 + k) (123 :: c)
      = some [⟨Lexeme.BAD, bytes "\x7b", locAt (123 :: c) (123 :: c).length⟩,
              ⟨Lexeme.END_OF_FILE, [], locAt (123 :: c) (123 :: c).length⟩] := by
  have hall : c.takeWhile notCloseBrace = c := by
    rw [List.takeWhile_eq_self_iff]
    intro x hx
    have : x ≠ 125 := fun h => hc (h ▸ hx)
    simpa [notCloseBrace] using this
  have hu : unterminatedAt (123 :: c) 0 := by
    refine ⟨rfl, ?_⟩
    simp [scanEnd, hall]
    omega
  obtain ⟨ts, hrun, _, htok⟩ := tokenize_run (123 :: c)
  rw [htok k]
  obtain ⟨ts1, rfl, hrun1⟩ := run_cons (scanned_unterminated _ 0 hu)
    (fun e => Lexeme.noConfusion e) hrun
  rw [run_eof (le_refl _) (charAt_of_le (le_refl _)) hrun1]

/-- Witness of C5 on the input `"{ unterminated"`. -/
theorem unterminated_comment_tokens_witness :
    tokenize ((123 :: bytes " unterminated").length + 3 + 0) (123 :: bytes " unterminated")
      = some [⟨Lexeme.BAD, bytes "\x7b",
                locAt (123 :: bytes " unterminated") (123 :: bytes " unterminated").length⟩,
              ⟨Lexeme.END_OF_FILE, [],
                locAt (123 :: bytes " unterminated") (123 :: bytes " unterminated").length⟩] :=
  unterminated_comment_tokens (bytes " unterminated") (by decide) 0

/-- C6 as stated fails: on the input `"'a'"` the first call of `nextToken` begins at cursor 0
and ends at cursor 3 and returns a `STRING` token, whose lexeme `a` is not the text `'a'`
between these cursors. -/
theorem lexeme_is_slice_counterexample :
    Lexer.init (bytes "'a'")
      = { text := [39, 97, 39], pos := 0, currentChar := 39, line := 1, column := 0 } ∧
    nextToken 10 (Lexer.init (bytes "'a'"))
      = some (⟨Lexeme.STRING, [97], ⟨1, 0⟩⟩,
              { text := [39, 97, 39], pos := 3, currentChar := 0, line := 1, column := 3 }) ∧
    tokenize 10 (bytes "'a'")
      = some [⟨Lexeme.STRING, [97], ⟨1, 0⟩⟩, ⟨Lexeme.END_OF_FILE, [], ⟨1, 3⟩⟩] ∧
    slice (bytes "'a'") 0 3 = [39, 97, 39] ∧
    ([97] : List Nat) ≠ slice (bytes "'a'") 0 3 := by
  decide!

/-- C6 (amended): every token in the output of `tokenize` whose kind is neither `BAD` nor
`END_OF_FILE` is scanned from a cursor `p`, at which `nextToken` starts the token at once, to
a cursor `q`; its lexeme is the text between `p` and `q` when its kind is not `STRING`, and
for a `STRING` token the characters at `p` and `q - 1` are the quotes and the lexeme is the
text strictly between them. -/
theorem lexeme_is_slice (input : List Nat) (k : Nat) :
    ∃ toks, tokenize (input.length + 3 + k) input = some toks ∧
      ∀ t ∈ toks, t.type ≠ Lexeme.BAD → t.type ≠ Lexeme.END_OF_FILE →
        ∃ p q, p < q ∧ q ≤ input.length ∧ atTokenStart (stateAt input p) ∧
          Scanned input p t q ∧
          (t.type ≠ Lexeme.STRING → t.lexeme = slice input p q) ∧
          (t.type = Lexeme.STRING → charAt input p = 39 ∧ charAt input (q - 1) = 39 ∧
            p + 2 ≤ q ∧ t.lexeme = slice input (p + 1) (q - 1)) := by
  obtain ⟨ts, hrun, _, htok⟩ := tokenize_run input
  refine ⟨ts, htok k, ?_⟩
  intro t ht hbad heof
  obtain ⟨p1, q, _, hp1, hsc⟩ := run_mem hrun (Nat.zero_le _) t ht
  obtain ⟨t2, q2, p0, hsc2, _, _, hsc0, hlt, _, hcase⟩ := scanned_total input p1 hp1
  obtain ⟨rfl, rfl⟩ := scanned_unique hsc hsc2
  rcases hcase with ⟨hst, _, _, _, hlex, hstr⟩ | ⟨_, _, hbt⟩
  · refine ⟨p0, q, hlt heof, hsc.2.1, hst, hsc0, fun h => hlex hbad heof h, ?_⟩
    intro h
    obtain ⟨a, b, c, d⟩ := hstr h
    exact ⟨a, c, b, d⟩
  · rw [hbt] at hbad
    exact absurd rfl hbad

/-- C7 (what the code does): on the three-character input `a`, code 0, `b` the first call of
`nextToken` returns the identifier `a`, the second call returns `END_OF_FILE` with the cursor
at 1, before the end of the buffer, and `tokenize` returns without a token for the code 0 or
for `b`. -/
theorem end_of_file_before_end_of_buffer :
    nextToken 10 (Lexer.init [97, 0, 98])
      = some (⟨Lexeme.IDENTIFIER, [97], ⟨1, 0⟩⟩,
              { text := [97, 0, 98], pos := 1, currentChar := 0, line := 1, column := 1 }) ∧
    nextToken 10 { text := [97, 0, 98], pos := 1, currentChar := 0, line := 1, column := 1 }
      = some (⟨Lexeme.END_OF_FILE, [], ⟨1, 1⟩⟩,
              { text := [97, 0, 98], pos := 1, currentChar := 0, line := 1, column := 1 }) ∧
    1 < [97, 0, 98].length ∧
    tokenize 10 [97, 0, 98]
      = some [⟨Lexeme.IDENTIFIER, [97], ⟨1, 0⟩⟩, ⟨Lexeme.END_OF_FILE, [], ⟨1, 1⟩⟩] := by
  decide!

/-- C8 as stated fails: on the input `" "` the call of `nextToken` in the initial state
returns `END_OF_FILE` and moves the cursor from 0 to 1. -/
theorem end_of_file_call_changes_state :
    Lexer.init [32] = { text := [32], pos := 0, currentChar := 32, line := 1, column := 0 } ∧
    nextToken 10 (Lexer.init [32])
      = some (⟨Lexeme.END_OF_FILE, [], ⟨1, 1⟩⟩,
              { text := [32], pos := 1, currentChar := 0, line := 1, column := 1 }) ∧
    ({ text := [32], pos := 1, currentChar := 0, line := 1, column := 1 } : Lexer)
      ≠ Lexer.init [32] := by
  decide!

/-- C8 (amended): when a call of `nextToken` in any lexer state returns an `END_OF_FILE`
token, that token has the empty lexeme and the position tracked by the state the call
leaves, and every later call of `nextToken` returns the identical token and leaves that
state unchanged. -/
theorem end_of_file_is_stable (s : Lexer) (fuel : Nat) (t : Token) (s1 : Lexer)
    (hn : nextToken fuel s = some (t, s1)) (ht : t.type = Lexeme.END_OF_FILE) :
    t = ⟨Lexeme.END_OF_FILE, [], ⟨s1.line, s1.column⟩⟩ ∧
    ∀ fuel2, nextToken (fuel2 + 1) s1 = some (t, s1) := by
  obtain ⟨h0, he⟩ := nextToken_end_of_file fuel s s1 t hn ht
  refine ⟨he, ?_⟩
  intro fuel2
  rw [nextToken, if_neg (not_not.mpr h0), he]

/-- Witness of C8 (amended) on the input `" "`, in the initial state. -/
theorem end_of_file_is_stable_witness :
    (⟨Lexeme.END_OF_FILE, [], ⟨1, 1⟩⟩ : Token)
      = ⟨Lexeme.END_OF_FILE, [], ⟨(stateAt [32] 1).line, (stateAt [32] 1).column⟩⟩ ∧
    ∀ fuel2, nextToken (fuel2 + 1) (stateAt [32] 1)
      = some (⟨Lexeme.END_OF_FILE, [], ⟨1, 1⟩⟩, stateAt [32] 1) :=
  end_of_file_is_stable (Lexer.init [32]) 10 ⟨Lexeme.END_OF_FILE, [], ⟨1, 1⟩⟩ (stateAt [32] 1)
    (by decide!) rfl

/-- C9: for every word `w` (a letter or underscore followed by letters, digits and
underscores) `tokenize w` is exactly one token with lexeme `w` at line 1, column 0, followed
by `END_OF_FILE`; the kind of the token is the keyword kind when `w` is one of the twelve
uppercase spellings and `IDENTIFIER` in every other case. -/
theorem word_is_one_token (w : List Nat) (hw : isWord w = true) (k : Nat) :
    ∃ kind, tokenize (w.length + 3 + k) w
        = some [⟨kind, w, ⟨1, 0⟩⟩, ⟨Lexeme.END_OF_FILE, [], locAt w w.length⟩] ∧
      (w = bytes "ARRAY" → kind = Lexeme.ARRAY) ∧
      (w = bytes "BEGIN" → kind = Lexeme.BEGIN) ∧
      (w = bytes "ELSE" → kind = Lexeme.ELSE) ∧
      (w = bytes "END" → kind = Lexeme.END) ∧
      (w = bytes "IF" → kind = Lexeme.IF) ∧
      (w = bytes "OF" → kind = Lexeme.OF) ∧
      (w = bytes "OR" → kind = Lexeme.OR) ∧
      (w = bytes "PROGRAM" → kind = Lexeme.PROGRAM) ∧
      (w = bytes "PROCEDURE" → kind = Lexeme.PROCEDURE) ∧
      (w = bytes "THEN" → kind = Lexeme.THEN) ∧
      (w = bytes "TYPE" → kind = Lexeme.TYPE) ∧
      (w = bytes "VAR" → kind = Lexeme.VAR) ∧
      (w ∉ [bytes "ARRAY", bytes "BEGIN", bytes "ELSE", bytes "END", bytes "IF", bytes "OF",
             bytes "OR", bytes "PROGRAM", bytes "PROCEDURE", bytes "THEN", bytes "TYPE",
             bytes "VAR"] → kind = Lexeme.IDENTIFIER) := by
  obtain ⟨c, cs, rfl⟩ : ∃ c cs, w = c :: cs := by
    cases w with
    | nil => exact absurd hw (by decide)
    | cons c cs => exact ⟨c, cs, rfl⟩
  simp only [isWord, Bool.and_eq_true, Bool.or_eq_true, beq_iff_eq, List.all_eq_true] at hw
  obtain ⟨hc, hcs⟩ := hw
  have hall : (c :: cs).takeWhile isIdentChar = c :: cs := by
    rw [List.takeWhile_eq_self_iff]
    intro x hx
    rcases List.mem_cons.mp hx with rfl | hx
    · rcases hc with h | h
      · simp [isIdentChar, isalnum, h]
      · simp [isIdentChar, h]
    · rcases hcs x hx with (h | h) | h
      · simp [isIdentChar, isalnum, h]
      · simp [isIdentChar, isalnum, h]
      · simp [isIdentChar, h]
  have hq : scanEnd isIdentChar (c :: cs) 0 = (c :: cs).length := by
    rw [scanEnd_zero, hall]
  have hsc := scanned_identifier (c :: cs) 0 (Nat.zero_le _) hc
  rw [hq, slice_zero_length, locAt_zero] at hsc
  obtain ⟨ts, hrun, _, htok⟩ := tokenize_run (c :: cs)
  obtain ⟨ts1, rfl, hrun1⟩ := run_cons hsc (keyword_kind (c :: cs)).1 hrun
  rw [run_eof (le_refl _) (charAt_of_le (le_refl _)) hrun1] at htok
  refine ⟨_, htok k, ?_, ?_, ?_, ?_, ?_, ?_, ?_, ?_, ?_, ?_, ?_, ?_, ?_⟩
  any_goals (intro h; rw [h]; decide)
  intro h
  rw [lookup_eq_none keywords (c :: cs)]
  · rfl
  · intro x hx
    rw [beq_eq_false_iff_ne]
    intro e
    apply h
    rw [e]
    revert hx
    generalize x = y
    intro hy
    have hm : keywords.map Prod.fst
        = [bytes "ARRAY", bytes "BEGIN", bytes "ELSE", bytes "END", bytes "IF", bytes "OF",
           bytes "OR", bytes "PROGRAM", bytes "PROCEDURE", bytes "THEN", bytes "TYPE",
           bytes "VAR"] := rfl
    rw [hm] at hy
    exact hy

/-- Witness of C9 on the word `"BEGIN"`. -/
theorem word_is_one_token_witness :
    ∃ kind, tokenize ((bytes "BEGIN").length + 3 + 0) (bytes "BEGIN")
        = some [⟨kind, bytes "BEGIN", ⟨1, 0⟩⟩,
                ⟨Lexeme.END_OF_FILE, [], locAt (bytes "BEGIN") (bytes "BEGIN").length⟩] ∧
      (bytes "BEGIN" = bytes "ARRAY" → kind = Lexeme.ARRAY) ∧
      (bytes "BEGIN" = bytes "BEGIN" → kind = Lexeme.BEGIN) ∧
      (bytes "BEGIN" = bytes "ELSE" → kind = Lexeme.ELSE) ∧
      (bytes "BEGIN" = bytes "END" → kind = Lexeme.END) ∧
      (bytes "BEGIN" = bytes "IF" → kind = Lexeme.IF) ∧
      (bytes "BEGIN" = bytes "OF" → kind = Lexeme.OF) ∧
      (bytes "BEGIN" = bytes "OR" → kind = Lexeme.OR) ∧
      (bytes "BEGIN" = bytes "PROGRAM" → kind = Lexeme.PROGRAM) ∧
      (bytes "BEGIN" = bytes "PROCEDURE" → kind = Lexeme.PROCEDURE) ∧
      (bytes "BEGIN" = bytes "THEN" → kind = Lexeme.THEN) ∧
      (bytes "BEGIN" = bytes "TYPE" → kind = Lexeme.TYPE) ∧
      (bytes "BEGIN" = bytes "VAR" → kind = Lexeme.VAR) ∧
      (bytes "BEGIN" ∉ [bytes "ARRAY", bytes "BEGIN", bytes "ELSE", bytes "END", bytes "IF",
             bytes "OF", bytes "OR", bytes "PROGRAM", bytes "PROCEDURE", bytes "THEN",
             bytes "TYPE", bytes "VAR"] → kind = Lexeme.IDENTIFIER) :=
  word_is_one_token (bytes "BEGIN") (by decide) 0

/-- C10: for every input that begins with a decimal digit, the first token of `tokenize` is
at line 1, column 0 and is the `INTEGER` whose lexeme is the maximal leading run of digits
when the character after that run is not `'.'`, and the `FLOAT` whose lexeme is that run, the
dot and the maximal (possibly empty) run of digits after the dot when it is `'.'`. -/
theorem number_is_first_token (input : List Nat) (k : Nat)
    (hd : ∃ c, input.head? = some c ∧ isdigit c = true) :
    ((input.dropWhile isdigit).head? ≠ some 46 →
      ∃ rest, tokenize (input.length + 3 + k) input
        = some (⟨Lexeme.INTEGER, input.takeWhile isdigit, ⟨1, 0⟩⟩ :: rest)) ∧
    ((input.dropWhile isdigit).head? = some 46 →
      ∃ rest, tokenize (input.length + 3 + k) input
        = some (⟨Lexeme.FLOAT,
            input.takeWhile isdigit ++ [46] ++ (input.dropWhile isdigit).tail.takeWhile isdigit,
            ⟨1, 0⟩⟩ :: rest)) := by
  obtain ⟨c, hc, hdc⟩ := hd
  have hc0 : charAt input 0 = c := by
    rw [charAt_eq_head_drop, List.drop_zero, hc]; rfl
  have hsc := scanned_number input 0 (Nat.zero_le _) (by rw [hc0]; exact hdc)
  have hdot : charAt input (scanEnd isdigit input 0) = 46 ↔
      (input.dropWhile isdigit).head? = some 46 := by
    rw [charAt_eq_head_drop, scanEnd_zero, drop_length_takeWhile]
    cases (input.dropWhile isdigit).head? with
    | none => simp
    | some x => simp
  obtain ⟨ts, hrun, _, htok⟩ := tokenize_run input
  constructor
  · intro h
    have hnd : ¬ charAt input (scanEnd isdigit input 0) = 46 := fun e => h (hdot.mp e)
    rw [if_neg hnd, if_neg hnd, slice_zero_scanEnd, locAt_zero] at hsc
    obtain ⟨ts1, rfl, _⟩ := run_cons hsc (fun e => Lexeme.noConfusion e) hrun
    exact ⟨ts1, htok k⟩
  · intro h
    have hyd : charAt input (scanEnd isdigit input 0) = 46 := hdot.mpr h
    have hlt : scanEnd isdigit input 0 < input.length :=
      lt_of_charAt_ne_zero (by rw [hyd]; decide)
    have hlex : slice input 0 (scanEnd isdigit input (scanEnd isdigit input 0 + 1))
        = input.takeWhile isdigit ++ [46]
            ++ (input.dropWhile isdigit).tail.takeWhile isdigit := by
      rw [← slice_append input (Nat.zero_le (scanEnd isdigit input 0))
          (Nat.le_trans (Nat.le_succ _) (le_scanEnd isdigit input _)),
        ← slice_append input (Nat.le_succ (scanEnd isdigit input 0))
          (le_scanEnd isdigit input _),
        slice_zero_scanEnd, slice_succ hlt, hyd, ← run_eq_slice, ← List.append_assoc]
      congr 2
      rw [← drop_length_takeWhile, ← scanEnd_zero, List.tail_drop]
    rw [if_pos hyd, if_pos hyd, hlex, locAt_zero] at hsc
    obtain ⟨ts1, rfl, _⟩ := run_cons hsc (fun e => Lexeme.noConfusion e) hrun
    exact ⟨ts1, htok k⟩

/-- Witness of C10 on the input `"12.34+5"`, whose first token is the `FLOAT` `12.34`. -/
theorem number_is_first_token_witness :
    (((bytes "12.34+5").dropWhile isdigit).head? ≠ some 46 →
      ∃ rest, tokenize ((bytes "12.34+5").length + 3 + 0) (bytes "12.34+5")
        = some (⟨Lexeme.INTEGER, (bytes "12.34+5").takeWhile isdigit, ⟨1, 0⟩⟩ :: rest)) ∧
    (((bytes "12.34+5").dropWhile isdigit).head? = some 46 →
      ∃ rest, tokenize ((bytes "12.34+5").length + 3 + 0) (bytes "12.34+5")
        = some (⟨Lexeme.FLOAT,
            (bytes "12.34+5").takeWhile isdigit ++ [46]
              ++ ((bytes "12.34+5").dropWhile isdigit).tail.takeWhile isdigit,
            ⟨1, 0⟩⟩ :: rest)) :=
  number_is_first_token (bytes "12.34+5") 0 ⟨49, by decide, by decide⟩

/-! ## No token has a comment kind -/

theorem number_type_comment {fuel : Nat} {s s1 : Lexer} {t : Token}
    (h : number fuel s = some (t, s1)) :
    t.type ≠ Lexeme.LINE_COMMENT ∧ t.type ≠ Lexeme.BLOCK_COMMENT := by
  simp only [number] at h
  cases h1 : accumulateWhile isdigit fuel s [] with
  | none => simp [h1] at h
  | some r1 =>
    obtain ⟨result, s2⟩ := r1
    rw [h1] at h
    simp only at h
    split_ifs at h with hc
    · cases h2 : accumulateWhile isdigit fuel (advance s2) (result ++ [s2.currentChar]) with
      | none => simp [h2] at h
      | some r2 =>
        rw [h2] at h
        simp only [Option.some.injEq, Prod.mk.injEq] at h
        rw [← h.1]
        exact ⟨fun e => Lexeme.noConfusion e, fun e => Lexeme.noConfusion e⟩
    · simp only [Option.some.injEq, Prod.mk.injEq] at h
      rw [← h.1]
      exact ⟨fun e => Lexeme.noConfusion e, fun e => Lexeme.noConfusion e⟩

theorem keyword_kind_comment (w : List Nat) :
    (keywords.lookup w).getD Lexeme.IDENTIFIER ≠ Lexeme.LINE_COMMENT ∧
    (keywords.lookup w).getD Lexeme.IDENTIFIER ≠ Lexeme.BLOCK_COMMENT := by
  cases h : keywords.lookup w with
  | none => simp
  | some k =>
    have hm := lookup_mem_values keywords w k h
    have hall : ∀ k ∈ keywords.map Prod.snd,
        k ≠ Lexeme.LINE_COMMENT ∧ k ≠ Lexeme.BLOCK_COMMENT := by decide
    exact hall k hm

theorem identifier_type_comment {fuel : Nat} {s s1 : Lexer} {t : Token}
    (h : identifier fuel s = some (t, s1)) :
    t.type ≠ Lexeme.LINE_COMMENT ∧ t.type ≠ Lexeme.BLOCK_COMMENT := by
  simp only [identifier] at h
  cases h1 : accumulateWhile isIdentChar fuel s [] with
  | none => simp [h1] at h
  | some r1 =>
    obtain ⟨result, s2⟩ := r1
    rw [h1] at h
    simp only at h
    have hk := keyword_kind_comment result
    cases h2 : keywords.lookup result with
    | none =>
      rw [h2] at h
      simp only [Option.some.injEq, Prod.mk.injEq] at h
      rw [← h.1]
      exact ⟨fun e => Lexeme.noConfusion e, fun e => Lexeme.noConfusion e⟩
    | some kind =>
      rw [h2] at h hk
      simp only [Option.some.injEq, Prod.mk.injEq] at h
      rw [← h.1]
      exact hk

theorem stringLiteral_type_comment {fuel : Nat} {s s1 : Lexer} {t : Token}
    (h : stringLiteral fuel s = some (t, s1)) :
    t.type ≠ Lexeme.LINE_COMMENT ∧ t.type ≠ Lexeme.BLOCK_COMMENT := by
  simp only [stringLiteral] at h
  cases h1 : accumulateWhile isStringChar fuel (advance s) [] with
  | none => simp [h1] at h
  | some r1 =>
    obtain ⟨result, s2⟩ := r1
    rw [h1] at h
    simp only at h
    split_ifs at h with hc <;>
    · simp only [Option.some.injEq, Prod.mk.injEq] at h
      rw [← h.1]
      exact ⟨fun e => Lexeme.noConfusion e, fun e => Lexeme.noConfusion e⟩

theorem operatorOrPunctuation_type_comment (s : Lexer) :
    (operatorOrPunctuation s).1.type ≠ Lexeme.LINE_COMMENT ∧
    (operatorOrPunctuation s).1.type ≠ Lexeme.BLOCK_COMMENT := by
  by_cases hm : s.currentChar ∈ [62, 60, 58]
  · simp only [List.mem_cons, List.mem_singleton, List.not_mem_nil, or_false] at hm
    rcases hm with h | h | h
    · by_cases e : (advance s).currentChar = 61 <;> simp [operatorOrPunctuation, h, e]
    · by_cases e : (advance s).currentChar = 61
      · simp [operatorOrPunctuation, h, e]
      · by_cases e2 : (advance s).currentChar = 62 <;> simp [operatorOrPunctuation, h, e, e2]
    · by_cases e : (advance s).currentChar = 61 <;> simp [operatorOrPunctuation, h, e]
  · simp only [List.mem_cons, List.mem_singleton, List.not_mem_nil, or_false, not_or] at hm
    by_cases hm2 : s.currentChar ∈ [42, 43, 45, 47, 59, 44, 40, 41, 91, 93, 61, 46]
    · simp only [List.mem_cons, List.mem_singleton, List.not_mem_nil, or_false] at hm2
      rcases hm2 with h | h | h | h | h | h | h | h | h | h | h | h <;>
        simp [operatorOrPunctuation, h]
    · simp only [List.mem_cons, List.mem_singleton, List.not_mem_nil, or_false, not_or] at hm2
      simp [operatorOrPunctuation, hm, hm2]

theorem nextToken_type_comment :
    ∀ (fuel : Nat) (s s1 : Lexer) (t : Token), nextToken fuel s = some (t, s1) →
      t.type ≠ Lexeme.LINE_COMMENT ∧ t.type ≠ Lexeme.BLOCK_COMMENT := by
  intro fuel
  induction fuel with
  | zero => intro s s1 t h; simp [nextToken] at h
  | succ n ih =>
    intro s s1 t h
    rw [nextToken] at h
    split_ifs at h with c0 c1 c2 c3 c4 c5 c6
    · cases h1 : skipWhitespace n s with
      | none => simp [h1] at h
      | some s2 =>
        rw [h1] at h
        exact ih _ _ _ h
    · exact number_type_comment h
    · exact identifier_type_comment h
    · exact stringLiteral_type_comment h
    · cases h1 : skipLineComment n s with
      | none => simp [h1] at h
      | some s2 =>
        rw [h1] at h
        exact ih _ _ _ h
    · cases h1 : skipBlockComment n s with
      | none => simp [h1] at h
      | some r1 =>
        obtain ⟨b, s2⟩ := r1
        rw [h1] at h
        cases b with
        | true => exact ih _ _ _ h
        | false =>
          simp only [Option.some.injEq, Prod.mk.injEq] at h
          rw [← h.1]
          exact ⟨fun e => Lexeme.noConfusion e, fun e => Lexeme.noConfusion e⟩
    · simp only [Option.some.injEq] at h
      have := operatorOrPunctuation_type_comment s
      rw [h] at this
      exact this
    · simp only [Option.some.injEq, Prod.mk.injEq] at h
      rw [← h.1]
      exact ⟨fun e => Lexeme.noConfusion e, fun e => Lexeme.noConfusion e⟩

/-! ## The claims, continued -/

/-- C17 (amended): in every lexer state reachable from the constructor by calls of
`nextToken`, the buffer is the input, the tracked line is the `int` value of one more than
the number of newlines in the consumed prefix `input[0..pos)` and the tracked column the
`int` value of the number of characters of that prefix after its last newline (the length of
the prefix when it has none); whenever such a count is below 2147483648, and so whenever
the input has fewer than 2147483647 characters, the tracked value is the count itself, so
`line ≥ 1` and `column ≥ 0`. -/
theorem tracked_position (input : List Nat) (s : Lexer) (hr : Reachable input s) :
    s.text = input ∧ s.pos ≤ input.length ∧
    s.line = wrapInt ((1 + (input.take s.pos).count 10 : Nat) : Int) ∧
    s.column
      = wrapInt ((((input.take s.pos).reverse.takeWhile (fun c => c != 10)).length : Nat) : Int) ∧
    (1 + (input.take s.pos).count 10 < 2147483648 →
      s.line = ((1 + (input.take s.pos).count 10 : Nat) : Int) ∧ 1 ≤ s.line) ∧
    (((input.take s.pos).reverse.takeWhile (fun c => c != 10)).length < 2147483648 →
      s.column = ((((input.take s.pos).reverse.takeWhile (fun c => c != 10)).length : Nat) : Int) ∧
      (10 ∉ input.take s.pos → s.column = (s.pos : Int)) ∧ 0 ≤ s.column) ∧
    (input.length < 2147483647 →
      s.line = ((1 + (input.take s.pos).count 10 : Nat) : Int) ∧
      s.column = ((((input.take s.pos).reverse.takeWhile (fun c => c != 10)).length : Nat) : Int) ∧
      1 ≤ s.line ∧ 0 ≤ s.column) := by
  obtain ⟨p, hp, rfl⟩ := reachable_stateAt hr
  have hline : 1 + (input.take p).count 10 < 2147483648 →
      (stateAt input p).line = ((1 + (input.take p).count 10 : Nat) : Int) ∧
        1 ≤ (stateAt input p).line := by
    intro h
    have e : (stateAt input p).line = ((1 + (input.take p).count 10 : Nat) : Int) :=
      wrapInt_of_lt h
    refine ⟨e, ?_⟩
    rw [e]
    omega
  have hcol : ((input.take p).reverse.takeWhile (fun c => c != 10)).length < 2147483648 →
      (stateAt input p).column
        = ((((input.take p).reverse.takeWhile (fun c => c != 10)).length : Nat) : Int) ∧
      (10 ∉ input.take p → (stateAt input p).column = (p : Int)) ∧
      0 ≤ (stateAt input p).column := by
    intro h
    have e : (stateAt input p).column
        = ((((input.take p).reverse.takeWhile (fun c => c != 10)).length : Nat) : Int) :=
      wrapInt_of_lt h
    refine ⟨e, ?_, ?_⟩
    · intro hno
      rw [e]
      exact congrArg Nat.cast (colAt_of_no_newline hno hp)
    · rw [e]
      omega
  refine ⟨rfl, hp, rfl, rfl, hline, hcol, ?_⟩
  intro hsmall
  have h1 := lineAt_le input p
  have h2 := colAt_le input p
  unfold lineAt at h1
  unfold colAt at h2
  obtain ⟨e1, e2⟩ := hline (by omega)
  obtain ⟨e3, _, e4⟩ := hcol (by omega)
  exact ⟨e1, e3, e2, e4⟩

/-- Witness of C17 (amended) on the input `"a\n b"`, in the state after the first call of
`nextToken`. -/
theorem tracked_position_witness :
    (stateAt (bytes "a\n b") 1).text = bytes "a\n b" ∧
    (stateAt (bytes "a\n b") 1).pos ≤ (bytes "a\n b").length ∧
    (stateAt (bytes "a\n b") 1).line
      = wrapInt ((1 + ((bytes "a\n b").take (stateAt (bytes "a\n b") 1).pos).count 10 : Nat) : Int) ∧
    (stateAt (bytes "a\n b") 1).column
      = wrapInt (((((bytes "a\n b").take (stateAt (bytes "a\n b") 1).pos).reverse.takeWhile
          (fun c => c != 10)).length : Nat) : Int) ∧
    (1 + ((bytes "a\n b").take (stateAt (bytes "a\n b") 1).pos).count 10 < 2147483648 →
      (stateAt (bytes "a\n b") 1).line
        = ((1 + ((bytes "a\n b").take (stateAt (bytes "a\n b") 1).pos).count 10 : Nat) : Int) ∧
      1 ≤ (stateAt (bytes "a\n b") 1).line) ∧
    ((((bytes "a\n b").take (stateAt (bytes "a\n b") 1).pos).reverse.takeWhile
        (fun c => c != 10)).length < 2147483648 →
      (stateAt (bytes "a\n b") 1).column
        = (((((bytes "a\n b").take (stateAt (bytes "a\n b") 1).pos).reverse.takeWhile
            (fun c => c != 10)).length : Nat) : Int) ∧
      (10 ∉ (bytes "a\n b").take (stateAt (bytes "a\n b") 1).pos →
        (stateAt (bytes "a\n b") 1).column = ((stateAt (bytes "a\n b") 1).pos : Int)) ∧
      0 ≤ (stateAt (bytes "a\n b") 1).column) ∧
    ((bytes "a\n b").length < 2147483647 →
      (stateAt (bytes "a\n b") 1).line
        = ((1 + ((bytes "a\n b").take (stateAt (bytes "a\n b") 1).pos).count 10 : Nat) : Int) ∧
      (stateAt (bytes "a\n b") 1).column
        = (((((bytes "a\n b").take (stateAt (bytes "a\n b") 1).pos).reverse.takeWhile
            (fun c => c != 10)).length : Nat) : Int) ∧
      1 ≤ (stateAt (bytes "a\n b") 1).line ∧ 0 ≤ (stateAt (bytes "a\n b") 1).column) :=
  tracked_position (bytes "a\n b") (stateAt (bytes "a\n b") 1)
    (Reachable.next 6 (Lexer.init (bytes "a\n b")) (stateAt (bytes "a\n b") 1)
      ⟨Lexeme.IDENTIFIER, bytes "a", ⟨1, 0⟩⟩ Reachable.init (by decide!))

/-- C18: for every input, no token in the output of `tokenize` has kind `LINE_COMMENT` or
`BLOCK_COMMENT`. -/
theorem no_comment_token (input : List Nat) (k : Nat) :
    ∃ toks, tokenize (input.length + 3 + k) input = some toks ∧
      ∀ t ∈ toks, t.type ≠ Lexeme.LINE_COMMENT ∧ t.type ≠ Lexeme.BLOCK_COMMENT := by
  obtain ⟨ts, hrun, _, htok⟩ := tokenize_run input
  refine ⟨ts, htok k, ?_⟩
  intro t ht
  obtain ⟨p1, q, _, _, hsc⟩ := run_mem hrun (Nat.zero_le _) t ht
  exact nextToken_type_comment _ _ _ _ (hsc.2.2 _ (le_refl _))

/-! ## Results that do not depend on the fuel -/

theorem tokenizeLoop_succ :
    ∀ (fuel : Nat) (s : Lexer) (acc r : List Token),
      tokenizeLoop fuel s acc = some r → tokenizeLoop (fuel + 1) s acc = some r := by
  intro fuel
  induction fuel with
  | zero => intro s acc r h; simp [tokenizeLoop] at h
  | succ n ih =>
    intro s acc r h
    rw [tokenizeLoop] at h
    rw [tokenizeLoop]
    cases h1 : nextToken n s with
    | none => simp [h1] at h
    | some r1 =>
      obtain ⟨t, s1⟩ := r1
      rw [nextToken_succ n s _ h1]
      rw [h1] at h
      simp only at h ⊢
      split_ifs at h ⊢ with hc
      · exact ih _ _ _ h
      · exact h

theorem tokenizeLoop_mono {fuel fuel2 : Nat} {s : Lexer} {acc r : List Token}
    (hle : fuel ≤ fuel2) (h : tokenizeLoop fuel s acc = some r) :
    tokenizeLoop fuel2 s acc = some r := by
  induction hle with
  | refl => exact h
  | step _ ih => exact tokenizeLoop_succ _ _ _ _ ih

theorem tokenize_fuel {fuel : Nat} {input : List Nat} {ts : List Token}
    (h : tokenize fuel input = some ts) (k : Nat) :
    tokenize (input.length + 3 + k) input = some ts := by
  obtain ⟨ts2, _, _, htok⟩ := tokenize_run input
  have e1 := htok (k + fuel)
  have e2 : tokenize (input.length + 3 + (k + fuel)) input = some ts :=
    tokenizeLoop_mono (by omega) h
  rw [e1] at e2
  rw [htok k, e2]

theorem locAt_no_newline {text : List Nat} (h : 10 ∉ text) (p : Nat) (hp : p ≤ text.length) :
    locAt text p = ⟨1, wrapInt p⟩ := by
  have hno : 10 ∉ text.take p := fun hm => h (List.mem_of_mem_take hm)
  have hall : (text.take p).reverse.takeWhile (fun c => c != 10) = (text.take p).reverse := by
    rw [List.takeWhile_eq_self_iff]
    intro x hx
    have hx2 : x ∈ text.take p := List.mem_reverse.mp hx
    have : x ≠ 10 := fun e => hno (e ▸ hx2)
    simpa using this
  have hcount : (text.take p).count 10 = 0 := List.count_eq_zero.mpr hno
  simp only [locAt, lineAt, colAt, hall, hcount, List.length_reverse, List.length_take]
  rw [Nat.min_eq_left hp]
  simp [wrapInt_one]

/-! ## Operators and strings at a cursor -/

theorem operatorOrPunctuation_bad (s : Lexer)
    (h : s.currentChar ∉ [42, 43, 45, 47, 59, 44, 40, 41, 91, 93, 61, 62, 60, 58, 46]) :
    operatorOrPunctuation s = (⟨Lexeme.BAD, [s.currentChar], ⟨s.line, s.column⟩⟩, advance s) := by
  simp only [List.mem_cons, List.mem_singleton, List.not_mem_nil, or_false, not_or] at h
  simp [operatorOrPunctuation, h]

theorem nextToken_operator (text : List Nat) (p fuel : Nat) (h0 : charAt text p ≠ 0)
    (hsp : isspace (charAt text p) = false) (hd : isdigit (charAt text p) = false)
    (ha : isalpha (charAt text p) = false) (hu : charAt text p ≠ 95)
    (hq : charAt text p ≠ 39) (hb : charAt text p ≠ 123)
    (hs : ¬ (charAt text p = 47 ∧ charAt text (p + 1) = 47)) :
    nextToken (fuel + 1) (stateAt text p) = some (operatorOrPunctuation (stateAt text p)) := by
  have hst : atTokenStart (stateAt text p) := by
    refine ⟨hsp, ?_, hb⟩
    rw [peek_stateAt]
    exact hs
  rw [nextToken_tokenStart text p fuel hst h0, if_neg (by rw [hd]; exact Bool.false_ne_true),
    if_neg (by rw [ha]; simp [hu]), if_neg hq]

theorem scanned_of_nextToken {text : List Nat} {p q : Nat} {t : Token} (hpq : p ≤ q)
    (hq : q ≤ text.length)
    (h : ∀ fuel, nextToken (fuel + 1) (stateAt text p) = some (t, stateAt text q)) :
    Scanned text p t q := by
  refine ⟨hpq, hq, ?_⟩
  intro fuel hf
  obtain ⟨f, rfl⟩ : ∃ f, fuel = f + 1 := ⟨fuel - 1, by omega⟩
  exact h f

theorem scanned_string (text : List Nat) (p : Nat) (hp : p < text.length)
    (hq : charAt text p = 39) :
    Scanned text p
      (if charAt text (scanEnd isStringChar text (p + 1)) = 39 then
        ⟨Lexeme.STRING, slice text (p + 1) (scanEnd isStringChar text (p + 1)), locAt text p⟩
       else ⟨Lexeme.BAD, slice text (p + 1) (scanEnd isStringChar text (p + 1)), locAt text p⟩)
      (if charAt text (scanEnd isStringChar text (p + 1)) = 39 then
        scanEnd isStringChar text (p + 1) + 1
       else scanEnd isStringChar text (p + 1)) := by
  have hcc : (stateAt text p).currentChar = charAt text p := rfl
  have h0 : charAt text p ≠ 0 := by rw [hq]; decide
  have hs : atTokenStart (stateAt text p) := by
    refine ⟨?_, ?_, ?_⟩ <;> rw [hcc, hq]
    · decide
    · exact fun h => absurd h.1 (by decide)
    · decide
  have h1 := le_scanEnd isStringChar text (p + 1)
  have h2 := scanEnd_le isStringChar (Nat.succ_le_of_lt hp)
  have key : ∀ fuel, text.length - p + 2 ≤ fuel →
      nextToken fuel (stateAt text p) = stringLiteral (fuel - 1) (stateAt text p) := by
    intro fuel hf
    obtain ⟨f, rfl⟩ : ∃ f, fuel = f + 1 := ⟨fuel - 1, by omega⟩
    rw [nextToken_tokenStart text p f hs h0, hq]
    rfl
  by_cases hclose : charAt text (scanEnd isStringChar text (p + 1)) = 39
  · have hlt2 : scanEnd isStringChar text (p + 1) < text.length :=
      lt_of_charAt_ne_zero (by rw [hclose]; decide)
    simp only [if_pos hclose]
    refine ⟨by omega, hlt2, ?_⟩
    intro fuel hf
    rw [key fuel hf, stringLiteral_stateAt text (fuel - 1) p hp (by omega), if_pos hclose]
  · simp only [if_neg hclose]
    refine ⟨by omega, h2, ?_⟩
    intro fuel hf
    rw [key fuel hf, stringLiteral_stateAt text (fuel - 1) p hp (by omega), if_neg hclose]

theorem takeWhile_append_stop (cond : Nat → Bool) (mid post : List Nat)
    (hmid : ∀ x ∈ mid, cond x = true) (hpost : ∀ y, post.head? = some y → cond y = false) :
    (mid ++ post).takeWhile cond = mid := by
  induction mid with
  | nil =>
    cases post with
    | nil => rfl
    | cons y ys => simp [List.takeWhile_cons, hpost y rfl]
  | cons a l ih =>
    have ha : cond a = true := hmid a (List.mem_cons_self a l)
    simp only [List.cons_append, List.takeWhile_cons, ha, if_true]
    rw [ih (fun x hx => hmid x (List.mem_cons_of_mem a hx))]

theorem scanEnd_append (cond : Nat → Bool) (pre mid post : List Nat)
    (hmid : ∀ x ∈ mid, cond x = true) (hpost : ∀ y, post.head? = some y → cond y = false) :
    scanEnd cond (pre ++ (mid ++ post)) pre.length = pre.length + mid.length := by
  unfold scanEnd
  rw [List.drop_left, takeWhile_append_stop cond mid post hmid hpost]

theorem slice_append_mid (pre mid post : List Nat) :
    slice (pre ++ (mid ++ post)) pre.length (pre.length + mid.length) = mid := by
  unfold slice
  rw [List.drop_left, Nat.add_sub_cancel_left, List.take_left]

theorem charAt_append_right (pre rest : List Nat) (i : Nat) :
    charAt (pre ++ rest) (pre.length + i) = charAt rest i := by
  rw [charAt_eq_head_drop, charAt_eq_head_drop, ← List.drop_drop, List.drop_left]

/-- C11: for every string `s` without single quote, newline and code 0, `tokenize` of
`'s'` is exactly the `STRING` token with lexeme `s` followed by `END_OF_FILE`, and `tokenize`
of `'s` (no closing quote) is exactly the `BAD` token with lexeme `s` followed by
`END_OF_FILE`; in both cases the first token is at line 1, column 0 (and `END_OF_FILE` at
line 1 and the column of the end of the buffer, as an `int`). -/
theorem string_literal_tokens (s : List Nat) (h1 : 39 ∉ s) (h2 : 10 ∉ s) (h3 : 0 ∉ s)
    (k : Nat) :
    tokenize ((39 :: (s ++ [39])).length + 3 + k) (39 :: (s ++ [39]))
      = some [⟨Lexeme.STRING, s, ⟨1, 0⟩⟩,
              ⟨Lexeme.END_OF_FILE, [], ⟨1, wrapInt ((s.length + 2 : Nat) : Int)⟩⟩] ∧
    tokenize ((39 :: s).length + 3 + k) (39 :: s)
      = some [⟨Lexeme.BAD, s, ⟨1, 0⟩⟩,
              ⟨Lexeme.END_OF_FILE, [], ⟨1, wrapInt ((s.length + 1 : Nat) : Int)⟩⟩] := by
  have hmid : ∀ x ∈ s, isStringChar x = true := by
    intro x hx
    have a1 : x ≠ 39 := fun e => h1 (e ▸ hx)
    have a2 : x ≠ 10 := fun e => h2 (e ▸ hx)
    have a3 : x ≠ 0 := fun e => h3 (e ▸ hx)
    simp [isStringChar, a1, a2, a3]
  constructor
  · have hE : scanEnd isStringChar (39 :: (s ++ [39])) (0 + 1) = 1 + s.length := by
      have := scanEnd_append isStringChar [39] s [39] hmid
        (by intro y hy; simp at hy; rw [← hy]; decide)
      simpa using this
    have hsl : slice (39 :: (s ++ [39])) (0 + 1) (1 + s.length) = s := by
      have := slice_append_mid [39] s [39]
      simpa using this
    have hch : charAt (39 :: (s ++ [39])) (1 + s.length) = 39 := by
      have := charAt_append_right ([39] ++ s) [39] 0
      have e0 : charAt [39] 0 = 39 := rfl
      rw [e0] at this
      have e1 : ([39] ++ s).length + 0 = 1 + s.length := by simp; omega
      rw [e1] at this
      simpa [List.append_assoc] using this
    have hsc := scanned_string (39 :: (s ++ [39])) 0 (by simp) rfl
    rw [hE, if_pos hch, if_pos hch, hsl, locAt_zero] at hsc
    obtain ⟨ts, hrun, _, htok⟩ := tokenize_run (39 :: (s ++ [39]))
    obtain ⟨ts1, rfl, hrun1⟩ := run_cons hsc (fun e => Lexeme.noConfusion e) hrun
    have hlen : (39 :: (s ++ [39])).length = 1 + s.length + 1 := by simp; omega
    have hnl : 10 ∉ (39 :: (s ++ [39])) := by
      simp only [List.mem_cons, List.mem_append, List.mem_singleton, List.not_mem_nil,
        or_false, not_or]
      exact ⟨by decide, h2, by decide⟩
    rw [← hlen] at hrun1
    rw [run_eof (le_refl _) (charAt_of_le (le_refl _)) hrun1,
      locAt_no_newline hnl _ (le_refl _)] at htok
    rw [htok k, hlen]
    have e : 1 + s.length + 1 = s.length + 2 := by omega
    rw [e]
  · have hE : scanEnd isStringChar (39 :: s) (0 + 1) = 1 + s.length := by
      have := scanEnd_append isStringChar [39] s [] hmid (by intro y hy; simp at hy)
      simpa using this
    have hsl : slice (39 :: s) (0 + 1) (1 + s.length) = s := by
      have := slice_append_mid [39] s []
      simpa using this
    have hlen : (39 :: s).length = 1 + s.length := by simp; omega
    have hch : ¬ charAt (39 :: s) (1 + s.length) = 39 := by
      rw [charAt_of_le (by rw [hlen])]
      decide
    have hsc := scanned_string (39 :: s) 0 (by simp) rfl
    rw [hE, if_neg hch, if_neg hch, hsl, locAt_zero] at hsc
    obtain ⟨ts, hrun, _, htok⟩ := tokenize_run (39 :: s)
    obtain ⟨ts1, rfl, hrun1⟩ := run_cons hsc (fun e => Lexeme.noConfusion e) hrun
    have hnl : 10 ∉ (39 :: s) := by
      simp only [List.mem_cons, not_or]
      exact ⟨by decide, h2⟩
    rw [← hlen] at hrun1
    rw [run_eof (le_refl _) (charAt_of_le (le_refl _)) hrun1,
      locAt_no_newline hnl _ (le_refl _)] at htok
    rw [htok k, hlen]
    have e : 1 + s.length = s.length + 1 := by omega
    rw [e]

/-- Witness of C11 on the string `abc`: the inputs `'abc'` and `'abc`. -/
theorem string_literal_tokens_witness :
    tokenize ((39 :: (bytes "abc" ++ [39])).length + 3 + 0) (39 :: (bytes "abc" ++ [39]))
      = some [⟨Lexeme.STRING, bytes "abc", ⟨1, 0⟩⟩,
              ⟨Lexeme.END_OF_FILE, [],
                ⟨1, wrapInt (((bytes "abc").length + 2 : Nat) : Int)⟩⟩] ∧
    tokenize ((39 :: bytes "abc").length + 3 + 0) (39 :: bytes "abc")
      = some [⟨Lexeme.BAD, bytes "abc", ⟨1, 0⟩⟩,
              ⟨Lexeme.END_OF_FILE, [],
                ⟨1, wrapInt (((bytes "abc").length + 1 : Nat) : Int)⟩⟩] :=
  string_literal_tokens (bytes "abc") (by decide) (by decide) (by decide) 0

/-! ## The first token of an input -/

theorem first_token_of_scanned {input : List Nat} {t : Token} {q : Nat}
    (hsc : Scanned input 0 t q) (hty : t.type ≠ Lexeme.END_OF_FILE) (k : Nat) :
    ∃ more, tokenize (input.length + 3 + k) input = some (t :: more) := by
  obtain ⟨ts, hrun, _, htok⟩ := tokenize_run input
  obtain ⟨ts1, rfl, _⟩ := run_cons hsc hty hrun
  exact ⟨ts1, htok k⟩

theorem charAt_cons_one (c : Nat) (rest : List Nat) :
    charAt (c :: rest) 1 = (rest.head?).getD 0 := by
  cases rest <;> rfl

theorem scanned_one_char_operator (c : Nat) (rest : List Nat) (kind : Lexeme)
    (lex : List Nat) (hsp : isspace c = false) (hd : isdigit c = false)
    (ha : isalpha c = false) (h0 : c ≠ 0) (hu : c ≠ 95) (hq : c ≠ 39) (hb : c ≠ 123)
    (hs : c ≠ 47)
    (hop : operatorOrPunctuation (stateAt (c :: rest) 0)
      = (⟨kind, lex, ⟨(stateAt (c :: rest) 0).line, (stateAt (c :: rest) 0).column⟩⟩,
          advance (stateAt (c :: rest) 0))) :
    Scanned (c :: rest) 0 ⟨kind, lex, ⟨1, 0⟩⟩ 1 := by
  have hc : charAt (c :: rest) 0 = c := rfl
  refine scanned_of_nextToken (Nat.zero_le _) (by simp) ?_
  intro fuel
  rw [nextToken_operator (c :: rest) 0 fuel (by rw [hc]; exact h0) (by rw [hc]; exact hsp)
    (by rw [hc]; exact hd) (by rw [hc]; exact ha) (by rw [hc]; exact hu)
    (by rw [hc]; exact hq) (by rw [hc]; exact hb) (by rw [hc]; exact fun h => hs h.1),
    hop, advance_stateAt (by simp)]
  have e : (⟨(stateAt (c :: rest) 0).line, (stateAt (c :: rest) 0).column⟩ : Position)
      = ⟨1, 0⟩ := locAt_zero (c :: rest)
  rw [e]

/-- C14: each of the inputs `:`, `:=`, `<`, `<=`, `<>`, `>`, `>=` is exactly one token, of
kind `COLON`, `ASSIGN`, `LESS`, `LESS_EQ`, `NOT_EQ`, `GREATER`, `GREATER_EQ` and with the
whole input as lexeme, followed by `END_OF_FILE`; and the first token of an input that starts
with `:` or `>` and does not continue with `=`, or starts with `<` and continues with neither
`=` nor `>`, is the one-character `COLON`, `GREATER` or `LESS`. -/
theorem operator_lookahead :
    (∀ k, tokenize ((bytes ":").length + 3 + k) (bytes ":")
      = some [⟨Lexeme.COLON, bytes ":", ⟨1, 0⟩⟩, ⟨Lexeme.END_OF_FILE, [], ⟨1, 1⟩⟩]) ∧
    (∀ k, tokenize ((bytes ":=").length + 3 + k) (bytes ":=")
      = some [⟨Lexeme.ASSIGN, bytes ":=", ⟨1, 0⟩⟩, ⟨Lexeme.END_OF_FILE, [], ⟨1, 2⟩⟩]) ∧
    (∀ k, tokenize ((bytes "<").length + 3 + k) (bytes "<")
      = some [⟨Lexeme.LESS, bytes "<", ⟨1, 0⟩⟩, ⟨Lexeme.END_OF_FILE, [], ⟨1, 1⟩⟩]) ∧
    (∀ k, tokenize ((bytes "<=").length + 3 + k) (bytes "<=")
      = some [⟨Lexeme.LESS_EQ, bytes "<=", ⟨1, 0⟩⟩, ⟨Lexeme.END_OF_FILE, [], ⟨1, 2⟩⟩]) ∧
    (∀ k, tokenize ((bytes "<>").length + 3 + k) (bytes "<>")
      = some [⟨Lexeme.NOT_EQ, bytes "<>", ⟨1, 0⟩⟩, ⟨Lexeme.END_OF_FILE, [], ⟨1, 2⟩⟩]) ∧
    (∀ k, tokenize ((bytes ">").length + 3 + k) (bytes ">")
      = some [⟨Lexeme.GREATER, bytes ">", ⟨1, 0⟩⟩, ⟨Lexeme.END_OF_FILE, [], ⟨1, 1⟩⟩]) ∧
    (∀ k, tokenize ((bytes ">=").length + 3 + k) (bytes ">=")
      = some [⟨Lexeme.GREATER_EQ, bytes ">=", ⟨1, 0⟩⟩, ⟨Lexeme.END_OF_FILE, [], ⟨1, 2⟩⟩]) ∧
    (∀ rest k, rest.head? ≠ some 61 →
      ∃ more, tokenize ((58 :: rest).length + 3 + k) (58 :: rest)
        = some (⟨Lexeme.COLON, bytes ":", ⟨1, 0⟩⟩ :: more)) ∧
    (∀ rest k, rest.head? ≠ some 61 →
      ∃ more, tokenize ((62 :: rest).length + 3 + k) (62 :: rest)
        = some (⟨Lexeme.GREATER, bytes ">", ⟨1, 0⟩⟩ :: more)) ∧
    (∀ rest k, rest.head? ≠ some 61 → rest.head? ≠ some 62 →
      ∃ more, tokenize ((60 :: rest).length + 3 + k) (60 :: rest)
        = some (⟨Lexeme.LESS, bytes "<", ⟨1, 0⟩⟩ :: more)) := by
  have hnext : ∀ (c : Nat) (rest : List Nat) (x : Nat), rest.head? ≠ some x → x ≠ 0 →
      ¬ (advance (stateAt (c :: rest) 0)).currentChar = x := by
    intro c rest x hx hx0
    rw [advance_stateAt (by simp)]
    show ¬ charAt (c :: rest) 1 = x
    rw [charAt_cons_one]
    cases hr : rest.head? with
    | none => exact fun e => hx0 e.symm
    | some y =>
      rw [hr] at hx
      exact fun e => hx (congrArg some e)
  refine ⟨fun k => @tokenize_fuel 5 _ _ (by decide!) k,
    fun k => @tokenize_fuel 5 _ _ (by decide!) k,
    fun k => @tokenize_fuel 5 _ _ (by decide!) k,
    fun k => @tokenize_fuel 5 _ _ (by decide!) k,
    fun k => @tokenize_fuel 5 _ _ (by decide!) k,
    fun k => @tokenize_fuel 5 _ _ (by decide!) k,
    fun k => @tokenize_fuel 5 _ _ (by decide!) k, ?_, ?_, ?_⟩
  · intro rest k h
    have hc : (stateAt (58 :: rest) 0).currentChar = 58 := rfl
    have e := hnext 58 rest 61 h (by decide)
    exact first_token_of_scanned
      (scanned_one_char_operator 58 rest Lexeme.COLON (bytes ":") (by decide) (by decide)
        (by decide) (by decide) (by decide) (by decide) (by decide) (by decide)
        (by simp [operatorOrPunctuation, hc, e]))
      (fun e => Lexeme.noConfusion e) k
  · intro rest k h
    have hc : (stateAt (62 :: rest) 0).currentChar = 62 := rfl
    have e := hnext 62 rest 61 h (by decide)
    exact first_token_of_scanned
      (scanned_one_char_operator 62 rest Lexeme.GREATER (bytes ">") (by decide) (by decide)
        (by decide) (by decide) (by decide) (by decide) (by decide) (by decide)
        (by simp [operatorOrPunctuation, hc, e]))
      (fun e => Lexeme.noConfusion e) k
  · intro rest k h h2
    have hc : (stateAt (60 :: rest) 0).currentChar = 60 := rfl
    have e := hnext 60 rest 61 h (by decide)
    have e2 := hnext 60 rest 62 h2 (by decide)
    exact first_token_of_scanned
      (scanned_one_char_operator 60 rest Lexeme.LESS (bytes "<") (by decide) (by decide)
        (by decide) (by decide) (by decide) (by decide) (by decide) (by decide)
        (by simp [operatorOrPunctuation, hc, e, e2]))
      (fun e => Lexeme.noConfusion e) k

/-- Witness of C14 on the input `<-`: its first token is the one-character `LESS`. -/
theorem operator_lookahead_witness :
    ∃ more, tokenize ((60 :: bytes "-").length + 3 + 0) (60 :: bytes "-")
      = some (⟨Lexeme.LESS, bytes "<", ⟨1, 0⟩⟩ :: more) :=
  operator_lookahead.2.2.2.2.2.2.2.2.2 (bytes "-") 0 (by decide) (by decide)

/-- C15: for every character `c` that is not whitespace, digit, letter, underscore, single
quote, `'{'` or code 0 and is none of the table characters `* + - / ; , ( ) [ ] = > < : .`,
`tokenize` of the one-character input `c` is exactly the `BAD` token with lexeme `c` at
line 1, column 0, followed by `END_OF_FILE`. -/
theorem unknown_character_is_bad (c : Nat) (k : Nat)
    (hsp : isspace c = false) (hd : isdigit c = false) (ha : isalpha c = false)
    (hu : c ≠ 95) (hq : c ≠ 39) (hb : c ≠ 123) (h0 : c ≠ 0)
    (ht : c ∉ [42, 43, 45, 47, 59, 44, 40, 41, 91, 93, 61, 62, 60, 58, 46]) :
    tokenize ([c].length + 3 + k) [c]
      = some [⟨Lexeme.BAD, [c], ⟨1, 0⟩⟩, ⟨Lexeme.END_OF_FILE, [], ⟨1, 1⟩⟩] := by
  have hs : c ≠ 47 := fun e => ht (by rw [e]; decide)
  have hnl : 10 ∉ [c] := by
    intro h
    rw [List.mem_singleton] at h
    rw [← h] at hsp
    exact absurd hsp (by decide)
  have hsc := scanned_one_char_operator c [] Lexeme.BAD [c] hsp hd ha h0 hu hq hb hs
    (operatorOrPunctuation_bad (stateAt [c] 0) ht)
  obtain ⟨ts, hrun, _, htok⟩ := tokenize_run [c]
  obtain ⟨ts1, rfl, hrun1⟩ := run_cons hsc (fun e => Lexeme.noConfusion e) hrun
  have hone : (1 : Nat) ≤ [c].length := le_refl _
  rw [run_eof hone (charAt_of_le hone) hrun1, locAt_no_newline hnl 1 hone, Nat.cast_one,
    wrapInt_one] at htok
  exact htok k

/-- Witness of C15 on the inputs `@` and, for a stray closing brace, `}`. -/
theorem unknown_character_is_bad_witness :
    tokenize ([64].length + 3 + 0) [64]
      = some [⟨Lexeme.BAD, [64], ⟨1, 0⟩⟩, ⟨Lexeme.END_OF_FILE, [], ⟨1, 1⟩⟩] ∧
    tokenize ([125].length + 3 + 0) [125]
      = some [⟨Lexeme.BAD, [125], ⟨1, 0⟩⟩, ⟨Lexeme.END_OF_FILE, [], ⟨1, 1⟩⟩] :=
  ⟨unknown_character_is_bad 64 0 (by decide) (by decide) (by decide) (by decide) (by decide)
      (by decide) (by decide) (by decide),
   unknown_character_is_bad 125 0 (by decide) (by decide) (by decide) (by decide) (by decide)
      (by decide) (by decide) (by decide)⟩

/-! ## Scanning behind a prefix -/

theorem shifted_lt {pre : List Nat} {rel : Position → Position → Prop} {s1 s2 : Lexer}
    (h : Shifted pre rel s1 s2) : s2.pos < s2.text.length ↔ s1.pos < s1.text.length := by
  obtain ⟨ht, hp, _, _⟩ := h
  rw [ht, hp, List.length_append]
  omega

theorem shifted_charAt {pre : List Nat} {rel : Position → Position → Prop} {s1 s2 : Lexer}
    (h : Shifted pre rel s1 s2) (i : Nat) :
    charAt s2.text (s2.pos + i) = charAt s1.text (s1.pos + i) := by
  obtain ⟨ht, hp, _, _⟩ := h
  rw [ht, hp, Nat.add_assoc, charAt_append_right]

theorem advance_shifted {pre : List Nat} {rel : Position → Position → Prop}
    (hrel : StepClosed rel) {s1 s2 : Lexer} (h : Shifted pre rel s1 s2) :
    Shifted pre rel (advance s1) (advance s2) := by
  have hch := shifted_charAt h 1
  obtain ⟨ht, hp, hc, hr⟩ := h
  refine ⟨ht, ?_, ?_, ?_⟩
  · show s2.pos + 1 = pre.length + (s1.pos + 1)
    omega
  · show (if s2.pos + 1 < s2.text.length then charAt s2.text (s2.pos + 1) else 0)
      = (if s1.pos + 1 < s1.text.length then charAt s1.text (s1.pos + 1) else 0)
    rw [hch]
    have e : s2.pos + 1 < s2.text.length ↔ s1.pos + 1 < s1.text.length := by
      rw [ht, hp, List.length_append]
      omega
    by_cases hlt : s1.pos + 1 < s1.text.length
    · rw [if_pos hlt, if_pos (e.mpr hlt)]
    · rw [if_neg hlt, if_neg (fun h2 => hlt (e.mp h2))]
  · show rel ⟨if s1.currentChar = 10 then wrapInt (s1.line + 1) else s1.line,
        if s1.currentChar = 10 then 0 else wrapInt (s1.column + 1)⟩
      ⟨if s2.currentChar = 10 then wrapInt (s2.line + 1) else s2.line,
        if s2.currentChar = 10 then 0 else wrapInt (s2.column + 1)⟩
    rw [hc]
    by_cases hn : s1.currentChar = 10
    · simp only [if_pos hn]
      exact (hrel _ _ _ _ hr).1
    · simp only [if_neg hn]
      exact (hrel _ _ _ _ hr).2

theorem peek_shifted {pre : List Nat} {rel : Position → Position → Prop} {s1 s2 : Lexer}
    (h : Shifted pre rel s1 s2) : peek s2 = peek s1 := by
  have hch := shifted_charAt h 1
  obtain ⟨ht, hp, _, _⟩ := h
  unfold peek
  rw [hch]
  have e : s2.pos + 1 < s2.text.length ↔ s1.pos + 1 < s1.text.length := by
    rw [ht, hp, List.length_append]
    omega
  by_cases hlt : s1.pos + 1 < s1.text.length
  · rw [if_pos hlt, if_pos (e.mpr hlt)]
  · rw [if_neg hlt, if_neg (fun h2 => hlt (e.mp h2))]

theorem skipWhitespace_shifted {pre : List Nat} {rel : Position → Position → Prop}
    (hrel : StepClosed rel) :
    ∀ (fuel : Nat) (s1 s2 r1 : Lexer), Shifted pre rel s1 s2 →
      skipWhitespace fuel s1 = some r1 →
      ∃ r2, skipWhitespace fuel s2 = some r2 ∧ Shifted pre rel r1 r2 := by
  intro fuel
  induction fuel with
  | zero => intro s1 s2 r1 _ h; simp [skipWhitespace] at h
  | succ n ih =>
    intro s1 s2 r1 hs h
    rw [skipWhitespace] at h
    rw [skipWhitespace, hs.2.2.1]
    split_ifs at h ⊢ with hc
    · exact ih _ _ _ (advance_shifted hrel hs) h
    · simp only [Option.some.injEq] at h
      exact ⟨s2, rfl, h ▸ hs⟩

theorem accumulateWhile_shifted {pre : List Nat} {rel : Position → Position → Prop}
    (hrel : StepClosed rel) (cond : Nat → Bool) :
    ∀ (fuel : Nat) (s1 s2 r1 : Lexer) (acc res : List Nat), Shifted pre rel s1 s2 →
      accumulateWhile cond fuel s1 acc = some (res, r1) →
      ∃ r2, accumulateWhile cond fuel s2 acc = some (res, r2) ∧ Shifted pre rel r1 r2 := by
  intro fuel
  induction fuel with
  | zero => intro s1 s2 r1 acc res _ h; simp [accumulateWhile] at h
  | succ n ih =>
    intro s1 s2 r1 acc res hs h
    rw [accumulateWhile] at h
    rw [accumulateWhile, hs.2.2.1]
    split_ifs at h ⊢ with hc
    · exact ih _ _ _ _ _ (advance_shifted hrel hs) h
    · simp only [Option.some.injEq, Prod.mk.injEq] at h
      exact ⟨s2, by rw [h.1], h.2 ▸ hs⟩

theorem skipLineCommentLoop_shifted {pre : List Nat} {rel : Position → Position → Prop}
    (hrel : StepClosed rel) :
    ∀ (fuel : Nat) (s1 s2 r1 : Lexer), Shifted pre rel s1 s2 →
      skipLineCommentLoop fuel s1 = some r1 →
      ∃ r2, skipLineCommentLoop fuel s2 = some r2 ∧ Shifted pre rel r1 r2 := by
  intro fuel
  induction fuel with
  | zero => intro s1 s2 r1 _ h; simp [skipLineCommentLoop] at h
  | succ n ih =>
    intro s1 s2 r1 hs h
    have hch := shifted_charAt hs 0
    simp only [Nat.add_zero] at hch
    rw [skipLineCommentLoop] at h
    rw [skipLineCommentLoop, hch]
    by_cases hc : s1.pos < s1.text.length ∧ charAt s1.text s1.pos ≠ 10
    · rw [if_pos hc] at h
      rw [if_pos ⟨(shifted_lt hs).mpr hc.1, hc.2⟩]
      exact ih _ _ _ (advance_shifted hrel hs) h
    · rw [if_neg hc] at h
      rw [if_neg (fun h2 => hc ⟨(shifted_lt hs).mp h2.1, h2.2⟩)]
      simp only [Option.some.injEq] at h
      exact ⟨s2, rfl, h ▸ hs⟩

theorem skipLineComment_shifted {pre : List Nat} {rel : Position → Position → Prop}
    (hrel : StepClosed rel) (fuel : Nat) (s1 s2 r1 : Lexer) (hs : Shifted pre rel s1 s2)
    (h : skipLineComment fuel s1 = some r1) :
    ∃ r2, skipLineComment fuel s2 = some r2 ∧ Shifted pre rel r1 r2 := by
  unfold skipLineComment at h ⊢
  cases h1 : skipLineCommentLoop fuel s1 with
  | none => simp [h1] at h
  | some m1 =>
    obtain ⟨m2, h2, hm⟩ := skipLineCommentLoop_shifted hrel fuel s1 s2 m1 hs h1
    rw [h1] at h
    rw [h2]
    simp only at h ⊢
    by_cases hc : m1.pos < m1.text.length
    · rw [if_pos hc] at h
      rw [if_pos ((shifted_lt hm).mpr hc)]
      simp only [Option.some.injEq] at h
      exact ⟨_, rfl, h ▸ advance_shifted hrel hm⟩
    · rw [if_neg hc] at h
      rw [if_neg (fun h3 => hc ((shifted_lt hm).mp h3))]
      simp only [Option.some.injEq] at h
      exact ⟨_, rfl, h ▸ hm⟩

theorem skipBlockCommentLoop_shifted {pre : List Nat} {rel : Position → Position → Prop}
    (hrel : StepClosed rel) :
    ∀ (fuel : Nat) (s1 s2 r1 : Lexer) (b : Bool), Shifted pre rel s1 s2 →
      skipBlockCommentLoop fuel s1 = some (b, r1) →
      ∃ r2, skipBlockCommentLoop fuel s2 = some (b, r2) ∧ Shifted pre rel r1 r2 := by
  intro fuel
  induction fuel with
  | zero => intro s1 s2 r1 b _ h; simp [skipBlockCommentLoop] at h
  | succ n ih =>
    intro s1 s2 r1 b hs h
    have hch := shifted_charAt hs 0
    simp only [Nat.add_zero] at hch
    rw [skipBlockCommentLoop] at h
    rw [skipBlockCommentLoop, hch]
    by_cases hc : s1.pos < s1.text.length
    · rw [if_pos hc] at h
      rw [if_pos ((shifted_lt hs).mpr hc)]
      by_cases hb : charAt s1.text s1.pos = 125
      · rw [if_pos hb] at h
        rw [if_pos hb]
        simp only [Option.some.injEq, Prod.mk.injEq] at h
        exact ⟨_, by rw [h.1], h.2 ▸ advance_shifted hrel hs⟩
      · rw [if_neg hb] at h
        rw [if_neg hb]
        exact ih _ _ _ _ (advance_shifted hrel hs) h
    · rw [if_neg hc] at h
      rw [if_neg (fun h3 => hc ((shifted_lt hs).mp h3))]
      simp only [Option.some.injEq, Prod.mk.injEq] at h
      exact ⟨_, by rw [h.1], h.2 ▸ hs⟩

theorem skipBlockComment_shifted {pre : List Nat} {rel : Position → Position → Prop}
    (hrel : StepClosed rel) (fuel : Nat) (s1 s2 r1 : Lexer) (b : Bool)
    (hs : Shifted pre rel s1 s2) (h : skipBlockComment fuel s1 = some (b, r1)) :
    ∃ r2, skipBlockComment fuel s2 = some (b, r2) ∧ Shifted pre rel r1 r2 :=
  skipBlockCommentLoop_shifted hrel fuel _ _ r1 b (advance_shifted hrel hs) h

theorem number_shifted {pre : List Nat} {rel : Position → Position → Prop}
    (hrel : StepClosed rel) (fuel : Nat) (s1 s2 r1 : Lexer) (t1 : Token)
    (hs : Shifted pre rel s1 s2) (h : number fuel s1 = some (t1, r1)) :
    ∃ t2 r2, number fuel s2 = some (t2, r2) ∧ TokenShifted rel t1 t2 ∧
      Shifted pre rel r1 r2 := by
  simp only [number] at h ⊢
  cases h1 : accumulateWhile isdigit fuel s1 [] with
  | none => simp [h1] at h
  | some x1 =>
    obtain ⟨res, m1⟩ := x1
    obtain ⟨m2, h2, hm⟩ := accumulateWhile_shifted hrel isdigit fuel s1 s2 m1 [] res hs h1
    rw [h1] at h
    rw [h2]
    simp only at h ⊢
    rw [hm.2.2.1]
    by_cases hc : m1.currentChar = 46
    · rw [if_pos hc] at h
      rw [if_pos hc]
      cases h3 : accumulateWhile isdigit fuel (advance m1) (res ++ [m1.currentChar]) with
      | none => simp [h3] at h
      | some x3 =>
        obtain ⟨res3, n1⟩ := x3
        obtain ⟨n2, h4, hn⟩ := accumulateWhile_shifted hrel isdigit fuel _ _ n1 _ res3
          (advance_shifted hrel hm) h3
        rw [h3] at h
        rw [h4]
        simp only [Option.some.injEq, Prod.mk.injEq] at h
        obtain ⟨e1, e2⟩ := h
        subst e1 e2
        exact ⟨_, _, rfl, ⟨rfl, rfl, hs.2.2.2⟩, hn⟩
    · rw [if_neg hc] at h
      rw [if_neg hc]
      simp only [Option.some.injEq, Prod.mk.injEq] at h
      obtain ⟨e1, e2⟩ := h
      subst e1 e2
      exact ⟨_, _, rfl, ⟨rfl, rfl, hs.2.2.2⟩, hm⟩

theorem identifier_shifted {pre : List Nat} {rel : Position → Position → Prop}
    (hrel : StepClosed rel) (fuel : Nat) (s1 s2 r1 : Lexer) (t1 : Token)
    (hs : Shifted pre rel s1 s2) (h : identifier fuel s1 = some (t1, r1)) :
    ∃ t2 r2, identifier fuel s2 = some (t2, r2) ∧ TokenShifted rel t1 t2 ∧
      Shifted pre rel r1 r2 := by
  simp only [identifier] at h ⊢
  cases h1 : accumulateWhile isIdentChar fuel s1 [] with
  | none => simp [h1] at h
  | some x1 =>
    obtain ⟨res, m1⟩ := x1
    obtain ⟨m2, h2, hm⟩ := accumulateWhile_shifted hrel isIdentChar fuel s1 s2 m1 [] res hs h1
    rw [h1] at h
    rw [h2]
    simp only at h ⊢
    cases hk : keywords.lookup res with
    | none =>
      rw [hk] at h
      simp only [Option.some.injEq, Prod.mk.injEq] at h
      obtain ⟨e1, e2⟩ := h
      subst e1 e2
      exact ⟨_, _, rfl, ⟨rfl, rfl, hs.2.2.2⟩, hm⟩
    | some kind =>
      rw [hk] at h
      simp only [Option.some.injEq, Prod.mk.injEq] at h
      obtain ⟨e1, e2⟩ := h
      subst e1 e2
      exact ⟨_, _, rfl, ⟨rfl, rfl, hs.2.2.2⟩, hm⟩

theorem stringLiteral_shifted {pre : List Nat} {rel : Position → Position → Prop}
    (hrel : StepClosed rel) (fuel : Nat) (s1 s2 r1 : Lexer) (t1 : Token)
    (hs : Shifted pre rel s1 s2) (h : stringLiteral fuel s1 = some (t1, r1)) :
    ∃ t2 r2, stringLiteral fuel s2 = some (t2, r2) ∧ TokenShifted rel t1 t2 ∧
      Shifted pre rel r1 r2 := by
  simp only [stringLiteral] at h ⊢
  cases h1 : accumulateWhile isStringChar fuel (advance s1) [] with
  | none => simp [h1] at h
  | some x1 =>
    obtain ⟨res, m1⟩ := x1
    obtain ⟨m2, h2, hm⟩ := accumulateWhile_shifted hrel isStringChar fuel _ _ m1 [] res
      (advance_shifted hrel hs) h1
    rw [h1] at h
    rw [h2]
    simp only at h ⊢
    rw [hm.2.2.1]
    by_cases hc : m1.currentChar = 39
    · rw [if_pos hc] at h
      rw [if_pos hc]
      simp only [Option.some.injEq, Prod.mk.injEq] at h
      obtain ⟨e1, e2⟩ := h
      subst e1 e2
      exact ⟨_, _, rfl, ⟨rfl, rfl, hs.2.2.2⟩, advance_shifted hrel hm⟩
    · rw [if_neg hc] at h
      rw [if_neg hc]
      simp only [Option.some.injEq, Prod.mk.injEq] at h
      obtain ⟨e1, e2⟩ := h
      subst e1 e2
      exact ⟨_, _, rfl, ⟨rfl, rfl, hs.2.2.2⟩, hm⟩

theorem operatorOrPunctuation_shifted {pre : List Nat} {rel : Position → Position → Prop}
    (hrel : StepClosed rel) (s1 s2 : Lexer) (hs : Shifted pre rel s1 s2) :
    TokenShifted rel (operatorOrPunctuation s1).1 (operatorOrPunctuation s2).1 ∧
    Shifted pre rel (operatorOrPunctuation s1).2 (operatorOrPunctuation s2).2 := by
  have ha := advance_shifted hrel hs
  have haa := advance_shifted hrel ha
  have hr := hs.2.2.2
  have hc : s2.currentChar = s1.currentChar := hs.2.2.1
  have hc1 : (advance s2).currentChar = (advance s1).currentChar := ha.2.2.1
  by_cases hm : s1.currentChar ∈ [62, 60, 58]
  · simp only [List.mem_cons, List.mem_singleton, List.not_mem_nil, or_false] at hm
    rcases hm with h | h | h
    · rw [h] at hc
      by_cases e : (advance s1).currentChar = 61
      · rw [e] at hc1
        simp only [operatorOrPunctuation, h, hc, e, hc1, TokenShifted]
        simp
        exact ⟨hr, haa⟩
      · have e2 : ¬ (advance s2).currentChar = 61 := by rw [hc1]; exact e
        simp only [operatorOrPunctuation, h, hc, e, e2, TokenShifted]
        simp
        exact ⟨hr, ha⟩
    · rw [h] at hc
      by_cases e : (advance s1).currentChar = 61
      · rw [e] at hc1
        simp only [operatorOrPunctuation, h, hc, e, hc1, TokenShifted]
        simp
        exact ⟨hr, haa⟩
      · have e2 : ¬ (advance s2).currentChar = 61 := by rw [hc1]; exact e
        by_cases g : (advance s1).currentChar = 62
        · rw [g] at hc1
          simp only [operatorOrPunctuation, h, hc, g, hc1, TokenShifted]
          simp
          exact ⟨hr, haa⟩
        · have g2 : ¬ (advance s2).currentChar = 62 := by rw [hc1]; exact g
          simp only [operatorOrPunctuation, h, hc, e, e2, g, g2, TokenShifted]
          simp
          exact ⟨hr, ha⟩
    · rw [h] at hc
      by_cases e : (advance s1).currentChar = 61
      · rw [e] at hc1
        simp only [operatorOrPunctuation, h, hc, e, hc1, TokenShifted]
        simp
        exact ⟨hr, haa⟩
      · have e2 : ¬ (advance s2).currentChar = 61 := by rw [hc1]; exact e
        simp only [operatorOrPunctuation, h, hc, e, e2, TokenShifted]
        simp
        exact ⟨hr, ha⟩
  · simp only [List.mem_cons, List.mem_singleton, List.not_mem_nil, or_false, not_or] at hm
    by_cases hm2 : s1.currentChar ∈ [42, 43, 45, 47, 59, 44, 40, 41, 91, 93, 61, 46]
    · simp only [List.mem_cons, List.mem_singleton, List.not_mem_nil, or_false] at hm2
      rcases hm2 with h | h | h | h | h | h | h | h | h | h | h | h <;>
      · rw [h] at hc
        simp only [operatorOrPunctuation, h, hc, TokenShifted]
        simp
        exact ⟨hr, ha⟩
    · have hb1 : s1.currentChar ∉ [42, 43, 45, 47, 59, 44, 40, 41, 91, 93, 61, 62, 60, 58, 46] := by
        simp only [List.mem_cons, List.mem_singleton, List.not_mem_nil, or_false, not_or] at hm2 ⊢
        tauto
      have hb2 : s2.currentChar ∉ [42, 43, 45, 47, 59, 44, 40, 41, 91, 93, 61, 62, 60, 58, 46] := by
        rw [hc]; exact hb1
      rw [operatorOrPunctuation_bad s1 hb1, operatorOrPunctuation_bad s2 hb2]
      exact ⟨⟨rfl, by rw [hc], hr⟩, ha⟩

theorem nextToken_shifted {pre : List Nat} {rel : Position → Position → Prop}
    (hrel : StepClosed rel) :
    ∀ (fuel : Nat) (s1 s2 r1 : Lexer) (t1 : Token), Shifted pre rel s1 s2 →
      nextToken fuel s1 = some (t1, r1) →
      ∃ t2 r2, nextToken fuel s2 = some (t2, r2) ∧ TokenShifted rel t1 t2 ∧
        Shifted pre rel r1 r2 := by
  intro fuel
  induction fuel with
  | zero => intro s1 s2 r1 t1 _ h; simp [nextToken] at h
  | succ n ih =>
    intro s1 s2 r1 t1 hs h
    rw [nextToken] at h
    rw [nextToken, hs.2.2.1, peek_shifted hs]
    split_ifs at h ⊢ with c0 c1 c2 c3 c4 c5 c6
    · cases h1 : skipWhitespace n s1 with
      | none => simp [h1] at h
      | some m1 =>
        obtain ⟨m2, h2, hm⟩ := skipWhitespace_shifted hrel n s1 s2 m1 hs h1
        rw [h1] at h
        rw [h2]
        exact ih _ _ _ _ hm h
    · exact number_shifted hrel n s1 s2 r1 t1 hs h
    · exact identifier_shifted hrel n s1 s2 r1 t1 hs h
    · exact stringLiteral_shifted hrel n s1 s2 r1 t1 hs h
    · cases h1 : skipLineComment n s1 with
      | none => simp [h1] at h
      | some m1 =>
        obtain ⟨m2, h2, hm⟩ := skipLineComment_shifted hrel n s1 s2 m1 hs h1
        rw [h1] at h
        rw [h2]
        exact ih _ _ _ _ hm h
    · cases h1 : skipBlockComment n s1 with
      | none => simp [h1] at h
      | some x1 =>
        obtain ⟨b, m1⟩ := x1
        obtain ⟨m2, h2, hm⟩ := skipBlockComment_shifted hrel n s1 s2 m1 b hs h1
        rw [h1] at h
        rw [h2]
        cases b with
        | true => exact ih _ _ _ _ hm h
        | false =>
          simp only [Option.some.injEq, Prod.mk.injEq] at h
          obtain ⟨e1, e2⟩ := h
          subst e1 e2
          exact ⟨_, _, rfl, ⟨rfl, rfl, hm.2.2.2⟩, hm⟩
    · simp only [Option.some.injEq] at h
      have hop := operatorOrPunctuation_shifted hrel s1 s2 hs
      rw [h] at hop
      exact ⟨_, _, rfl, hop.1, hop.2⟩
    · simp only [Option.some.injEq, Prod.mk.injEq] at h
      obtain ⟨e1, e2⟩ := h
      subst e1 e2
      exact ⟨_, _, rfl, ⟨rfl, rfl, hs.2.2.2⟩, hs⟩

theorem tokenizeLoop_shifted {pre : List Nat} {rel : Position → Position → Prop}
    (hrel : StepClosed rel) :
    ∀ (fuel : Nat) (s1 s2 : Lexer) (acc1 acc2 ts1 : List Token), Shifted pre rel s1 s2 →
      List.Forall₂ (TokenShifted rel) acc1 acc2 →
      tokenizeLoop fuel s1 acc1 = some ts1 →
      ∃ ts2, tokenizeLoop fuel s2 acc2 = some ts2 ∧
        List.Forall₂ (TokenShifted rel) ts1 ts2 := by
  intro fuel
  induction fuel with
  | zero => intro s1 s2 acc1 acc2 ts1 _ _ h; simp [tokenizeLoop] at h
  | succ n ih =>
    intro s1 s2 acc1 acc2 ts1 hs hacc h
    rw [tokenizeLoop] at h
    rw [tokenizeLoop]
    cases h1 : nextToken n s1 with
    | none => simp [h1] at h
    | some x1 =>
      obtain ⟨t1, m1⟩ := x1
      obtain ⟨t2, m2, h2, ht, hm⟩ := nextToken_shifted hrel n s1 s2 m1 t1 hs h1
      rw [h1] at h
      rw [h2]
      simp only at h ⊢
      rw [ht.1]
      have hacc2 : List.Forall₂ (TokenShifted rel) (acc1 ++ [t1]) (acc2 ++ [t2]) :=
        List.rel_append hacc (List.Forall₂.cons ht List.Forall₂.nil)
      by_cases hc : t1.type ≠ Lexeme.END_OF_FILE
      · rw [if_pos hc] at h
        rw [if_pos hc]
        exact ih _ _ _ _ _ hm hacc2 h
      · rw [if_neg hc] at h
        rw [if_neg hc]
        simp only [Option.some.injEq] at h
        exact ⟨_, rfl, h ▸ hacc2⟩

/-! ## Runs are determined by their start -/

theorem run_unique {text : List Nat} {p : Nat} {ts1 ts2 : List Token}
    (h1 : Run text p ts1) (h2 : Run text p ts2) : ts1 = ts2 := by
  induction h1 generalizing ts2 with
  | last p q t hsc hty =>
    cases h2 with
    | last _ q2 t2 hsc2 _ =>
      obtain ⟨rfl, _⟩ := scanned_unique hsc hsc2
      rfl
    | more _ q2 t2 ts hsc2 hty2 _ =>
      obtain ⟨rfl, _⟩ := scanned_unique hsc hsc2
      exact absurd hty hty2
  | more p q t ts hsc hty _ ih =>
    cases h2 with
    | last _ q2 t2 hsc2 hty2 =>
      obtain ⟨rfl, _⟩ := scanned_unique hsc hsc2
      exact absurd hty2 hty
    | more _ q2 t2 ts3 hsc2 _ hrun2 =>
      obtain ⟨rfl, rfl⟩ := scanned_unique hsc hsc2
      rw [ih hrun2]

theorem run_of_skip {text : List Nat} {p p1 : Nat} {ts : List Token}
    (hskip : ∀ t q, Scanned text p1 t q → Scanned text p t q) (h : Run text p1 ts) :
    Run text p ts := by
  cases h with
  | last _ q t hsc hty => exact Run.last p q t (hskip t q hsc) hty
  | more _ q t ts1 hsc hty hrun => exact Run.more p q t ts1 (hskip t q hsc) hty hrun

theorem stateAt_append_shifted (pre rest : List Nat) (rel : Position → Position → Prop)
    (hstart : rel ⟨1, 0⟩ (locAt (pre ++ rest) pre.length)) :
    Shifted pre rel (stateAt rest 0) (stateAt (pre ++ rest) pre.length) := by
  refine ⟨rfl, rfl, ?_, ?_⟩
  · show charAt (pre ++ rest) pre.length = charAt rest 0
    exact charAt_append_right pre rest 0
  · show rel (locAt rest 0) (locAt (pre ++ rest) pre.length)
    rw [locAt_zero]
    exact hstart

theorem tokenize_behind (pre rest : List Nat) (rel : Position → Position → Prop)
    (hrel : StepClosed rel) (hstart : rel ⟨1, 0⟩ (locAt (pre ++ rest) pre.length))
    (hskip : ∀ t q, Scanned (pre ++ rest) pre.length t q → Scanned (pre ++ rest) 0 t q) :
    ∃ toks toks2, (∀ k, tokenize (rest.length + 3 + k) rest = some toks) ∧
      (∀ k, tokenize ((pre ++ rest).length + 3 + k) (pre ++ rest) = some toks2) ∧
      List.Forall₂ (TokenShifted rel) toks toks2 := by
  obtain ⟨toks, _, _, htok⟩ := tokenize_run rest
  obtain ⟨ts0, hrun0, _, htok0⟩ := tokenize_run (pre ++ rest)
  have hlen : pre.length ≤ (pre ++ rest).length := by simp
  obtain ⟨ts, hrun, _, hloop⟩ :=
    tokenizeLoop_run (pre ++ rest) ((pre ++ rest).length - pre.length) pre.length rfl hlen
  have h1 : tokenizeLoop (rest.length + 3 + 0) (stateAt rest 0) [] = some toks := by
    have := htok 0
    rw [tokenize, init_eq_stateAt] at this
    exact this
  obtain ⟨ts2, h2, hrel2⟩ := tokenizeLoop_shifted hrel _ _ _ [] [] toks
    (stateAt_append_shifted pre rest rel hstart) List.Forall₂.nil h1
  have h3 := hloop (rest.length + 3 + 0) [] (by simp)
  rw [h2] at h3
  simp only [List.nil_append, Option.some.injEq] at h3
  have hrun1 : Run (pre ++ rest) 0 ts := run_of_skip hskip hrun
  have e := run_unique hrun0 hrun1
  refine ⟨toks, ts2, htok, ?_, hrel2⟩
  intro k
  rw [htok0 k, e, h3]

/-! ## Skipped prefixes -/

theorem forall2_same_pairs {toks toks2 : List Token}
    (h : List.Forall₂ (TokenShifted (fun _ _ => True)) toks toks2) :
    toks2.map (fun t => (t.type, t.lexeme)) = toks.map (fun t => (t.type, t.lexeme)) := by
  induction h with
  | nil => rfl
  | cons hab _ ih =>
    simp only [List.map_cons, ih, hab.1, hab.2.1]

theorem scanned_skip_space {text : List Nat} {p q : Nat} {t : Token}
    (hsp : isspace (charAt text p) = true) (h : Scanned text (p + 1) t q) :
    Scanned text p t q := by
  have hlt : p < text.length := by
    apply lt_of_charAt_ne_zero
    intro hz
    rw [hz] at hsp
    exact Bool.noConfusion hsp
  obtain ⟨ha, hb, hc⟩ := h
  refine ⟨by omega, hb, ?_⟩
  intro fuel hf
  obtain ⟨f, rfl⟩ : ∃ f, fuel = f + 1 := ⟨fuel - 1, by omega⟩
  rw [nextToken_space text p f hsp (by omega), scanEnd_step hsp hlt]
  cases hsp1 : isspace (charAt text (p + 1)) with
  | true =>
    rw [← nextToken_space text (p + 1) f hsp1 (by omega)]
    exact hc (f + 1) (by omega)
  | false =>
    have hq : scanEnd isspace text (p + 1) = p + 1 := by
      by_cases hl : p + 1 < text.length
      · exact scanEnd_stop hsp1 hl
      · exact scanEnd_of_le isspace (Nat.le_of_not_lt hl)
    rw [hq]
    exact hc f (by omega)

theorem scanned_skip_spaces {text : List Nat} {q : Nat} {t : Token} :
    ∀ (n : Nat), (∀ i, i < n → isspace (charAt text i) = true) →
      Scanned text n t q → Scanned text 0 t q := by
  intro n
  induction n with
  | zero => intro _ h; exact h
  | succ n ih =>
    intro hall h
    exact ih (fun i hi => hall i (Nat.lt_succ_of_lt hi))
      (scanned_skip_space (hall n (Nat.lt_succ_self n)) h)

theorem charAt_append_left_mem (w s : List Nat) (i : Nat) (hi : i < w.length) :
    charAt (w ++ s) i ∈ w := by
  unfold charAt
  rw [List.getD_eq_getElem _ _ (by rw [List.length_append]; omega),
    List.getElem_append_left hi]
  exact List.getElem_mem hi

/-- C13: a closed block comment is invisible: for every `c` without `'}'` and every `rest`,
`tokenize` of `"{" ++ c ++ "}" ++ rest` has the same sequence of (kind, lexeme) pairs as
`tokenize rest`. -/
theorem block_comment_is_invisible (c rest : List Nat) (hc : 125 ∉ c) :
    ∃ toks toks2, (∀ k, tokenize (rest.length + 3 + k) rest = some toks) ∧
      (∀ k, tokenize ((123 :: (c ++ 125 :: rest)).length + 3 + k) (123 :: (c ++ 125 :: rest))
        = some toks2) ∧
      toks2.map (fun t => (t.type, t.lexeme)) = toks.map (fun t => (t.type, t.lexeme)) := by
  have hmid : ∀ x ∈ c, notCloseBrace x = true := by
    intro x hx
    have : x ≠ 125 := fun e => hc (e ▸ hx)
    simpa [notCloseBrace] using this
  have htext : 123 :: (c ++ 125 :: rest) = (123 :: (c ++ [125])) ++ rest := by simp
  have hplen : (123 :: (c ++ [125])).length = c.length + 2 := by simp
  have hE : scanEnd notCloseBrace (123 :: (c ++ 125 :: rest)) (0 + 1) = c.length + 1 := by
    have := scanEnd_append notCloseBrace [123] c (125 :: rest) hmid
      (by intro y hy; simp at hy; rw [← hy]; decide)
    simp only [List.length_singleton, List.singleton_append] at this
    rw [this]
    omega
  have hskip : ∀ t q, Scanned ((123 :: (c ++ [125])) ++ rest) (123 :: (c ++ [125])).length t q →
      Scanned ((123 :: (c ++ [125])) ++ rest) 0 t q := by
    intro t q h
    rw [hplen] at h
    rw [← htext] at h ⊢
    refine scanned_of_step (Nat.succ_pos _) ?_ h
    intro f hf
    have hlen : c.length + 1 < (123 :: (c ++ 125 :: rest)).length := by
      simp only [List.length_cons, List.length_append]
      omega
    rw [nextToken_brace (123 :: (c ++ 125 :: rest)) 0 f rfl,
      skipBlockComment_stateAt (123 :: (c ++ 125 :: rest)) 0 f (Nat.succ_pos _) (by omega),
      hE, if_pos hlen]
  obtain ⟨toks, toks2, h1, h2, h3⟩ :=
    tokenize_behind (123 :: (c ++ [125])) rest (fun _ _ => True)
      (fun _ _ _ _ _ => ⟨trivial, trivial⟩) trivial hskip
  refine ⟨toks, toks2, h1, ?_, forall2_same_pairs h3⟩
  intro k
  rw [htext, h2 k]

/-- Witness of C13 on the input `"{ hi } BEGIN"`, for the comment text `" hi "` and the rest
`" BEGIN"`. -/
theorem block_comment_is_invisible_witness :
    ∃ toks toks2,
      (∀ k, tokenize ((bytes " BEGIN").length + 3 + k) (bytes " BEGIN") = some toks) ∧
      (∀ k, tokenize ((123 :: (bytes " hi " ++ 125 :: bytes " BEGIN")).length + 3 + k)
          (123 :: (bytes " hi " ++ 125 :: bytes " BEGIN")) = some toks2) ∧
      toks2.map (fun t => (t.type, t.lexeme)) = toks.map (fun t => (t.type, t.lexeme)) :=
  block_comment_is_invisible (bytes " hi ") (bytes " BEGIN") (by decide)

/-- C19: leading whitespace produces no token: for every `w` of whitespace characters only
and every `s`, `tokenize (w ++ s)` has the same sequence of (kind, lexeme) pairs as
`tokenize s`. -/
theorem leading_whitespace_is_invisible (w s : List Nat)
    (hw : ∀ x ∈ w, isspace x = true) :
    ∃ toks toks2, (∀ k, tokenize (s.length + 3 + k) s = some toks) ∧
      (∀ k, tokenize ((w ++ s).length + 3 + k) (w ++ s) = some toks2) ∧
      toks2.map (fun t => (t.type, t.lexeme)) = toks.map (fun t => (t.type, t.lexeme)) := by
  have hskip : ∀ t q, Scanned (w ++ s) w.length t q → Scanned (w ++ s) 0 t q := by
    intro t q h
    exact scanned_skip_spaces w.length
      (fun i hi => hw _ (charAt_append_left_mem w s i hi)) h
  obtain ⟨toks, toks2, h1, h2, h3⟩ :=
    tokenize_behind w s (fun _ _ => True)
      (fun _ _ _ _ _ => ⟨trivial, trivial⟩) trivial hskip
  exact ⟨toks, toks2, h1, h2, forall2_same_pairs h3⟩

/-- Witness of C19 on the whitespace `" \t\n"` before the input `"x := 1"`. -/
theorem leading_whitespace_is_invisible_witness :
    ∃ toks toks2,
      (∀ k, tokenize ((bytes "x := 1").length + 3 + k) (bytes "x := 1") = some toks) ∧
      (∀ k, tokenize ((bytes " \t\n" ++ bytes "x := 1").length + 3 + k)
          (bytes " \t\n" ++ bytes "x := 1") = some toks2) ∧
      toks2.map (fun t => (t.type, t.lexeme)) = toks.map (fun t => (t.type, t.lexeme)) :=
  leading_whitespace_is_invisible (bytes " \t\n") (bytes "x := 1") (by decide)

/-! ## Rendering of tokens -/

theorem mem_allKinds (k : Lexeme) : k ∈ allKinds := by
  cases k <;> decide

theorem printTokens_append (tokens : List Token) (out : List Nat) :
    tokens.foldl (fun out token => out ++ renderToken token ++ [10]) out
      = out ++ (tokens.map (fun t => renderToken t ++ [10])).flatten := by
  induction tokens generalizing out with
  | nil => simp
  | cons t ts ih =>
    rw [List.foldl_cons, ih, List.map_cons, List.flatten_cons]
    simp only [List.append_assoc]

/-- C16: `lexemeToString` gives each of the 39 token kinds its own uppercase name: no kind is
rendered as `UNKNOWN`, distinct kinds have distinct names, `END_OF_FILE` is rendered as
`EOF`, every name consists of uppercase letters and underscores, and the line printed for a
token is the name of its kind, `(line, column)` and the lexeme in double quotes, followed by
a newline. -/
theorem lexemeToString_names :
    allKinds.length = 39 ∧ (∀ k, k ∈ allKinds) ∧
    (∀ k, lexemeToString k ≠ "UNKNOWN") ∧
    Function.Injective lexemeToString ∧
    lexemeToString Lexeme.END_OF_FILE = "EOF" ∧
    (∀ k, (lexemeToString k).toList ≠ [] ∧
      (lexemeToString k).toList.all (fun ch => ch.isUpper || ch == '_') = true) ∧
    (∀ t : Token, renderToken t
      = specLine (lexemeToString t.type) t.position.line t.position.column t.lexeme) ∧
    (∀ ts : List Token, printTokens ts = (ts.map (fun t => renderToken t ++ [10])).flatten) := by
  have hnodup : (allKinds.map lexemeToString).Nodup := by decide
  refine ⟨rfl, mem_allKinds, ?_, ?_, rfl, ?_, ?_, ?_⟩
  · intro k
    cases k <;> decide
  · intro a b hab
    exact List.inj_on_of_nodup_map hnodup (mem_allKinds a) (mem_allKinds b) hab
  · intro k
    cases k <;> decide
  · intro t
    have e : bytes ") \"" = bytes ") " ++ [34] := by decide
    have e2 : bytes "\"" = [34] := by decide
    simp only [renderToken, specLine, e, e2, List.append_assoc]
  · intro ts
    rw [printTokens, printTokens_append, List.nil_append]

/-! ## The checks never fail -/

theorem inBounds_stateAt (text : List Nat) (p : Nat) (hp : p ≤ text.length) :
    InBounds (stateAt text p) := ⟨hp, rfl⟩

theorem inBounds_lt {s : Lexer} (h : InBounds s) (h0 : s.currentChar ≠ 0) :
    s.pos < s.text.length := by
  apply lt_of_charAt_ne_zero
  rw [← h.2]
  exact h0

theorem inBounds_advance {s : Lexer} (h : s.pos < s.text.length) :
    InBounds (PascalLexer.advance s) := by
  refine ⟨h, ?_⟩
  show (if s.pos + 1 < s.text.length then charAt s.text (s.pos + 1) else 0)
    = charAt s.text (s.pos + 1)
  by_cases hlt : s.pos + 1 < s.text.length
  · rw [if_pos hlt]
  · rw [if_neg hlt, charAt_of_le (Nat.le_of_not_lt hlt)]

theorem checked_advance {s : Lexer} (h : s.pos < s.text.length) :
    Checked.advance s = some (PascalLexer.advance s) := by
  rw [Checked.advance, if_pos h]

theorem checked_readAt {s : Lexer} (h : s.pos < s.text.length) :
    Checked.readAt s = some (charAt s.text s.pos) := by
  rw [Checked.readAt, if_pos h]

theorem cond_lt {cond : Nat → Bool} (h0 : cond 0 = false) {s : Lexer} (h : InBounds s)
    (hc : cond s.currentChar = true) : s.pos < s.text.length := by
  apply inBounds_lt h
  intro hz
  rw [hz, h0] at hc
  exact Bool.noConfusion hc

theorem checked_accumulateWhile {cond : Nat → Bool} (h0 : cond 0 = false) :
    ∀ (fuel : Nat) (s : Lexer) (acc : List Nat), InBounds s →
      Checked.accumulateWhile cond fuel s acc = accumulateWhile cond fuel s acc ∧
      ∀ res r, accumulateWhile cond fuel s acc = some (res, r) → InBounds r := by
  intro fuel
  induction fuel with
  | zero =>
    intro s acc _
    exact ⟨rfl, fun res r h => by simp [accumulateWhile] at h⟩
  | succ n ih =>
    intro s acc hs
    rw [Checked.accumulateWhile, accumulateWhile]
    by_cases hc : cond s.currentChar = true
    · have hlt := cond_lt h0 hs hc
      rw [if_pos hc, if_pos hc, checked_advance hlt]
      exact ih _ _ (inBounds_advance hlt)
    · rw [if_neg hc, if_neg hc]
      refine ⟨rfl, ?_⟩
      intro res r h
      simp only [Option.some.injEq, Prod.mk.injEq] at h
      exact h.2 ▸ hs

theorem checked_skipWhitespace :
    ∀ (fuel : Nat) (s : Lexer), InBounds s →
      Checked.skipWhitespace fuel s = skipWhitespace fuel s ∧
      ∀ r, skipWhitespace fuel s = some r → InBounds r := by
  intro fuel
  induction fuel with
  | zero =>
    intro s _
    exact ⟨rfl, fun r h => by simp [skipWhitespace] at h⟩
  | succ n ih =>
    intro s hs
    rw [Checked.skipWhitespace, skipWhitespace]
    by_cases hc : isspace s.currentChar = true
    · have hlt := cond_lt (by decide) hs hc
      rw [if_pos hc, if_pos hc, checked_advance hlt]
      exact ih _ (inBounds_advance hlt)
    · rw [if_neg hc, if_neg hc]
      refine ⟨rfl, ?_⟩
      intro r h
      simp only [Option.some.injEq] at h
      exact h ▸ hs

theorem checked_skipLineCommentLoop :
    ∀ (fuel : Nat) (s : Lexer), InBounds s →
      Checked.skipLineCommentLoop fuel s = skipLineCommentLoop fuel s ∧
      ∀ r, skipLineCommentLoop fuel s = some r → InBounds r := by
  intro fuel
  induction fuel with
  | zero =>
    intro s _
    exact ⟨rfl, fun r h => by simp [skipLineCommentLoop] at h⟩
  | succ n ih =>
    intro s hs
    rw [Checked.skipLineCommentLoop, skipLineCommentLoop]
    by_cases hlt : s.pos < s.text.length
    · rw [if_pos hlt, checked_readAt hlt]
      simp only
      by_cases hc : charAt s.text s.pos ≠ 10
      · rw [if_pos hc, if_pos ⟨hlt, hc⟩, checked_advance hlt]
        exact ih _ (inBounds_advance hlt)
      · rw [if_neg hc, if_neg (fun h => hc h.2)]
        refine ⟨rfl, ?_⟩
        intro r h
        simp only [Option.some.injEq] at h
        exact h ▸ hs
    · rw [if_neg hlt, if_neg (fun h => hlt h.1)]
      refine ⟨rfl, ?_⟩
      intro r h
      simp only [Option.some.injEq] at h
      exact h ▸ hs

theorem checked_skipLineComment (fuel : Nat) (s : Lexer) (hs : InBounds s) :
    Checked.skipLineComment fuel s = skipLineComment fuel s ∧
    ∀ r, skipLineComment fuel s = some r → InBounds r := by
  obtain ⟨h1, h2⟩ := checked_skipLineCommentLoop fuel s hs
  rw [Checked.skipLineComment, skipLineComment, h1]
  cases hl : skipLineCommentLoop fuel s with
  | none => exact ⟨rfl, fun r h => by simp at h⟩
  | some s1 =>
    have hs1 := h2 s1 hl
    simp only
    by_cases hlt : s1.pos < s1.text.length
    · rw [if_pos hlt, if_pos hlt, checked_advance hlt]
      refine ⟨rfl, ?_⟩
      intro r h
      simp only [Option.some.injEq] at h
      exact h ▸ inBounds_advance hlt
    · rw [if_neg hlt, if_neg hlt]
      refine ⟨rfl, ?_⟩
      intro r h
      simp only [Option.some.injEq] at h
      exact h ▸ hs1

theorem checked_skipBlockCommentLoop :
    ∀ (fuel : Nat) (s : Lexer), InBounds s →
      Checked.skipBlockCommentLoop fuel s = skipBlockCommentLoop fuel s ∧
      ∀ b r, skipBlockCommentLoop fuel s = some (b, r) → InBounds r := by
  intro fuel
  induction fuel with
  | zero =>
    intro s _
    exact ⟨rfl, fun b r h => by simp [skipBlockCommentLoop] at h⟩
  | succ n ih =>
    intro s hs
    rw [Checked.skipBlockCommentLoop, skipBlockCommentLoop]
    by_cases hlt : s.pos < s.text.length
    · rw [if_pos hlt, if_pos hlt, checked_readAt hlt, checked_advance hlt]
      simp only
      by_cases hc : charAt s.text s.pos = 125
      · rw [if_pos hc, if_pos hc]
        refine ⟨rfl, ?_⟩
        intro b r h
        simp only [Option.some.injEq, Prod.mk.injEq] at h
        exact h.2 ▸ inBounds_advance hlt
      · rw [if_neg hc, if_neg hc]
        exact ih _ (inBounds_advance hlt)
    · rw [if_neg hlt, if_neg hlt]
      refine ⟨rfl, ?_⟩
      intro b r h
      simp only [Option.some.injEq, Prod.mk.injEq] at h
      exact h.2 ▸ hs

theorem checked_skipBlockComment (fuel : Nat) (s : Lexer) (hs : InBounds s)
    (h0 : s.currentChar ≠ 0) :
    Checked.skipBlockComment fuel s = skipBlockComment fuel s ∧
    ∀ b r, skipBlockComment fuel s = some (b, r) → InBounds r := by
  have hlt := inBounds_lt hs h0
  rw [Checked.skipBlockComment, skipBlockComment, checked_advance hlt]
  exact checked_skipBlockCommentLoop fuel _ (inBounds_advance hlt)

theorem checked_number (fuel : Nat) (s : Lexer) (hs : InBounds s) :
    Checked.number fuel s = number fuel s ∧
    ∀ t r, number fuel s = some (t, r) → InBounds r := by
  have hd0 : isdigit 0 = false := by decide
  obtain ⟨h1, h2⟩ := checked_accumulateWhile hd0 fuel s [] hs
  simp only [Checked.number, number, h1]
  cases ha : accumulateWhile isdigit fuel s [] with
  | none => exact ⟨rfl, fun t r h => by simp at h⟩
  | some x =>
    obtain ⟨res, s1⟩ := x
    have hs1 := h2 res s1 ha
    simp only
    by_cases hc : s1.currentChar = 46
    · have hlt : s1.pos < s1.text.length := inBounds_lt hs1 (by rw [hc]; decide)
      obtain ⟨h3, h4⟩ := checked_accumulateWhile hd0 fuel (advance s1)
        (res ++ [s1.currentChar]) (inBounds_advance hlt)
      rw [if_pos hc, if_pos hc, checked_advance hlt]
      simp only [h3]
      cases hb : accumulateWhile isdigit fuel (advance s1) (res ++ [s1.currentChar]) with
      | none => exact ⟨trivial, fun t r h => by simp at h⟩
      | some y =>
        obtain ⟨res2, s2⟩ := y
        refine ⟨trivial, ?_⟩
        intro t r h
        simp only [Option.some.injEq, Prod.mk.injEq] at h
        exact h.2 ▸ h4 res2 s2 hb
    · rw [if_neg hc, if_neg hc]
      refine ⟨rfl, ?_⟩
      intro t r h
      simp only [Option.some.injEq, Prod.mk.injEq] at h
      exact h.2 ▸ hs1

theorem checked_identifier (fuel : Nat) (s : Lexer) (hs : InBounds s) :
    Checked.identifier fuel s = identifier fuel s ∧
    ∀ t r, identifier fuel s = some (t, r) → InBounds r := by
  have hd0 : isIdentChar 0 = false := by decide
  obtain ⟨h1, h2⟩ := checked_accumulateWhile hd0 fuel s [] hs
  simp only [Checked.identifier, identifier, h1]
  cases ha : accumulateWhile isIdentChar fuel s [] with
  | none => exact ⟨trivial, fun t r h => by simp at h⟩
  | some x =>
    obtain ⟨res, s1⟩ := x
    have hs1 := h2 res s1 ha
    refine ⟨trivial, ?_⟩
    intro t r h
    simp only at h
    cases hk : keywords.lookup res with
    | none =>
      rw [hk] at h
      simp only [Option.some.injEq, Prod.mk.injEq] at h
      exact h.2 ▸ hs1
    | some kind =>
      rw [hk] at h
      simp only [Option.some.injEq, Prod.mk.injEq] at h
      exact h.2 ▸ hs1

theorem checked_stringLiteral (fuel : Nat) (s : Lexer) (hs : InBounds s)
    (h0 : s.currentChar ≠ 0) :
    Checked.stringLiteral fuel s = stringLiteral fuel s ∧
    ∀ t r, stringLiteral fuel s = some (t, r) → InBounds r := by
  have hd0 : isStringChar 0 = false := by decide
  have hlt := inBounds_lt hs h0
  obtain ⟨h1, h2⟩ := checked_accumulateWhile hd0 fuel (advance s) [] (inBounds_advance hlt)
  simp only [Checked.stringLiteral, stringLiteral, checked_advance hlt, h1]
  cases ha : accumulateWhile isStringChar fuel (advance s) [] with
  | none => exact ⟨rfl, fun t r h => by simp at h⟩
  | some x =>
    obtain ⟨res, s1⟩ := x
    have hs1 := h2 res s1 ha
    simp only
    by_cases hc : s1.currentChar = 39
    · have hlt1 : s1.pos < s1.text.length := inBounds_lt hs1 (by rw [hc]; decide)
      rw [if_pos hc, if_pos hc, checked_advance hlt1]
      refine ⟨rfl, ?_⟩
      intro t r h
      simp only [Option.some.injEq, Prod.mk.injEq] at h
      exact h.2 ▸ inBounds_advance hlt1
    · rw [if_neg hc, if_neg hc]
      refine ⟨rfl, ?_⟩
      intro t r h
      simp only [Option.some.injEq, Prod.mk.injEq] at h
      exact h.2 ▸ hs1

theorem checked_operatorOrPunctuation (s : Lexer) (hs : InBounds s) (h0 : s.currentChar ≠ 0) :
    Checked.operatorOrPunctuation s = some (operatorOrPunctuation s) ∧
    InBounds (operatorOrPunctuation s).2 := by
  have hlt := inBounds_lt hs h0
  have ha := inBounds_advance hlt
  have h2 : ∀ x, x ≠ 0 → (advance s).currentChar = x →
      Checked.advance (advance s) = some (advance (advance s)) ∧
      InBounds (advance (advance s)) := by
    intro x hx e
    have hlt1 : (advance s).pos < (advance s).text.length :=
      inBounds_lt ha (by rw [e]; exact hx)
    exact ⟨checked_advance hlt1, inBounds_advance hlt1⟩
  by_cases hm : s.currentChar ∈ [62, 60, 58]
  · simp only [List.mem_cons, List.mem_singleton, List.not_mem_nil, or_false] at hm
    rcases hm with h | h | h
    · by_cases e : (advance s).currentChar = 61
      · obtain ⟨g1, g2⟩ := h2 61 (by decide) e
        simp only [Checked.operatorOrPunctuation, operatorOrPunctuation, checked_advance hlt, h,
          e, g1]
        simp
        exact g2
      · simp only [Checked.operatorOrPunctuation, operatorOrPunctuation, checked_advance hlt, h,
          e]
        simp
        exact ha
    · by_cases e : (advance s).currentChar = 61
      · obtain ⟨g1, g2⟩ := h2 61 (by decide) e
        simp only [Checked.operatorOrPunctuation, operatorOrPunctuation, checked_advance hlt, h,
          e, g1]
        simp
        exact g2
      · by_cases e2 : (advance s).currentChar = 62
        · obtain ⟨g1, g2⟩ := h2 62 (by decide) e2
          simp only [Checked.operatorOrPunctuation, operatorOrPunctuation, checked_advance hlt,
            h, e2, g1]
          simp
          exact g2
        · simp only [Checked.operatorOrPunctuation, operatorOrPunctuation, checked_advance hlt,
            h, e, e2]
          simp
          exact ha
    · by_cases e : (advance s).currentChar = 61
      · obtain ⟨g1, g2⟩ := h2 61 (by decide) e
        simp only [Checked.operatorOrPunctuation, operatorOrPunctuation, checked_advance hlt, h,
          e, g1]
        simp
        exact g2
      · simp only [Checked.operatorOrPunctuation, operatorOrPunctuation, checked_advance hlt, h,
          e]
        simp
        exact ha
  · simp only [List.mem_cons, List.mem_singleton, List.not_mem_nil, or_false, not_or] at hm
    by_cases hm2 : s.currentChar ∈ [42, 43, 45, 47, 59, 44, 40, 41, 91, 93, 61, 46]
    · simp only [List.mem_cons, List.mem_singleton, List.not_mem_nil, or_false] at hm2
      rcases hm2 with h | h | h | h | h | h | h | h | h | h | h | h <;>
      · simp only [Checked.operatorOrPunctuation, operatorOrPunctuation, checked_advance hlt, h]
        simp
        exact ha
    · simp only [List.mem_cons, List.mem_singleton, List.not_mem_nil, or_false, not_or] at hm2
      simp only [Checked.operatorOrPunctuation, operatorOrPunctuation, checked_advance hlt, hm,
        hm2]
      simp
      exact ha

theorem checked_nextToken :
    ∀ (fuel : Nat) (s : Lexer), InBounds s →
      Checked.nextToken fuel s = nextToken fuel s ∧
      ∀ t r, nextToken fuel s = some (t, r) → InBounds r := by
  intro fuel
  induction fuel with
  | zero =>
    intro s _
    exact ⟨rfl, fun t r h => by simp [nextToken] at h⟩
  | succ n ih =>
    intro s hs
    rw [Checked.nextToken, nextToken]
    by_cases c0 : s.currentChar ≠ 0
    · rw [if_pos c0, if_pos c0]
      by_cases c1 : isspace s.currentChar = true
      · obtain ⟨h1, h2⟩ := checked_skipWhitespace n s hs
        rw [if_pos c1, if_pos c1, h1]
        cases hw : skipWhitespace n s with
        | none => exact ⟨rfl, fun t r h => by simp at h⟩
        | some s1 => exact ih s1 (h2 s1 hw)
      rw [if_neg c1, if_neg c1]
      by_cases c2 : isdigit s.currentChar = true
      · rw [if_pos c2, if_pos c2]
        exact checked_number n s hs
      rw [if_neg c2, if_neg c2]
      by_cases c3 : isalpha s.currentChar = true ∨ s.currentChar = 95
      · rw [if_pos c3, if_pos c3]
        exact checked_identifier n s hs
      rw [if_neg c3, if_neg c3]
      by_cases c4 : s.currentChar = 39
      · rw [if_pos c4, if_pos c4]
        exact checked_stringLiteral n s hs c0
      rw [if_neg c4, if_neg c4]
      by_cases c5 : s.currentChar = 47 ∧ peek s = 47
      · obtain ⟨h1, h2⟩ := checked_skipLineComment n s hs
        rw [if_pos c5, if_pos c5, h1]
        cases hw : skipLineComment n s with
        | none => exact ⟨rfl, fun t r h => by simp at h⟩
        | some s1 => exact ih s1 (h2 s1 hw)
      rw [if_neg c5, if_neg c5]
      by_cases c6 : s.currentChar = 123
      · obtain ⟨h1, h2⟩ := checked_skipBlockComment n s hs c0
        rw [if_pos c6, if_pos c6, h1]
        cases hw : skipBlockComment n s with
        | none => exact ⟨rfl, fun t r h => by simp at h⟩
        | some x =>
          obtain ⟨b, s1⟩ := x
          have hs1 := h2 b s1 hw
          cases b with
          | true => exact ih s1 hs1
          | false =>
            refine ⟨rfl, ?_⟩
            intro t r h
            simp only [Option.some.injEq, Prod.mk.injEq] at h
            exact h.2 ▸ hs1
      · obtain ⟨h1, h2⟩ := checked_operatorOrPunctuation s hs c0
        rw [if_neg c6, if_neg c6, h1]
        refine ⟨rfl, ?_⟩
        intro t r h
        simp only [Option.some.injEq] at h
        rw [h] at h2
        exact h2
    · rw [if_neg c0, if_neg c0]
      refine ⟨rfl, ?_⟩
      intro t r h
      simp only [Option.some.injEq, Prod.mk.injEq] at h
      exact h.2 ▸ hs

/-- C20: in every lexer state reachable from the constructor by calls of `nextToken`, the
cursor is at most the buffer length and the cached `currentChar` is `text[pos]` before the end
of the buffer and code 0 at the end; and a call of `nextToken` in such a state never calls
`advance` with the cursor at or past the end and never reads `text[pos]` out of bounds: the
scanner with these checks returns what `nextToken` returns, and it returns a token whenever
the fuel exceeds the input length by two. -/
theorem cursor_in_bounds (input : List Nat) (s : Lexer) (hr : Reachable input s) :
    s.text = input ∧ s.pos ≤ input.length ∧
    (∀ h : s.pos < input.length, s.currentChar = input[s.pos]) ∧
    (input.length ≤ s.pos → s.currentChar = 0) ∧
    (∀ fuel, Checked.nextToken fuel s = nextToken fuel s) ∧
    (∀ k, ∃ r, Checked.nextToken (input.length + 2 + k) s = some r) := by
  obtain ⟨p, hp, rfl⟩ := reachable_stateAt hr
  have hin := inBounds_stateAt input p hp
  refine ⟨rfl, hp, ?_, ?_, fun fuel => (checked_nextToken fuel _ hin).1, ?_⟩
  · intro h
    show charAt input p = input[p]
    unfold charAt
    exact List.getD_eq_getElem _ _ h
  · intro h
    exact charAt_of_le h
  · intro k
    obtain ⟨t, q, _, hsc, _⟩ := scanned_total input p hp
    rw [(checked_nextToken _ _ hin).1]
    exact ⟨_, hsc.2.2 _ (by omega)⟩

/-- Witness of C20 on the input `"a\n b"`, in the state after the first call of
`nextToken`. -/
theorem cursor_in_bounds_witness :
    (stateAt (bytes "a\n b") 1).text = bytes "a\n b" ∧
    (stateAt (bytes "a\n b") 1).pos ≤ (bytes "a\n b").length ∧
    (∀ h : (stateAt (bytes "a\n b") 1).pos < (bytes "a\n b").length,
      (stateAt (bytes "a\n b") 1).currentChar = (bytes "a\n b")[(stateAt (bytes "a\n b") 1).pos]) ∧
    ((bytes "a\n b").length ≤ (stateAt (bytes "a\n b") 1).pos →
      (stateAt (bytes "a\n b") 1).currentChar = 0) ∧
    (∀ fuel, Checked.nextToken fuel (stateAt (bytes "a\n b") 1)
      = nextToken fuel (stateAt (bytes "a\n b") 1)) ∧
    (∀ k, ∃ r, Checked.nextToken ((bytes "a\n b").length + 2 + k) (stateAt (bytes "a\n b") 1)
      = some r) :=
  cursor_in_bounds (bytes "a\n b") (stateAt (bytes "a\n b") 1)
    (Reachable.next 6 (Lexer.init (bytes "a\n b")) (stateAt (bytes "a\n b") 1)
      ⟨Lexeme.IDENTIFIER, bytes "a", ⟨1, 0⟩⟩ Reachable.init (by decide!))

/-! ## Lines and columns beyond the range of `int` -/

theorem charAt_replicate (n a i : Nat) (h : i < n) : charAt (List.replicate n a) i = a := by
  unfold charAt
  rw [List.getD_eq_getElem _ _ (by rw [List.length_replicate]; exact h)]
  exact List.getElem_replicate _ _

theorem not_mem_take_of_not_mem {text : List Nat} {a : Nat} (h : a ∉ text) (p : Nat) :
    a ∉ text.take p := fun hm => h (List.mem_of_mem_take hm)

theorem reachable_after_letters (n : Nat) (hn : 0 < n) :
    Reachable (List.replicate n 97) (stateAt (List.replicate n 97) n) ∧
    10 ∉ (List.replicate n 97).take n ∧
    (((List.replicate n 97).take n).reverse.takeWhile (fun c => c != 10)).length = n ∧
    (stateAt (List.replicate n 97) n).column = wrapInt (n : Int) := by
  have hlen : (List.replicate n 97).length = n := List.length_replicate _ _
  have hnl : 10 ∉ List.replicate n 97 := by
    intro hm
    exact absurd (List.eq_of_mem_replicate hm) (by decide)
  have hno := not_mem_take_of_not_mem hnl n
  have hcol : colAt (List.replicate n 97) n = n := colAt_of_no_newline hno (by rw [hlen])
  have hsc := scanned_identifier (List.replicate n 97) 0 (Nat.zero_le _)
    (Or.inl (by rw [charAt_replicate n 97 0 hn]; decide))
  have hall : (List.replicate n 97).takeWhile isIdentChar = List.replicate n 97 := by
    rw [List.takeWhile_eq_self_iff]
    intro x hx
    rw [List.eq_of_mem_replicate hx]
    decide
  have hend : scanEnd isIdentChar (List.replicate n 97) 0 = n := by
    rw [scanEnd_zero, hall, hlen]
  rw [hend] at hsc
  refine ⟨?_, hno, hcol, ?_⟩
  · have hstep := hsc.2.2 (n + 2) (by rw [hlen]; omega)
    rw [← init_eq_stateAt] at hstep
    exact Reachable.next (n + 2) _ _ _ Reachable.init hstep
  · show wrapInt ((colAt (List.replicate n 97) n : Nat) : Int) = wrapInt (n : Int)
    rw [hcol]

theorem scanned_after_spaces (n : Nat) :
    atTokenStart (stateAt (List.replicate n 32 ++ [97]) n) ∧
    Scanned (List.replicate n 32 ++ [97]) n
      ⟨Lexeme.IDENTIFIER, [97], ⟨1, wrapInt (n : Int)⟩⟩ (n + 1) ∧
    Scanned (List.replicate n 32 ++ [97]) 0
      ⟨Lexeme.IDENTIFIER, [97], ⟨1, wrapInt (n : Int)⟩⟩ (n + 1) ∧
    (((List.replicate n 32 ++ [97]).take n).reverse.takeWhile (fun c => c != 10)).length
      = n := by
  have hlen : (List.replicate n 32).length = n := List.length_replicate _ _
  have hlen2 : (List.replicate n 32 ++ [97]).length = n + 1 := by
    rw [List.length_append, hlen]
    rfl
  have hnl : 10 ∉ List.replicate n 32 ++ [97] := by
    intro hm
    rcases List.mem_append.mp hm with hm | hm
    · exact absurd (List.eq_of_mem_replicate hm) (by decide)
    · exact absurd (List.mem_singleton.mp hm) (by decide)
  have hch : charAt (List.replicate n 32 ++ [97]) n = 97 := by
    have h := charAt_append_right (List.replicate n 32) [97] 0
    rw [hlen, Nat.add_zero] at h
    rw [h]
    rfl
  have hcol : colAt (List.replicate n 32 ++ [97]) n = n :=
    colAt_of_no_newline (not_mem_take_of_not_mem hnl n) (by rw [hlen2]; omega)
  have hend : scanEnd isIdentChar (List.replicate n 32 ++ [97]) n = n + 1 := by
    have h := scanEnd_append isIdentChar (List.replicate n 32) [97] []
      (by intro x hx; rw [List.mem_singleton.mp hx]; decide)
      (by intro y hy; exact Option.noConfusion hy)
    rw [hlen, List.append_nil] at h
    exact h
  have hsl : slice (List.replicate n 32 ++ [97]) n (n + 1) = [97] := by
    have h := slice_append_mid (List.replicate n 32) [97] []
    rw [hlen, List.append_nil] at h
    exact h
  have hsc := scanned_identifier (List.replicate n 32 ++ [97]) n (by rw [hlen2]; omega)
    (Or.inl (by rw [hch]; decide))
  rw [hend, hsl, locAt_no_newline hnl n (by rw [hlen2]; omega)] at hsc
  have hkind : (keywords.lookup [97]).getD Lexeme.IDENTIFIER = Lexeme.IDENTIFIER := by decide
  rw [hkind] at hsc
  have hstart : atTokenStart (stateAt (List.replicate n 32 ++ [97]) n) := by
    have hcc : (stateAt (List.replicate n 32 ++ [97]) n).currentChar
        = charAt (List.replicate n 32 ++ [97]) n := rfl
    refine ⟨?_, ?_, ?_⟩ <;> rw [hcc, hch]
    · decide
    · exact fun h => absurd h.1 (by decide)
    · decide
  refine ⟨hstart, hsc, scanned_skip_spaces n ?_ hsc, hcol⟩
  intro i hi
  have hm := charAt_append_left_mem (List.replicate n 32) [97] i (by rw [hlen]; exact hi)
  rw [List.eq_of_mem_replicate hm]
  decide

/-- C3 as stated fails: on the input of 2147483648 spaces followed by the letter `a`, the
first call of `nextToken` returns from the identifier branch the token `a`, whose first
character is at cursor 2147483648, with 2147483648 characters and no newline before it; the
recorded column is -2147483648, not that count. -/
theorem token_column_overflows :
    ∃ t s1, nextToken 2147483651 (Lexer.init (List.replicate 2147483648 32 ++ [97]))
        = some (t, s1) ∧
      atTokenStart (stateAt (List.replicate 2147483648 32 ++ [97]) 2147483648) ∧
      Scanned (List.replicate 2147483648 32 ++ [97]) 2147483648 t s1.pos ∧
      t.type = Lexeme.IDENTIFIER ∧ t.lexeme = [97] ∧
      (((List.replicate 2147483648 32 ++ [97]).take 2147483648).reverse.takeWhile
        (fun c => c != 10)).length = 2147483648 ∧
      t.position.column = -2147483648 := by
  obtain ⟨h1, h2, h3, h4⟩ := scanned_after_spaces 2147483648
  have hstep := h3.2.2 2147483651
    (by rw [List.length_append, List.length_replicate, List.length_singleton])
  rw [← init_eq_stateAt] at hstep
  exact ⟨_, _, hstep, h1, h2, rfl, rfl, h4, wrapInt_overflow⟩

/-- C17 as stated fails: on the input of 2147483648 letters `a`, the state that the first
call of `nextToken` leaves is reachable; its cursor is 2147483648, the consumed prefix has
no newline and 2147483648 characters, and the tracked column is -2147483648: negative, and
not the number of characters of the prefix. -/
theorem tracked_column_overflows :
    ∃ s, Reachable (List.replicate 2147483648 97) s ∧ s.pos = 2147483648 ∧
      10 ∉ (List.replicate 2147483648 97).take s.pos ∧
      (((List.replicate 2147483648 97).take s.pos).reverse.takeWhile
        (fun c => c != 10)).length = 2147483648 ∧
      s.column = -2147483648 ∧ s.column < 0 := by
  obtain ⟨h1, h2, h3, h4⟩ := reachable_after_letters 2147483648 (by decide)
  refine ⟨_, h1, rfl, h2, h3, h4.trans wrapInt_overflow, ?_⟩
  rw [h4, wrapInt_overflow]
  decide

end PascalLexer
